import Mathlib

/-!
Shallow embedding of the double-array trie implementation in cedar.go
(package cedar).  Go slices are modelled as total functions from Nat;
indices never read before initialisation agree with Go's zero-initialised
slice cells, so doubling the backing arrays in addBlock is content
preserving and only the Capacity scalar changes.  Go int is modelled as
Int where a value can be negative (Value, Check, Num, Trial, Reject,
base) and as Nat where it is an index (slot and block indices, heads,
Size, Capacity, labels).  Loops that walk linked structures that are not
structurally decreasing take an explicit fuel argument and return none
when the fuel runs out; the panic in follow is modelled as a distinct
error value.
-/

set_option linter.unusedVariables false

/-- Largest value of a 64-bit Go int, the ValueLimit constant of cedar.go. -/
def ValueLimit : Int := 2 ^ 63 - 1

/-- Element of the node array: base and check of the double-array paper
(struct node in cedar.go). -/
structure node where
  Value : Int
  Check : Int
deriving Repr, DecidableEq

/-- Method base() of node in cedar.go. -/
def node.base (n : node) : Int := -(n.Value + 1)

/-- Sibling and child byte labels for one slot (struct ninfo in cedar.go). -/
structure ninfo where
  Sibling : Nat
  Child : Nat
  End : Bool
deriving Repr, DecidableEq

/-- Linked-list pointers and statistics of one 256-slot block
(struct block in cedar.go). -/
structure block where
  Prev : Nat
  Next : Nat
  Num : Int
  Reject : Int
  Trial : Int
  Ehead : Nat
deriving Repr, DecidableEq

/-- The whole trie state (struct Cedar in cedar.go); the vals/vkey value
sidecar is external to every claim and is omitted. -/
structure Cedar where
  Array : Nat → node
  Ninfos : Nat → ninfo
  Blocks : Nat → block
  Reject : Nat → Int
  BheadF : Nat
  BheadC : Nat
  BheadO : Nat
  Capacity : Nat
  Size : Nat
  Ordered : Bool
  MaxTrial : Int

/-- Pointwise update of a function-backed array. -/
def upd {α : Type} (f : Nat → α) (i : Nat) (v : α) : Nat → α :=
  fun j => if j = i then v else f j

def Cedar.setArr (s : Cedar) (i : Nat) (n : node) : Cedar :=
  { s with Array := upd s.Array i n }

def Cedar.setAValue (s : Cedar) (i : Nat) (v : Int) : Cedar :=
  s.setArr i { s.Array i with Value := v }

def Cedar.setACheck (s : Cedar) (i : Nat) (v : Int) : Cedar :=
  s.setArr i { s.Array i with Check := v }

def Cedar.setNin (s : Cedar) (i : Nat) (nf : ninfo) : Cedar :=
  { s with Ninfos := upd s.Ninfos i nf }

def Cedar.setSib (s : Cedar) (i : Nat) (v : Nat) : Cedar :=
  s.setNin i { s.Ninfos i with Sibling := v }

def Cedar.setChd (s : Cedar) (i : Nat) (v : Nat) : Cedar :=
  s.setNin i { s.Ninfos i with Child := v }

def Cedar.setBlk (s : Cedar) (i : Nat) (b : block) : Cedar :=
  { s with Blocks := upd s.Blocks i b }

def Cedar.setRej (s : Cedar) (i : Nat) (v : Int) : Cedar :=
  { s with Reject := upd s.Reject i v }

/-- The three block-ring head fields BheadF, BheadC, BheadO; the Go code
passes pointers to these fields into popBlock / pushBlock. -/
inductive BH where
  | F
  | C
  | O
deriving Repr, DecidableEq

def Cedar.head (s : Cedar) : BH → Nat
  | .F => s.BheadF
  | .C => s.BheadC
  | .O => s.BheadO

def Cedar.setHeadV (s : Cedar) : BH → Nat → Cedar
  | .F, v => { s with BheadF := v }
  | .C, v => { s with BheadC := v }
  | .O, v => { s with BheadO := v }

/-- Function New of cedar.go: one block, slot 0 the root, slots 1..255 a
cyclic doubly linked free ring. -/
def newCedar : Cedar where
  Array := fun i =>
    if i = 0 then ⟨-2, 0⟩
    else if i = 1 then ⟨-255, -2⟩
    else if i = 255 then ⟨-254, -1⟩
    else if i < 256 then ⟨-((i : Int) - 1), -((i : Int) + 1)⟩
    else ⟨0, 0⟩
  Ninfos := fun _ => ⟨0, 0, false⟩
  Blocks := fun i =>
    if i = 0 then ⟨0, 0, 256, 257, 0, 1⟩ else ⟨0, 0, 0, 0, 0, 0⟩
  Reject := fun i => if i ≤ 256 then (i : Int) + 1 else 0
  BheadF := 0
  BheadC := 0
  BheadO := 0
  Capacity := 256
  Size := 256
  Ordered := true
  MaxTrial := 1

/-- Function popBlock of cedar.go: unlink block bi from the ring headed by
the given head field; last is the caller-computed flag that bi is the only
element. -/
def popBlock (s : Cedar) (bi : Nat) (h : BH) (last : Bool) : Cedar :=
  if last then s.setHeadV h 0
  else
    let p := (s.Blocks bi).Prev
    let n := (s.Blocks bi).Next
    let s := s.setBlk p { s.Blocks p with Next := n }
    let s := s.setBlk n { s.Blocks n with Prev := p }
    if bi = s.head h then s.setHeadV h n else s

/-- Function pushBlock of cedar.go: insert block bi at the head of the ring
headed by the given head field; empty is the caller-computed emptiness flag.
The three-way simultaneous assignment of the Go source is sequentialised in
its evaluation order. -/
def pushBlock (s : Cedar) (bi : Nat) (h : BH) (empty : Bool) : Cedar :=
  if empty then
    let s := s.setHeadV h bi
    s.setBlk bi { s.Blocks bi with Prev := bi, Next := bi }
  else
    let hd := s.head h
    let t := (s.Blocks hd).Prev
    let s := s.setBlk bi { s.Blocks bi with Prev := t }
    let s := s.setBlk bi { s.Blocks bi with Next := hd }
    let s := s.setHeadV h bi
    let s := s.setBlk hd { s.Blocks hd with Prev := bi }
    s.setBlk t { s.Blocks t with Next := bi }

/-- Function transferBlock of cedar.go: pop from one ring, push onto
another; the flags are computed exactly as at the Go call site. -/
def transferBlock (s : Cedar) (bi : Nat) (hin hout : BH) : Cedar :=
  let s1 := popBlock s bi hin (decide (bi = (s.Blocks bi).Next))
  pushBlock s1 bi hout (decide (s1.head hout = 0) && decide ((s1.Blocks bi).Num ≠ 0))

/-- Function addBlock of cedar.go: grow capacity if necessary, initialise a
fresh block whose 256 slots form a cyclic free ring, push it onto the Open
ring, and return its index. -/
def addBlock (s : Cedar) : Nat × Cedar :=
  let s := if s.Size = s.Capacity then { s with Capacity := 2 * s.Capacity } else s
  let sz := s.Size
  let bi := sz >>> 8
  let s := s.setBlk bi { s.Blocks bi with Num := 256, Reject := 257 }
  let s := s.setBlk bi { s.Blocks bi with Ehead := sz }
  let s := { s with Array := (fun j =>
    if j = sz then ⟨-((sz : Int) + 255), -((sz : Int) + 1)⟩
    else if j = sz + 255 then ⟨-((sz : Int) + 254), -(sz : Int)⟩
    else if sz < j ∧ j < sz + 255 then ⟨-((j : Int) - 1), -((j : Int) + 1)⟩
    else s.Array j) }
  let s := pushBlock s bi .O (decide (s.head .O = 0))
  let s := { s with Size := sz + 256 }
  (s.Size >>> 8 - 1, s)

/-- Function findPlace of cedar.go: pick a free slot from the first Closed
block, else the first Open block, else a freshly added block. -/
def findPlace (s : Cedar) : Nat × Cedar :=
  if s.BheadC ≠ 0 then ((s.Blocks s.BheadC).Ehead, s)
  else if s.BheadO ≠ 0 then ((s.Blocks s.BheadO).Ehead, s)
  else
    let (b, s) := addBlock s
    (b <<< 8, s)

/-- Function popEnode of cedar.go: take slot e (the xor target when base is
known, else any free slot) off its block's free ring, adjust the block
class, mark e occupied with parent frm, and record the new base when the
parent had none. -/
def popEnode (s : Cedar) (base : Int) (frm : Nat) (label : Nat) : Nat × Cedar :=
  let (e, s) := if base < 0 then findPlace s else (base.toNat ^^^ label, s)
  let bi := e >>> 8
  let s := s.setBlk bi { s.Blocks bi with Num := (s.Blocks bi).Num - 1 }
  let s :=
    if (s.Blocks bi).Num = 0 then
      if bi ≠ 0 then transferBlock s bi .C .F else s
    else
      let nv := (s.Array e).Value
      let nc := (s.Array e).Check
      let s := s.setACheck (-nv).toNat nc
      let s := s.setAValue (-nc).toNat nv
      let s := if e = (s.Blocks bi).Ehead then
          s.setBlk bi { s.Blocks bi with Ehead := (-nc).toNat } else s
      if bi ≠ 0 ∧ (s.Blocks bi).Num = 1 ∧ (s.Blocks bi).Trial ≠ s.MaxTrial then
        transferBlock s bi .O .C
      else s
  let s := s.setAValue e ValueLimit
  let s := s.setACheck e (frm : Int)
  let s := if base < 0 then s.setAValue frm (-((e ^^^ label : Nat) : Int) - 1) else s
  (e, s)

/-- Function pushEnode of cedar.go: return slot e to its block's free ring
at the head, adjust the block class, refresh the block's reject bound and
clear the slot's ninfo. -/
def pushEnode (s : Cedar) (e : Nat) : Cedar :=
  let bi := e >>> 8
  let s := s.setBlk bi { s.Blocks bi with Num := (s.Blocks bi).Num + 1 }
  let s :=
    if (s.Blocks bi).Num = 1 then
      let s := s.setBlk bi { s.Blocks bi with Ehead := e }
      let s := s.setArr e ⟨-(e : Int), -(e : Int)⟩
      if bi ≠ 0 then transferBlock s bi .F .C else s
    else
      let prev := (s.Blocks bi).Ehead
      let next := (-(s.Array prev).Check).toNat
      let s := s.setArr e ⟨-(prev : Int), -(next : Int)⟩
      let s := s.setACheck prev (-(e : Int))
      let s := s.setAValue next (-(e : Int))
      let s :=
        if ((s.Blocks bi).Num = 2 ∨ (s.Blocks bi).Trial = s.MaxTrial) ∧ bi ≠ 0 then
          transferBlock s bi .C .O
        else s
      s.setBlk bi { s.Blocks bi with Trial := 0 }
  let s :=
    if (s.Blocks bi).Reject < s.Reject ((s.Blocks bi).Num).toNat then
      s.setBlk bi { s.Blocks bi with Reject := s.Reject ((s.Blocks bi).Num).toNat }
    else s
  s.setNin e ⟨0, 0, false⟩

/-- Location of the byte cell the Go pointer c of pushSibling refers to:
either the Child field or the Sibling field of one ninfo. -/
inductive SibLoc where
  | child (i : Nat)
  | sib (i : Nat)
deriving Repr, DecidableEq

def getLoc (s : Cedar) : SibLoc → Nat
  | .child i => (s.Ninfos i).Child
  | .sib i => (s.Ninfos i).Sibling

def setLoc (s : Cedar) : SibLoc → Nat → Cedar
  | .child i, v => s.setChd i v
  | .sib i, v => s.setSib i v

/-- The chain walk of pushSibling: advance while Ordered holds and the label
at the location is nonzero and below the new label. -/
def pushSiblingLoop (s : Cedar) (base label : Nat) : SibLoc → Nat → Option SibLoc
  | _, 0 => none
  | loc, fuel+1 =>
      if s.Ordered = true ∧ getLoc s loc ≠ 0 ∧ getLoc s loc < label then
        pushSiblingLoop s base label (.sib (base ^^^ getLoc s loc)) fuel
      else some loc

/-- Function pushSibling of cedar.go: splice label into the sibling chain of
frm (whose base is the base argument). -/
def pushSibling (s : Cedar) (frm base : Nat) (label : Nat) (hasChild : Bool)
    (fuel : Nat) : Option Cedar := do
  let c0 : SibLoc := .child frm
  let keepOrder := if s.Ordered then decide (label > getLoc s c0) else decide (getLoc s c0 = 0)
  let loc ←
    if hasChild && keepOrder then
      pushSiblingLoop s base label (.sib (base ^^^ getLoc s c0)) fuel
    else pure c0
  let old := getLoc s loc
  let s1 := s.setSib (base ^^^ label) old
  pure (setLoc s1 loc label)

/-- The lockstep loop of consult, after the initial advance of both chains. -/
def consultLoop (s : Cedar) (baseN baseP : Nat) : Nat → Nat → Nat → Option Bool
  | cN, cP, 0 =>
      if cN ≠ 0 ∧ cP ≠ 0 then none else some (decide (cP ≠ 0))
  | cN, cP, fuel+1 =>
      if cN ≠ 0 ∧ cP ≠ 0 then
        consultLoop s baseN baseP ((s.Ninfos (baseN ^^^ cN)).Sibling)
          ((s.Ninfos (baseP ^^^ cP)).Sibling) fuel
      else some (decide (cP ≠ 0))

/-- Function consult of cedar.go: advance both sibling chains once, then in
lockstep until one terminates; report whether the incumbent chain is the one
still alive. -/
def consult (s : Cedar) (baseN baseP cN cP : Nat) (fuel : Nat) : Option Bool :=
  consultLoop s baseN baseP ((s.Ninfos (baseN ^^^ cN)).Sibling)
    ((s.Ninfos (baseP ^^^ cP)).Sibling) fuel

/-- First collecting loop of setChild: labels while Ordered and c ≤ label;
also returns the label where the walk stopped. -/
def setChildLe (s : Cedar) (base label : Nat) : Nat → Nat → Option (List Nat × Nat)
  | c, 0 =>
      if c ≠ 0 ∧ c ≤ label then none else some ([], c)
  | c, fuel+1 =>
      if c ≠ 0 ∧ c ≤ label then do
        let (l, r) ← setChildLe s base label ((s.Ninfos (base ^^^ c)).Sibling) fuel
        pure (c :: l, r)
      else some ([], c)

/-- Last collecting loop of setChild: the rest of the chain until label 0. -/
def setChildAll (s : Cedar) (base : Nat) : Nat → Nat → Option (List Nat)
  | c, 0 => if c ≠ 0 then none else some []
  | c, fuel+1 =>
      if c ≠ 0 then do
        let l ← setChildAll s base ((s.Ninfos (base ^^^ c)).Sibling) fuel
        pure (c :: l)
      else some []

/-- Function setChild of cedar.go: collect the ordered child list of the
chain starting at head label c under base, inserting label when flag is set. -/
def setChild (s : Cedar) (base : Nat) (c label : Nat) (flag : Bool)
    (fuel : Nat) : Option (List Nat) := do
  let (pre, c) := if c = 0 then ([0], (s.Ninfos (base ^^^ 0)).Sibling) else (([] : List Nat), c)
  let (mid, c) ← if s.Ordered then setChildLe s base label c fuel else pure (([] : List Nat), c)
  let post ← setChildAll s base c fuel
  pure (pre ++ mid ++ (if flag then [label] else []) ++ post)

/-- Inner check of listEhead: every child offset from base is a free slot. -/
def allFree (s : Cedar) (base : Nat) (child : List Nat) : Bool :=
  child.all (fun c => decide ((s.Array (base ^^^ c)).Check < 0))

/-- The ring scan of listEhead over the free slots of block bi. -/
def listEheadLoop (bi : Nat) (child : List Nat) : Cedar → Nat → Nat → Option (Nat × Cedar)
  | _, _, 0 => none
  | s, e, fuel+1 =>
      let base := e ^^^ child.headD 0
      if allFree s base child then
        some (e, s.setBlk bi { s.Blocks bi with Ehead := e })
      else
        let e2 := (-(s.Array e).Check).toNat
        if e2 = (s.Blocks bi).Ehead then some (0, s)
        else listEheadLoop bi child s e2 fuel

/-- Function listEhead of cedar.go: scan the free ring of block bi for a
slot e such that every child fits under base e xor child[0]; 0 on failure. -/
def listEhead (s : Cedar) (bi : Nat) (child : List Nat) (fuel : Nat) : Option (Nat × Cedar) :=
  listEheadLoop bi child s ((s.Blocks bi).Ehead) fuel

/-- The ring loop of listBi over the Open blocks, with bz the tail captured
at entry. -/
def listBiLoop (child : List Nat) (bz : Nat) : Cedar → Nat → Nat → Option (Nat × Cedar)
  | _, _, 0 => none
  | s, bi, fuel+1 =>
      match (if (s.Blocks bi).Num ≥ (child.length : Int) ∧
          (child.length : Int) < (s.Blocks bi).Reject then
          listEhead s bi child (fuel+1)
        else some (0, s)) with
      | none => none
      | some (e, s) =>
        if e > 0 then some (e, s)
        else
          let s := s.setBlk bi { s.Blocks bi with Reject := (child.length : Int) }
          let s :=
            if (s.Blocks bi).Reject < s.Reject ((s.Blocks bi).Num).toNat then
              s.setRej ((s.Blocks bi).Num).toNat ((s.Blocks bi).Reject)
            else s
          let biN := (s.Blocks bi).Next
          let s := s.setBlk bi { s.Blocks bi with Trial := (s.Blocks bi).Trial + 1 }
          let s := if (s.Blocks bi).Trial = s.MaxTrial then transferBlock s bi .O .C else s
          if bi = bz then some (0, s)
          else listBiLoop child bz s biN fuel

/-- Function listBi of cedar.go. -/
def listBi (s : Cedar) (bi : Nat) (child : List Nat) (fuel : Nat) : Option (Nat × Cedar) :=
  listBiLoop child ((s.Blocks s.BheadO).Prev) s bi fuel

/-- Function findPlaces of cedar.go: scan the Open ring, else fall back to a
fresh block. -/
def findPlaces (s : Cedar) (child : List Nat) (fuel : Nat) : Option (Nat × Cedar) :=
  if s.BheadO ≠ 0 then
    match listBi s s.BheadO child fuel with
    | none => none
    | some (e, s) =>
      if e > 0 then some (e, s)
      else
        let (b, s) := addBlock s
        some (b <<< 8, s)
  else
    let (b, s) := addBlock s
    some (b <<< 8, s)

/-- The grandchild rewiring loop inside list: walk the sibling chain from
label c under base b and point every check at the relocated parent. -/
def fixChecks (b tt : Nat) : Cedar → Nat → Nat → Option Cedar
  | _, _, 0 => none
  | s, c, fuel+1 =>
      if c ≠ 0 then
        let s := s.setACheck (b ^^^ c) (tt : Int)
        fixChecks b tt s ((s.Ninfos (b ^^^ c)).Sibling) fuel
      else some s

/-- The main loop of function list of cedar.go, over the child labels;
fromN is threaded because the moving chain can contain the new parent. -/
def listLoop (base frm nbase toPn : Nat) (labelN : Nat) (flag : Bool) (fuel : Nat) :
    Cedar → Nat → List Nat → Option (Cedar × Nat)
  | s, fromN, [] => some (s, fromN)
  | s, fromN, c :: rest => do
      let (tt, s) := popEnode s (base : Int) frm c
      let newTo := nbase ^^^ c
      let s := s.setSib tt (rest.headD 0)
      if flag ∧ newTo = toPn then
        listLoop base frm nbase toPn labelN flag fuel s fromN rest
      else
        let nsv := (s.Array newTo).Value
        let s := s.setAValue tt nsv
        let s ←
          if nsv < 0 ∧ c ≠ 0 then do
            let ch := (s.Ninfos newTo).Child
            let s := s.setChd tt ch
            let b := ((s.Array tt).base).toNat
            let s := s.setACheck (b ^^^ ch) (tt : Int)
            fixChecks b tt s ((s.Ninfos (b ^^^ ch)).Sibling) fuel
          else pure s
        let fromN := if ¬flag ∧ newTo = fromN then tt else fromN
        if ¬flag ∧ newTo = toPn then do
          let s ← pushSibling s fromN (toPn ^^^ labelN) labelN true fuel
          let s := s.setChd newTo 0
          let s := s.setAValue newTo ValueLimit
          let s := s.setACheck newTo (fromN : Int)
          listLoop base frm nbase toPn labelN flag fuel s fromN rest
        else
          let s := pushEnode s newTo
          listLoop base frm nbase toPn labelN flag fuel s fromN rest

/-- Function list of cedar.go: relocate the chosen sibling chain to its new
base; returns base, labelN, toPn unchanged together with the new state. -/
def list (s : Cedar) (base frm nbase fromN toPn : Nat) (labelN : Nat)
    (children : List Nat) (flag : Bool) (fuel : Nat) : Option (Nat × Nat × Nat × Cedar) := do
  let (s, _) ← listLoop base frm nbase toPn labelN flag fuel s fromN children
  pure (base, labelN, toPn, s)

/-- The child-list selection inside resolve of cedar.go: collect the new
parent's chain (with labelN spliced in) when flag holds, else the incumbent
parent's full chain. -/
def resolveChildren (s : Cedar) (fromN baseN fromP baseP : Nat) (labelN : Nat)
    (flag : Bool) (fuel : Nat) : Option (List Nat) :=
  if flag then setChild s baseN ((s.Ninfos fromN).Child) labelN true fuel
  else setChild s baseP ((s.Ninfos fromP).Child) 255 false fuel

/-- Function resolve of cedar.go: settle the collision of fromN with the
incumbent parent of the slot baseN xor labelN by relocating the chain that
consult chose.  The toNat coercions on fromP and baseP depart from the Go
code only in states where Go would fault on a negative slice index. -/
def resolve (s : Cedar) (fromN baseN : Nat) (labelN : Nat) (fuel : Nat) :
    Option (Nat × Cedar) := do
  let toPn := baseN ^^^ labelN
  let fromP := ((s.Array toPn).Check).toNat
  let baseP := ((s.Array fromP).base).toNat
  let flag ← consult s baseN baseP ((s.Ninfos fromN).Child) ((s.Ninfos fromP).Child) fuel
  let children ← resolveChildren s fromN baseN fromP baseP labelN flag fuel
  let (base0, s) ←
    if children.length = 1 then pure (findPlace s)
    else findPlaces s children fuel
  let base := base0 ^^^ children.headD 0
  let (frm, nbase) := if flag then (fromN, baseN) else (fromP, baseP)
  let s := if flag ∧ children.headD 0 = labelN then s.setChd frm labelN else s
  let s := s.setAValue frm (-(base : Int) - 1)
  let (base, labelN, toPn, s) ← list s base frm nbase fromN toPn labelN children flag fuel
  if flag then pure (base ^^^ labelN, s) else pure (toPn, s)

/-- Failure modes of the embedded operations: fuel exhaustion of a chain or
ring walk, or the final panic of follow. -/
inductive Err where
  | fuel
  | internal
deriving Repr, DecidableEq

/-- Function follow of cedar.go: produce the slot reached from frm under
label, allocating or resolving a conflict as needed.  The panic at the end
of the Go function is the internal error value. -/
def follow (s : Cedar) (frm : Nat) (label : Nat) (fuel : Nat) : Except Err (Nat × Cedar) :=
  let base := (s.Array frm).base
  if base < 0 ∨ (s.Array (base.toNat ^^^ label)).Check < 0 then
    let hasChild := decide (0 ≤ base) &&
      decide ((s.Array (base.toNat ^^^ (s.Ninfos frm).Child)).Check = (frm : Int))
    let (tt, s1) := popEnode s base frm label
    match pushSibling s1 frm (tt ^^^ label) label hasChild fuel with
    | none => .error .fuel
    | some s2 => .ok (tt, s2)
  else
    let tt := base.toNat ^^^ label
    if (s.Array tt).Check ≠ (frm : Int) then
      match resolve s frm base.toNat label fuel with
      | none => .error .fuel
      | some r => .ok r
    else if (s.Array tt).Check = (frm : Int) then
      .ok (tt, s)
    else
      .error .internal

/-- The intermediate-terminal relocation at the top of the getV loop body:
when a terminal value lives on frm, move it onto the 0-labelled child
obtained by follow(frm, 0). -/
def getVFix (s : Cedar) (frm : Nat) (fuel : Nat) : Except Err Cedar :=
  let v := (s.Array frm).Value
  if 0 ≤ v ∧ v ≠ ValueLimit then
    match follow s frm 0 fuel with
    | .error e => .error e
    | .ok (tt, s) => .ok (s.setAValue tt v)
  else .ok s

/-- Function getV of cedar.go: walk the key bytes from frm, creating edges
as needed, and return the slot that holds (or will hold) the value. -/
def getV (s : Cedar) (key : List Nat) (frm : Nat) (fuel : Nat) : Except Err (Nat × Cedar) :=
  match key with
  | [] =>
      if (s.Array frm).Value < 0 then follow s frm 0 fuel
      else .ok (frm, s)
  | c :: rest => do
      let s ← getVFix s frm fuel
      let (frm2, s) ← follow s frm c fuel
      getV s rest frm2 fuel

/-! ### Basic frame lemmas -/

/-- Labels of a sibling chain read from label c onwards under the given
base, following Sibling links until label 0; none when the fuel cannot
exhaust the chain. -/
def tailChain (s : Cedar) (base : Nat) : Nat → Nat → Option (List Nat)
  | _, 0 => none
  | c, fuel+1 =>
      if c = 0 then some []
      else (tailChain s base ((s.Ninfos (base ^^^ c)).Sibling) fuel).map (fun l => c :: l)

/-- The full sibling chain of a parent whose head child label is c: the
head itself followed by the labels reached through Sibling links. -/
def sibChain (s : Cedar) (base c : Nat) (fuel : Nat) : Option (List Nat) :=
  (tailChain s base ((s.Ninfos (base ^^^ c)).Sibling) fuel).map (fun l => c :: l)

/-- Pure walk of the getV loop: every visited node is branching (negative
Value, so no pending terminal is relocated) and the child slot under each
key byte checks back to its parent; returns the final node. -/
def pathWalk (s : Cedar) : Nat → List Nat → Option Nat
  | frm, [] => some frm
  | frm, c :: rest =>
      if (s.Array frm).Value < 0 ∧
          (s.Array (((s.Array frm).base).toNat ^^^ c)).Check = (frm : Int) then
        pathWalk s (((s.Array frm).base).toNat ^^^ c) rest
      else none

/-- Terminal slot of a walked-to node: the node itself when it holds a
nonnegative Value, else its 0-labelled child when that child checks back. -/
def pathTerm (s : Cedar) (f : Nat) : Option Nat :=
  if (s.Array f).Value < 0 then
    if (s.Array (((s.Array f).base).toNat ^^^ 0)).Check = (f : Int) then
      some (((s.Array f).base).toNat ^^^ 0)
    else none
  else some f

/-- The path for key and its terminal slot exist in the state, as they do
after a successful getV of that key. -/
def pathExists (s : Cedar) (key : List Nat) : Option Nat :=
  (pathWalk s 0 key).bind (pathTerm s)

/-- Concrete state with the two-node path for key [7] already built: the
root has base 1, node 6 checks back to the root under label 7, and slot 8
is its 0-labelled terminal child. -/
def pathWitState : Cedar :=
  { newCedar with Array := fun i =>
      if i = 0 then ⟨-2, 0⟩
      else if i = 6 then ⟨-9, 0⟩
      else if i = 8 then ⟨42, 6⟩
      else ⟨0, -1⟩ }

/-- A slot acting as a branching node in the sense of the claim: its Value
is negative, encoding a child base. -/
def isBranching (s : Cedar) (i : Nat) : Prop := (s.Array i).Value < 0

/-- A slot holding a terminal value: nonnegative Value other than the
occupied-no-value sentinel. -/
def holdsTerminal (s : Cedar) (i : Nat) : Prop :=
  0 ≤ (s.Array i).Value ∧ (s.Array i).Value ≠ ValueLimit

/-- State for the relocation witness: slot 3 holds terminal value 7 while
being on the walk path (its parent is the root); everything else is the
fresh trie. -/
def relocWitState : Cedar :=
  { newCedar with Array := fun i =>
      if i = 0 then ⟨-2, 0⟩
      else if i = 3 then ⟨7, 0⟩
      else if i = 1 then ⟨-255, -2⟩
      else if i = 255 then ⟨-254, -1⟩
      else if i < 256 then ⟨-((i : Int) - 1), -((i : Int) + 1)⟩
      else ⟨0, 0⟩ }

/-- The successor relation R holds along consecutive elements of the list. -/
def chainedR (R : Nat → Nat → Prop) : List Nat → Prop
  | [] => True
  | [_] => True
  | a :: b :: t => R a b ∧ chainedR R (b :: t)

/-- A nonempty cyclic doubly linked ring, listed from its head: consecutive
links plus the closing link from the last element back to the head. -/
def IsRingR (R : Nat → Nat → Prop) (L : List Nat) : Prop :=
  L ≠ [] ∧ L.Nodup ∧ chainedR R L ∧ R (L.getLastD 0) (L.headD 0)

/-- The link relation of the block rings: b directly follows a. -/
def bringR (s : Cedar) (a b : Nat) : Prop :=
  (s.Blocks a).Next = b ∧ (s.Blocks b).Prev = a

/-- The ring of one head field: empty with head 0, or a well-formed ring
whose head element the head field names. -/
def ringAt (s : Cedar) (h : BH) (L : List Nat) : Prop :=
  (L = [] → s.head h = 0) ∧ (L ≠ [] → IsRingR (bringR s) L ∧ s.head h = L.headD 0)

/-- Well-formedness of the three block rings.  LF, LC, LO list the member
blocks of the Full, Closed and Open rings.  Block 0 is a member of no ring;
the Full ring's cycle additionally runs through block 0, which acts as its
permanent sentinel (the pushBlock path taken when a full block enters an
empty Full ring splices block 0 into the cycle). -/
def RingsSpec (s : Cedar) (LF LC LO : List Nat) : Prop :=
  IsRingR (bringR s) (LF ++ [0]) ∧
  s.BheadF = (LF ++ [0]).headD 0 ∧
  ringAt s .C LC ∧ ringAt s .O LO ∧
  (LF ++ (LC ++ LO)).Nodup ∧
  (∀ b, b ∈ LF ++ (LC ++ LO) → 1 ≤ b ∧ b < s.Size >>> 8) ∧
  (∀ b, 1 ≤ b → b < s.Size >>> 8 → b ∈ LF ++ (LC ++ LO))

/-- A small concrete state: two blocks, block 0 alone on the Full cycle,
block 1 a singleton Closed ring with one free slot at 300. -/
def ringWitState : Cedar where
  Array := fun i => if i = 300 then ⟨-300, -300⟩ else ⟨0, 0⟩
  Ninfos := fun _ => ⟨0, 0, false⟩
  Blocks := fun i =>
    if i = 0 then ⟨0, 0, 256, 257, 0, 1⟩
    else if i = 1 then ⟨1, 1, 1, 257, 0, 300⟩
    else ⟨0, 0, 0, 0, 0, 0⟩
  Reject := fun i => if i ≤ 256 then (i : Int) + 1 else 0
  BheadF := 0
  BheadC := 1
  BheadO := 0
  Capacity := 512
  Size := 512
  Ordered := true
  MaxTrial := 1


/-- The link relation of one block's free-slot ring: the Check field of a
free slot sign-encodes its successor, the Value field its predecessor. -/
def eringR (s : Cedar) (a b : Nat) : Prop :=
  (s.Array a).Check = -(b : Int) ∧ (s.Array b).Value = -(a : Int)

/-- One block's free ring, listed from Ehead: Num counts the members, all
members are slots of this block other than slot 0, and a nonempty ring is a
cyclic doubly linked list headed by Ehead. -/
def sringAt (s : Cedar) (b : Nat) (L : List Nat) : Prop :=
  (s.Blocks b).Num = (L.length : Int) ∧
  (∀ e, e ∈ L → e >>> 8 = b ∧ 1 ≤ e) ∧
  (L ≠ [] → IsRingR (eringR s) L ∧ (s.Blocks b).Ehead = L.headD 0)

/-- The free-slot invariant of C2: a family of per-block free lists such
that every block of the arena carries its ring and a slot is free (negative
Check) exactly when it is on its own block's list. -/
def EnodeInv (s : Cedar) (free : Nat → List Nat) : Prop :=
  (∀ b, b < s.Size >>> 8 → sringAt s b (free b)) ∧
  (∀ e, e < s.Size → ((s.Array e).Check < 0 ↔ e ∈ free (e >>> 8)))

theorem upd_apply {α : Type} (f : Nat → α) (i : Nat) (v : α) (j : Nat) :
    upd f i v j = if j = i then v else f j := rfl

theorem upd_self {α : Type} (f : Nat → α) (i : Nat) (v : α) :
    upd f i v i = v := by simp [upd]

theorem upd_other {α : Type} (f : Nat → α) (i : Nat) (v : α) (j : Nat) (h : j ≠ i) :
    upd f i v j = f j := by simp [upd, h]

/-- C10: the panic at the end of follow is unreachable; after the branch for
a missing base or free target and the branch for a foreign parent, the
remaining case always has check equal to frm, so follow returns through one
of its three case branches and never produces the internal error. -/
theorem follow_panic_unreachable (s : Cedar) (frm label fuel : Nat) :
    follow s frm label fuel ≠ Except.error Err.internal := by
  unfold follow
  by_cases h1 : (s.Array frm).base < 0 ∨
      (s.Array ((s.Array frm).base.toNat ^^^ label)).Check < 0
  · simp only [if_pos h1]
    rcases popEnode s (s.Array frm).base frm label with ⟨t, s1⟩
    cases pushSibling s1 frm (t ^^^ label) label _ fuel <;> simp
  · simp only [if_neg h1]
    by_cases h2 : (s.Array ((s.Array frm).base.toNat ^^^ label)).Check ≠ (frm : Int)
    · simp only [if_pos h2]
      cases resolve s frm (s.Array frm).base.toNat label fuel <;> simp
    · simp only [if_neg h2]
      rw [if_pos (by omega : (s.Array ((s.Array frm).base.toNat ^^^ label)).Check = (frm : Int))]
      simp

/-! ### Sibling chains and consult (C6) -/

theorem tailChain_nil (s : Cedar) (base f1 : Nat) (l : List Nat)
    (h : tailChain s base 0 f1 = some l) : l = [] := by
  cases f1 with
  | zero => simp [tailChain] at h
  | succ n => simp [tailChain] at h; exact h

theorem tailChain_cons (s : Cedar) (base c f1 : Nat) (l : List Nat) (hc : c ≠ 0)
    (h : tailChain s base c f1 = some l) :
    ∃ f' l', f1 = f' + 1 ∧ l = c :: l' ∧
      tailChain s base ((s.Ninfos (base ^^^ c)).Sibling) f' = some l' := by
  cases f1 with
  | zero => simp [tailChain] at h
  | succ n =>
      simp only [tailChain, if_neg hc, Option.map_eq_some'] at h
      obtain ⟨l', h', rfl⟩ := h
      exact ⟨n, l', rfl, rfl, h'⟩

theorem consult_exit (s : Cedar) (bN bP cN cP f1 f2 : Nat) (lN lP : List Nat)
    (h1 : tailChain s bN cN f1 = some lN)
    (h2 : tailChain s bP cP f2 = some lP)
    (hstop : cN = 0 ∨ cP = 0) :
    (decide (cP ≠ 0) = true ↔ lN.length < lP.length) := by
  rcases hstop with h | h
  · subst h
    have hN := tailChain_nil s bN f1 lN h1
    subst hN
    by_cases hp : cP = 0
    · subst hp
      have hP := tailChain_nil s bP f2 lP h2
      subst hP
      simp
    · obtain ⟨f', l', _, rfl, _⟩ := tailChain_cons s bP cP f2 lP hp h2
      simp [hp]
  · subst h
    have hP := tailChain_nil s bP f2 lP h2
    subst hP
    simp

theorem consultLoop_spec (s : Cedar) (bN bP : Nat) :
    ∀ fuel cN cP f1 f2 (lN lP : List Nat) (b : Bool),
    tailChain s bN cN f1 = some lN →
    tailChain s bP cP f2 = some lP →
    consultLoop s bN bP cN cP fuel = some b →
    (b = true ↔ lN.length < lP.length) := by
  intro fuel
  induction fuel with
  | zero =>
      intro cN cP f1 f2 lN lP b h1 h2 hc
      unfold consultLoop at hc
      split at hc
      · simp at hc
      · rename_i hor
        rw [Classical.not_and_iff_or_not_not] at hor
        simp only [ne_eq, not_not] at hor
        obtain rfl := Option.some.inj hc
        exact consult_exit s bN bP cN cP f1 f2 lN lP h1 h2 hor
  | succ n ih =>
      intro cN cP f1 f2 lN lP b h1 h2 hc
      unfold consultLoop at hc
      split at hc
      · rename_i hand
        obtain ⟨hcN, hcP⟩ := hand
        obtain ⟨f1', lN', _, rfl, h1'⟩ := tailChain_cons s bN cN f1 lN hcN h1
        obtain ⟨f2', lP', _, rfl, h2'⟩ := tailChain_cons s bP cP f2 lP hcP h2
        have := ih _ _ f1' f2' lN' lP' b h1' h2' hc
        simpa using this
      · rename_i hor
        rw [Classical.not_and_iff_or_not_not] at hor
        simp only [ne_eq, not_not] at hor
        obtain rfl := Option.some.inj hc
        exact consult_exit s bN bP cN cP f1 f2 lN lP h1 h2 hor

/-- C6: consult returns true exactly when the new parent's sibling chain
(starting at head label cN under baseN) is strictly shorter than the
incumbent parent's chain (starting at cP under baseP); and inside resolve
the child set collected for relocation is the new parent's chain exactly
when the flag is true, the incumbent's chain otherwise. -/
theorem consult_strictly_shorter (s : Cedar) (baseN baseP cN cP f1 f2 fuel : Nat)
    (lN lP : List Nat) (b : Bool)
    (h1 : sibChain s baseN cN f1 = some lN)
    (h2 : sibChain s baseP cP f2 = some lP)
    (hc : consult s baseN baseP cN cP fuel = some b) :
    (b = true ↔ lN.length < lP.length) ∧
    (∀ fromN fromP labelN fl,
      resolveChildren s fromN baseN fromP baseP labelN fl fuel =
        if fl then setChild s baseN ((s.Ninfos fromN).Child) labelN true fuel
        else setChild s baseP ((s.Ninfos fromP).Child) 255 false fuel) := by
  constructor
  · simp only [sibChain, Option.map_eq_some'] at h1 h2
    obtain ⟨tN, h1', rfl⟩ := h1
    obtain ⟨tP, h2', rfl⟩ := h2
    have := consultLoop_spec s baseN baseP fuel _ _ f1 f2 tN tP b h1' h2' hc
    simpa using this
  · intro fromN fromP labelN fl
    rfl

/-- Witness for consult_strictly_shorter: in the fresh trie all sibling
links are zero, so the chains headed by labels 5 and 7 both have length
one and consult reports false. -/
theorem consult_strictly_shorter_witness :
    (false = true ↔ ([5] : List Nat).length < ([7] : List Nat).length) ∧
    (∀ fromN fromP labelN fl,
      resolveChildren newCedar fromN 0 fromP 0 labelN fl 10 =
        if fl then setChild newCedar 0 ((newCedar.Ninfos fromN).Child) labelN true 10
        else setChild newCedar 0 ((newCedar.Ninfos fromP).Child) 255 false 10) :=
  consult_strictly_shorter newCedar 0 0 5 7 3 3 10 [5] [7] false rfl rfl rfl

/-! ### Pure traversal and idempotence of getV (C9) -/

theorem except_ok_bind {e a b : Type} (x : a) (f : a → Except e b) :
    (Except.ok x >>= f : Except e b) = f x := rfl

theorem follow_pure (s : Cedar) (frm c fuel : Nat)
    (hv : (s.Array frm).Value < 0)
    (hc : (s.Array (((s.Array frm).base).toNat ^^^ c)).Check = (frm : Int)) :
    follow s frm c fuel = .ok ((((s.Array frm).base).toNat ^^^ c), s) := by
  have hb : ¬ (s.Array frm).base < 0 := by unfold node.base; omega
  unfold follow
  rw [if_neg, if_neg (by rw [hc]; simp), if_pos hc]
  rw [not_or]
  refine ⟨hb, ?_⟩
  rw [hc]
  simp

theorem getV_pure (s : Cedar) (key : List Nat) :
    ∀ frm t fuel, ((pathWalk s frm key).bind (pathTerm s)) = some t →
    getV s key frm fuel = .ok (t, s) := by
  induction key with
  | nil =>
      intro frm t fuel h
      simp only [pathWalk, Option.some_bind, pathTerm] at h
      unfold getV
      by_cases hv : (s.Array frm).Value < 0
      · rw [if_pos hv] at h ⊢
        by_cases hc : (s.Array (((s.Array frm).base).toNat ^^^ 0)).Check = (frm : Int)
        · rw [if_pos hc] at h
          obtain rfl := Option.some.inj h
          exact follow_pure s frm 0 fuel hv hc
        · rw [if_neg hc] at h
          simp at h
      · rw [if_neg hv] at h ⊢
        obtain rfl := Option.some.inj h
        rfl
  | cons c rest ih =>
      intro frm t fuel h
      simp only [pathWalk] at h
      split at h
      · rename_i hcond
        obtain ⟨hv, hc⟩ := hcond
        unfold getV
        have hfix : getVFix s frm fuel = .ok s := by
          unfold getVFix
          rw [if_neg]
          omega
        have hfol := follow_pure s frm c fuel hv hc
        simp only [hfix, except_ok_bind, hfol]
        exact ih _ t fuel h
      · exact Option.noConfusion h

/-- C9: for a key whose path and terminal slot already exist (as they do in
any state in which getV of that key has returned), calling getV from the
root returns that terminal slot and the state itself, so Array, Ninfos,
Blocks, Reject, Size, Capacity and the three ring heads are all identical
before and after the repeated call, and the returned slot index is the same
on every repetition. -/
theorem getV_idempotent (s : Cedar) (key : List Nat) (fuel t : Nat)
    (h : pathExists s key = some t) :
    getV s key 0 fuel = .ok (t, s) :=
  getV_pure s key 0 t fuel h

/-- Witness for getV_idempotent at the concrete state pathWitState. -/
theorem getV_idempotent_witness :
    pathExists pathWitState [7] = some 8 ∧
    getV pathWitState [7] 0 5 = .ok (8, pathWitState) :=
  ⟨by rfl, getV_idempotent pathWitState [7] 5 8 (by rfl)⟩

/-! ### Frame lemmas for the state operations -/

theorem setHeadV_Array (s : Cedar) (h : BH) (v : Nat) : (s.setHeadV h v).Array = s.Array := by
  cases h <;> rfl

theorem setHeadV_Ninfos (s : Cedar) (h : BH) (v : Nat) : (s.setHeadV h v).Ninfos = s.Ninfos := by
  cases h <;> rfl

theorem setHeadV_Blocks (s : Cedar) (h : BH) (v : Nat) : (s.setHeadV h v).Blocks = s.Blocks := by
  cases h <;> rfl

theorem setHeadV_Size (s : Cedar) (h : BH) (v : Nat) : (s.setHeadV h v).Size = s.Size := by
  cases h <;> rfl

theorem setHeadV_Capacity (s : Cedar) (h : BH) (v : Nat) : (s.setHeadV h v).Capacity = s.Capacity := by
  cases h <;> rfl

theorem setHeadV_Reject (s : Cedar) (h : BH) (v : Nat) : (s.setHeadV h v).Reject = s.Reject := by
  cases h <;> rfl

theorem popBlock_frame (s : Cedar) (bi : Nat) (h : BH) (last : Bool) :
    (popBlock s bi h last).Array = s.Array ∧ (popBlock s bi h last).Ninfos = s.Ninfos ∧
    (popBlock s bi h last).Size = s.Size ∧ (popBlock s bi h last).Capacity = s.Capacity ∧
    (popBlock s bi h last).Reject = s.Reject := by
  unfold popBlock
  split
  · exact ⟨setHeadV_Array .., setHeadV_Ninfos .., setHeadV_Size .., setHeadV_Capacity ..,
      setHeadV_Reject ..⟩
  · dsimp only
    split
    · exact ⟨setHeadV_Array .., setHeadV_Ninfos .., setHeadV_Size .., setHeadV_Capacity ..,
        setHeadV_Reject ..⟩
    · exact ⟨rfl, rfl, rfl, rfl, rfl⟩

theorem pushBlock_frame (s : Cedar) (bi : Nat) (h : BH) (empty : Bool) :
    (pushBlock s bi h empty).Array = s.Array ∧ (pushBlock s bi h empty).Ninfos = s.Ninfos ∧
    (pushBlock s bi h empty).Size = s.Size ∧ (pushBlock s bi h empty).Capacity = s.Capacity ∧
    (pushBlock s bi h empty).Reject = s.Reject := by
  unfold pushBlock
  split
  · refine ⟨?_, ?_, ?_, ?_, ?_⟩ <;> simp [Cedar.setBlk, setHeadV_Array, setHeadV_Ninfos,
      setHeadV_Size, setHeadV_Capacity, setHeadV_Reject, setHeadV_Blocks]
  · refine ⟨?_, ?_, ?_, ?_, ?_⟩ <;> simp [Cedar.setBlk, setHeadV_Array, setHeadV_Ninfos,
      setHeadV_Size, setHeadV_Capacity, setHeadV_Reject, setHeadV_Blocks]

theorem transferBlock_frame (s : Cedar) (bi : Nat) (hin hout : BH) :
    (transferBlock s bi hin hout).Array = s.Array ∧
    (transferBlock s bi hin hout).Ninfos = s.Ninfos ∧
    (transferBlock s bi hin hout).Size = s.Size ∧
    (transferBlock s bi hin hout).Capacity = s.Capacity ∧
    (transferBlock s bi hin hout).Reject = s.Reject := by
  unfold transferBlock
  obtain ⟨h1, h2, h3, h4, h5⟩ := pushBlock_frame (popBlock s bi hin (decide (bi = (s.Blocks bi).Next))) bi hout _
  obtain ⟨g1, g2, g3, g4, g5⟩ := popBlock_frame s bi hin (decide (bi = (s.Blocks bi).Next))
  exact ⟨h1.trans g1, h2.trans g2, h3.trans g3, h4.trans g4, h5.trans g5⟩

/-! ### Arithmetic of block-aligned xor -/

theorem xor_aligned_add {n d : Nat} (hdvd : 256 ∣ n) (hd : d < 256) : n ^^^ d = n + d := by
  obtain ⟨q, rfl⟩ := hdvd
  have h256 : (256 : Nat) = 2 ^ 8 := by norm_num
  rw [h256] at hd ⊢
  apply Nat.eq_of_testBit_eq
  intro j
  have hrhs := Nat.testBit_mul_pow_two_add q (i := 8) hd j
  rw [hrhs, Nat.testBit_xor, Nat.testBit_mul_pow_two]
  by_cases hj : j < 8
  · simp [hj, Nat.not_le.mpr hj]
  · have : d < 2 ^ j := lt_of_lt_of_le hd (Nat.pow_le_pow_right (by norm_num) (Nat.not_lt.mp hj))
    simp [hj, Nat.testBit_lt_two_pow this, Nat.not_lt.mp hj]

theorem xor_byte_lt {a b : Nat} (ha : a < 256) (hb : b < 256) : a ^^^ b < 256 := by
  have h256 : (256 : Nat) = 2 ^ 8 := by norm_num
  rw [h256] at ha hb ⊢
  exact Nat.xor_lt_two_pow ha hb

/-! ### Free-slot placement (C7) -/

theorem allFree_congr {s s' : Cedar} (h : s'.Array = s.Array) (b : Nat) (ch : List Nat) :
    allFree s' b ch = allFree s b ch := by
  unfold allFree
  rw [h]

theorem listEheadLoop_spec (bi : Nat) (child : List Nat) :
    ∀ fuel (s : Cedar) (e r : Nat) (s' : Cedar),
    listEheadLoop bi child s e fuel = some (r, s') →
    s'.Array = s.Array ∧ s'.Ninfos = s.Ninfos ∧ s'.Size = s.Size ∧
    s'.Capacity = s.Capacity ∧ s'.Reject = s.Reject ∧
    (r ≠ 0 → allFree s (r ^^^ child.headD 0) child = true) := by
  intro fuel
  induction fuel with
  | zero => intro s e r s' h; simp [listEheadLoop] at h
  | succ n ih =>
      intro s e r s' h
      unfold listEheadLoop at h
      dsimp only at h
      split at h
      · rename_i hfree
        obtain ⟨rfl, rfl⟩ : e = r ∧ s.setBlk bi { s.Blocks bi with Ehead := e } = s' := by
          have := Option.some.inj h
          exact ⟨congrArg Prod.fst this, congrArg Prod.snd this⟩
        exact ⟨rfl, rfl, rfl, rfl, rfl, fun _ => hfree⟩
      · split at h
        · obtain ⟨rfl, rfl⟩ : (0 : Nat) = r ∧ s = s' := by
            have := Option.some.inj h
            exact ⟨congrArg Prod.fst this, congrArg Prod.snd this⟩
          exact ⟨rfl, rfl, rfl, rfl, rfl, fun hr => absurd rfl hr⟩
        · exact ih s _ r s' h

theorem listBiLoop_spec (child : List Nat) (bz : Nat) :
    ∀ fuel (s : Cedar) (bi e : Nat) (s' : Cedar),
    listBiLoop child bz s bi fuel = some (e, s') →
    s'.Array = s.Array ∧ s'.Ninfos = s.Ninfos ∧ s'.Size = s.Size ∧ s'.Capacity = s.Capacity ∧
    (e ≠ 0 → allFree s (e ^^^ child.headD 0) child = true) := by
  intro fuel
  induction fuel with
  | zero => intro s bi e s' h; simp [listBiLoop] at h
  | succ n ih =>
      intro s bi e s' h
      unfold listBiLoop at h
      rcases hsc : (if (s.Blocks bi).Num ≥ (child.length : Int) ∧
          (child.length : Int) < (s.Blocks bi).Reject then
          listEhead s bi child (n+1) else some (0, s)) with _ | ⟨e1, s1⟩ <;> rw [hsc] at h
      · exact absurd h (by simp)
      · have hstep : s1.Array = s.Array ∧ s1.Ninfos = s.Ninfos ∧ s1.Size = s.Size ∧
            s1.Capacity = s.Capacity ∧
            (e1 ≠ 0 → allFree s (e1 ^^^ child.headD 0) child = true) := by
          split at hsc
          · obtain ⟨a1, a2, a3, a4, a5, a6⟩ :=
              listEheadLoop_spec bi child (n+1) s ((s.Blocks bi).Ehead) e1 s1 hsc
            exact ⟨a1, a2, a3, a4, fun he => (allFree_congr a1 _ child) ▸ a6 he⟩
          · obtain ⟨rfl, rfl⟩ : (0 : Nat) = e1 ∧ s = s1 := by
              have := Option.some.inj hsc
              exact ⟨congrArg Prod.fst this, congrArg Prod.snd this⟩
            exact ⟨rfl, rfl, rfl, rfl, fun hr => absurd rfl hr⟩
        obtain ⟨a1, a2, a3, a4, a6⟩ := hstep
        dsimp only at h
        by_cases he1 : e1 > 0
        · rw [if_pos he1] at h
          obtain ⟨rfl, rfl⟩ : e1 = e ∧ s1 = s' := by
            have := Option.some.inj h
            exact ⟨congrArg Prod.fst this, congrArg Prod.snd this⟩
          exact ⟨a1, a2, a3, a4, fun he => a6 (by omega)⟩
        · rw [if_neg he1] at h
          set s2 := s1.setBlk bi { s1.Blocks bi with Reject := (child.length : Int) } with hs2
          set s3 := if (s2.Blocks bi).Reject < s2.Reject ((s2.Blocks bi).Num).toNat then
              s2.setRej ((s2.Blocks bi).Num).toNat ((s2.Blocks bi).Reject) else s2 with hs3
          set s4 := s3.setBlk bi { s3.Blocks bi with Trial := (s3.Blocks bi).Trial + 1 } with hs4
          set s5 := if (s4.Blocks bi).Trial = s4.MaxTrial then transferBlock s4 bi .O .C else s4
            with hs5
          have hframe : s5.Array = s1.Array ∧ s5.Ninfos = s1.Ninfos ∧ s5.Size = s1.Size ∧
              s5.Capacity = s1.Capacity := by
            have h3 : s3.Array = s2.Array ∧ s3.Ninfos = s2.Ninfos ∧ s3.Size = s2.Size ∧
                s3.Capacity = s2.Capacity := by
              rw [hs3]; split <;> exact ⟨rfl, rfl, rfl, rfl⟩
            have h5 : s5.Array = s4.Array ∧ s5.Ninfos = s4.Ninfos ∧ s5.Size = s4.Size ∧
                s5.Capacity = s4.Capacity := by
              rw [hs5]; split
              · obtain ⟨b1, b2, b3, b4, _⟩ := transferBlock_frame s4 bi .O .C
                exact ⟨b1, b2, b3, b4⟩
              · exact ⟨rfl, rfl, rfl, rfl⟩
            exact ⟨h5.1.trans h3.1, h5.2.1.trans h3.2.1, h5.2.2.1.trans h3.2.2.1,
              h5.2.2.2.trans h3.2.2.2⟩
          split at h
          · obtain ⟨rfl, rfl⟩ : (0 : Nat) = e ∧ s5 = s' := by
              have := Option.some.inj h
              exact ⟨congrArg Prod.fst this, congrArg Prod.snd this⟩
            exact ⟨hframe.1.trans a1, hframe.2.1.trans a2, hframe.2.2.1.trans a3,
              hframe.2.2.2.trans a4, fun hr => absurd rfl hr⟩
          · obtain ⟨b1, b2, b3, b4, b6⟩ := ih s5 _ e s' h
            refine ⟨b1.trans (hframe.1.trans a1), b2.trans (hframe.2.1.trans a2),
              b3.trans (hframe.2.2.1.trans a3), b4.trans (hframe.2.2.2.trans a4), fun he => ?_⟩
            have := b6 he
            rwa [allFree_congr (hframe.1.trans a1) _ child] at this

theorem addBlock_parts (s : Cedar) :
    (addBlock s).1 = s.Size >>> 8 ∧ (addBlock s).2.Size = s.Size + 256 ∧
    (addBlock s).2.Array = (fun j =>
      if j = s.Size then ⟨-((s.Size : Int) + 255), -((s.Size : Int) + 1)⟩
      else if j = s.Size + 255 then ⟨-((s.Size : Int) + 254), -(s.Size : Int)⟩
      else if s.Size < j ∧ j < s.Size + 255 then ⟨-((j : Int) - 1), -((j : Int) + 1)⟩
      else s.Array j) := by
  have hdiv : (s.Size + 256) >>> 8 - 1 = s.Size >>> 8 := by
    rw [Nat.shiftRight_eq_div_pow, Nat.shiftRight_eq_div_pow]
    have h2 : (2 : Nat) ^ 8 = 256 := by norm_num
    rw [h2, Nat.add_div_right _ (by norm_num)]
    omega
  unfold addBlock
  dsimp only
  set c := (if s.Size = s.Capacity then { s with Capacity := 2 * s.Capacity } else s) with hc
  have hcS : c.Size = s.Size := by rw [hc]; split <;> rfl
  have hcA : c.Array = s.Array := by rw [hc]; split <;> rfl
  refine ⟨?_, ?_, ?_⟩
  · show (c.Size + 256) >>> 8 - 1 = s.Size >>> 8
    rw [hcS, hdiv]
  · show c.Size + 256 = s.Size + 256
    rw [hcS]
  · show (pushBlock _ (c.Size >>> 8) BH.O _).Array = _
    rw [(pushBlock_frame _ _ _ _).1]
    show (fun j =>
      if j = c.Size then ⟨-((c.Size : Int) + 255), -((c.Size : Int) + 1)⟩
      else if j = c.Size + 255 then ⟨-((c.Size : Int) + 254), -(c.Size : Int)⟩
      else if c.Size < j ∧ j < c.Size + 255 then ⟨-((j : Int) - 1), -((j : Int) + 1)⟩
      else c.Array j) = _
    rw [hcS, hcA]

theorem addBlock_fresh_check (s : Cedar) (j : Nat) (hpos : 0 < s.Size)
    (h1 : s.Size ≤ j) (h2 : j < s.Size + 256) : ((addBlock s).2.Array j).Check < 0 := by
  rw [(addBlock_parts s).2.2]
  dsimp only
  by_cases hj : j = s.Size
  · rw [if_pos hj]
    simp
    omega
  · rw [if_neg hj]
    by_cases hj2 : j = s.Size + 255
    · rw [if_pos hj2]
      simp
      omega
    · rw [if_neg hj2, if_pos (by omega : s.Size < j ∧ j < s.Size + 255)]
      simp
      omega

theorem shiftLeft_shiftRight_of_dvd {n : Nat} (h : 256 ∣ n) : (n >>> 8) <<< 8 = n := by
  rw [Nat.shiftRight_eq_div_pow, Nat.shiftLeft_eq]
  have h2 : (2 : Nat) ^ 8 = 256 := by norm_num
  rw [h2]
  exact Nat.div_mul_cancel h

theorem allFree_mem {s : Cedar} {b : Nat} {ch : List Nat} (h : allFree s b ch = true) :
    ∀ c ∈ ch, (s.Array (b ^^^ c)).Check < 0 := by
  intro c hc
  unfold allFree at h
  rw [List.all_eq_true] at h
  have := h c hc
  simpa using this

theorem findPlace_free (s : Cedar)
    (hdvd : 256 ∣ s.Size) (hpos : 0 < s.Size)
    (hC : s.BheadC ≠ 0 → (s.Array ((s.Blocks s.BheadC).Ehead)).Check < 0)
    (hO : s.BheadO ≠ 0 → (s.Array ((s.Blocks s.BheadO).Ehead)).Check < 0) :
    (((findPlace s).2).Array ((findPlace s).1)).Check < 0 := by
  unfold findPlace
  split
  · exact hC (by assumption)
  · split
    · exact hO (by assumption)
    · rcases hab : addBlock s with ⟨b1, s2⟩
      dsimp only
      have hfst : b1 = s.Size >>> 8 := by
        have := (addBlock_parts s).1
        rw [hab] at this
        exact this
      have he : b1 <<< 8 = s.Size := by
        rw [hfst, shiftLeft_shiftRight_of_dvd hdvd]
      rw [he]
      have := addBlock_fresh_check s s.Size hpos (le_refl _) (by omega)
      rw [hab] at this
      exact this

/-- C7: for a nonempty list of child labels, a successful findPlaces returns
a slot e such that with base equal to e xor children-head, the slot base xor
c is free (negative Check) for every listed child c in the state at return,
both on the Open-ring scan path and on the fresh-block fallback; and
findPlace, used in the single-child case, likewise returns a slot that is
free in the state at return. -/
theorem findPlaces_slots_free (s : Cedar) (c0 : Nat) (cs : List Nat) (fuel e : Nat) (s' : Cedar)
    (hdvd : 256 ∣ s.Size) (hpos : 0 < s.Size)
    (hlab : ∀ c ∈ c0 :: cs, c < 256)
    (hC : s.BheadC ≠ 0 → (s.Array ((s.Blocks s.BheadC).Ehead)).Check < 0)
    (hO : s.BheadO ≠ 0 → (s.Array ((s.Blocks s.BheadO).Ehead)).Check < 0)
    (h : findPlaces s (c0 :: cs) fuel = some (e, s')) :
    (∀ c ∈ c0 :: cs, (s'.Array ((e ^^^ c0) ^^^ c)).Check < 0) ∧
    (((findPlace s).2).Array ((findPlace s).1)).Check < 0 := by
  constructor
  · unfold findPlaces at h
    have haddgen : ∀ (t : Cedar), t.Array = s.Array → t.Size = s.Size →
        ∀ c ∈ c0 :: cs,
          (((addBlock t).2).Array ((((addBlock t).1 <<< 8) ^^^ c0) ^^^ c)).Check < 0 := by
      intro t hA hS c hc
      have hfst : (addBlock t).1 = t.Size >>> 8 := (addBlock_parts t).1
      have he : (addBlock t).1 <<< 8 = t.Size := by
        rw [hfst, shiftLeft_shiftRight_of_dvd (hS ▸ hdvd)]
      rw [he, Nat.xor_assoc]
      have hlt : c0 ^^^ c < 256 :=
        xor_byte_lt (hlab c0 (by simp)) (hlab c hc)
      rw [hS, xor_aligned_add hdvd hlt, ← hS]
      exact addBlock_fresh_check t _ (by omega) (by omega) (by omega)
    split at h
    · rcases hlb : listBi s s.BheadO (c0 :: cs) fuel with _ | ⟨e1, s1⟩ <;> rw [hlb] at h
      · exact absurd h (by simp)
      · unfold listBi at hlb
        obtain ⟨a1, a2, a3, a4, a6⟩ := listBiLoop_spec (c0 :: cs) _ fuel s s.BheadO e1 s1 hlb
        dsimp only at h
        by_cases he1 : e1 > 0
        · rw [if_pos he1] at h
          obtain ⟨rfl, rfl⟩ : e1 = e ∧ s1 = s' := by
            have := Option.some.inj h
            exact ⟨congrArg Prod.fst this, congrArg Prod.snd this⟩
          intro c hc
          rw [a1]
          exact allFree_mem (a6 (by omega)) c hc
        · rw [if_neg he1] at h
          rcases hab : addBlock s1 with ⟨b1, s2⟩
          rw [hab] at h
          obtain ⟨rfl, rfl⟩ : b1 <<< 8 = e ∧ s2 = s' := by
            have := Option.some.inj h
            exact ⟨congrArg Prod.fst this, congrArg Prod.snd this⟩
          intro c hc
          have := haddgen s1 a1 a3 c hc
          rw [hab] at this
          exact this
    · rcases hab : addBlock s with ⟨b1, s2⟩
      rw [hab] at h
      obtain ⟨rfl, rfl⟩ : b1 <<< 8 = e ∧ s2 = s' := by
        have := Option.some.inj h
        exact ⟨congrArg Prod.fst this, congrArg Prod.snd this⟩
      intro c hc
      have := haddgen s rfl rfl c hc
      rw [hab] at this
      exact this
  · exact findPlace_free s hdvd hpos hC hO

/-- Witness for findPlaces_slots_free: with both the Closed and Open rings
empty, placement falls back to a fresh block whose slots are all free. -/
theorem findPlaces_slots_free_witness :
    (∀ c ∈ [5], (((addBlock newCedar).2).Array ((256 ^^^ 5) ^^^ c)).Check < 0) ∧
    (((findPlace newCedar).2).Array ((findPlace newCedar).1)).Check < 0 :=
  findPlaces_slots_free newCedar 5 [] 1 256 (addBlock newCedar).2
    (by show (256 : Nat) ∣ 256; norm_num) (by show (0 : Nat) < 256; norm_num)
    (by intro c hc; simp at hc; omega)
    (fun h => absurd rfl h) (fun h => absurd rfl h) (by rfl)

/-! ### Terminal relocation inside getV (C8) -/

theorem addBlock_Ninfos (s : Cedar) : (addBlock s).2.Ninfos = s.Ninfos := by
  unfold addBlock
  dsimp only
  rw [(pushBlock_frame _ _ _ _).2.1]
  split <;> rfl

theorem findPlace_Ninfos (s : Cedar) : (findPlace s).2.Ninfos = s.Ninfos := by
  unfold findPlace
  split
  · rfl
  · split
    · rfl
    · rcases hab : addBlock s with ⟨b2, s3⟩
      dsimp only
      have := addBlock_Ninfos s
      rw [hab] at this
      exact this

theorem popEnode_negbase (s : Cedar) (base : Int) (frm label : Nat)
    (hb : base < 0) (hne : (findPlace s).1 ≠ frm) :
    (popEnode s base frm label).1 = (findPlace s).1 ∧
    (((popEnode s base frm label).2).Array frm).Value
      = -((((findPlace s).1 ^^^ label : Nat)) : Int) - 1 ∧
    (((popEnode s base frm label).2).Array ((findPlace s).1)).Check = (frm : Int) ∧
    ((popEnode s base frm label).2).Ninfos = s.Ninfos := by
  have hfpN := findPlace_Ninfos s
  unfold popEnode
  rw [if_pos hb]
  rcases hfp : findPlace s with ⟨e, s1⟩
  rw [hfp] at hne hfpN
  have hne2 : e ≠ frm := hne
  have hfpN2 : s1.Ninfos = s.Ninfos := hfpN
  try dsimp only
  rw [if_pos hb]
  have key : ∀ (m : Cedar),
      ((((m.setAValue e ValueLimit).setACheck e (frm : Int)).setAValue frm
        (-(((e ^^^ label : Nat)) : Int) - 1)).Array frm).Value
        = -(((e ^^^ label : Nat)) : Int) - 1 ∧
      ((((m.setAValue e ValueLimit).setACheck e (frm : Int)).setAValue frm
        (-(((e ^^^ label : Nat)) : Int) - 1)).Array e).Check = (frm : Int) ∧
      (((m.setAValue e ValueLimit).setACheck e (frm : Int)).setAValue frm
        (-(((e ^^^ label : Nat)) : Int) - 1)).Ninfos = m.Ninfos := by
    intro m
    refine ⟨?_, ?_, rfl⟩
    · simp [Cedar.setAValue, Cedar.setACheck, Cedar.setArr, upd]
    · simp [Cedar.setAValue, Cedar.setACheck, Cedar.setArr, upd, hne2]
  refine ⟨rfl, (key _).1, (key _).2.1, ((key _).2.2).trans ?_⟩
  -- the middle block-maintenance state keeps Ninfos
  have htf : ∀ (t : Cedar) (bi : Nat) (hi ho : BH), (transferBlock t bi hi ho).Ninfos = t.Ninfos :=
    fun t bi hi ho => (transferBlock_frame t bi hi ho).2.1
  split
  · split
    · rw [htf]; exact hfpN2
    · exact hfpN2
  · try dsimp only
    split
    · split
      · rw [htf]; exact hfpN2
      · exact hfpN2
    · split
      · rw [htf]; exact hfpN2
      · exact hfpN2

theorem setSib_Array (s : Cedar) (i v : Nat) : (s.setSib i v).Array = s.Array := rfl

theorem setChd_Array (s : Cedar) (i v : Nat) : (s.setChd i v).Array = s.Array := rfl

theorem pushSibling_noChild (s : Cedar) (frm base label fuel : Nat) :
    pushSibling s frm base label false fuel =
      some ((s.setSib (base ^^^ label) ((s.Ninfos frm).Child)).setChd frm label) := rfl

theorem findPlace_Array_low (s : Cedar) (j : Nat) (hj : j < s.Size) :
    ((findPlace s).2).Array j = s.Array j := by
  unfold findPlace
  split
  · rfl
  · split
    · rfl
    · rcases hab : addBlock s with ⟨b1, s1⟩
      dsimp only
      have := (addBlock_parts s).2.2
      rw [hab] at this
      show s1.Array j = s.Array j
      rw [this]
      dsimp only
      rw [if_neg (by omega), if_neg (by omega), if_neg (by omega)]

/-- C8: when an intermediate node frm of the getV walk carries a terminal
value (Value nonnegative and not ValueLimit), the relocation step at the
top of the loop body moves that value onto the 0-labelled child produced by
follow(frm, 0): afterwards the child slot holds the value, frm's Value is
the negative encoding of that child as its base (frm is branching), and the
walk continues only after this step (getV on a nonempty key is exactly the
relocation step followed by the follow on the next byte); consequently a
slot can never simultaneously be branching (negative Value, encoding a
child base) and hold a terminal value. -/
theorem getV_terminal_relocation (s : Cedar) (frm fuel : Nat)
    (hv0 : 0 ≤ (s.Array frm).Value) (hvl : (s.Array frm).Value ≠ ValueLimit)
    (hfrm : 0 ≤ (s.Array frm).Check) (hflt : frm < s.Size)
    (hdvd : 256 ∣ s.Size) (hpos : 0 < s.Size)
    (hC : s.BheadC ≠ 0 → (s.Array ((s.Blocks s.BheadC).Ehead)).Check < 0)
    (hO : s.BheadO ≠ 0 → (s.Array ((s.Blocks s.BheadO).Ehead)).Check < 0) :
    (∃ e s2, follow s frm 0 fuel = .ok (e, s2) ∧
      getVFix s frm fuel = .ok (s2.setAValue e ((s.Array frm).Value)) ∧
      ((s2.setAValue e ((s.Array frm).Value)).Array e).Value = (s.Array frm).Value ∧
      isBranching (s2.setAValue e ((s.Array frm).Value)) frm ∧
      (s2.Array frm).base = (e : Int)) ∧
    (∀ (t : Cedar) (i : Nat), ¬ (isBranching t i ∧ holdsTerminal t i)) ∧
    (∀ (c : Nat) (rest : List Nat),
      getV s (c :: rest) frm fuel =
        (getVFix s frm fuel).bind (fun s3 =>
          (follow s3 frm c fuel).bind (fun p => getV p.2 rest p.1 fuel))) := by
  have hbase : (s.Array frm).base < 0 := by
    unfold node.base
    omega
  have hfree := findPlace_free s hdvd hpos hC hO
  have hne : (findPlace s).1 ≠ frm := by
    intro he
    rw [he, findPlace_Array_low s frm hflt] at hfree
    omega
  obtain ⟨hp1, hp2, hp3, hp4⟩ := popEnode_negbase s ((s.Array frm).base) frm 0 hbase hne
  rcases hpe : popEnode s ((s.Array frm).base) frm 0 with ⟨t0, s'⟩
  rw [hpe] at hp1 hp2 hp3 hp4
  have ht0 : t0 = (findPlace s).1 := hp1
  subst ht0
  set e := (findPlace s).1 with he
  -- the state after the sibling bookkeeping of follow's allocation branch
  set s2 := (s'.setSib e ((s'.Ninfos frm).Child)).setChd frm 0 with hs2
  have hfol : follow s frm 0 fuel = .ok (e, s2) := by
    unfold follow
    rw [if_pos (Or.inl hbase), hpe]
    dsimp only
    have hhc : (decide (0 ≤ (s.Array frm).base) &&
        decide ((s.Array ((s.Array frm).base.toNat ^^^ (s.Ninfos frm).Child)).Check
          = (frm : Int))) = false := by
      rw [decide_eq_false (by omega : ¬ 0 ≤ (s.Array frm).base)]
      rfl
    rw [hhc, pushSibling_noChild, Nat.xor_zero, Nat.xor_zero]
  have hs2A : s2.Array = s'.Array := rfl
  have hs2frm : (s2.Array frm).Value = -(e : Int) - 1 := by
    rw [hs2A, hp2]
    simp
  refine ⟨⟨e, s2, hfol, ?_, ?_, ?_, ?_⟩, ?_, ?_⟩
  · unfold getVFix
    rw [if_pos ⟨hv0, hvl⟩, hfol]
  · simp [Cedar.setAValue, Cedar.setArr, upd]
  · unfold isBranching
    show (if frm = e then { s2.Array e with Value := (s.Array frm).Value }
      else s2.Array frm).Value < 0
    rw [if_neg (fun h => hne h.symm), hs2frm]
    omega
  · unfold node.base
    rw [hs2frm]
    omega
  · intro t i ⟨hb, ht1, ht2⟩
    unfold isBranching at hb
    omega
  · intro c rest
    rfl

/-- Witness for getV_terminal_relocation at relocWitState with frm = 3. -/
theorem getV_terminal_relocation_witness :
    (∃ e s2, follow relocWitState 3 0 4 = .ok (e, s2) ∧
      getVFix relocWitState 3 4 = .ok (s2.setAValue e ((relocWitState.Array 3).Value)) ∧
      ((s2.setAValue e ((relocWitState.Array 3).Value)).Array e).Value
        = (relocWitState.Array 3).Value ∧
      isBranching (s2.setAValue e ((relocWitState.Array 3).Value)) 3 ∧
      (s2.Array 3).base = (e : Int)) ∧
    (∀ (t : Cedar) (i : Nat), ¬ (isBranching t i ∧ holdsTerminal t i)) ∧
    (∀ (c : Nat) (rest : List Nat),
      getV relocWitState (c :: rest) 3 4 =
        (getVFix relocWitState 3 4).bind (fun s3 =>
          (follow s3 3 c 4).bind (fun p => getV p.2 rest p.1 4))) :=
  getV_terminal_relocation relocWitState 3 4 (by decide) (by decide) (by decide)
    (by decide) (by decide) (by decide)
    (fun h => absurd rfl h) (fun h => absurd rfl h)

/-! ### Cyclic doubly linked rings (generic over the link relation) -/

theorem chainedR_cons {R : Nat → Nat → Prop} {a b : Nat} {t : List Nat} :
    chainedR R (a :: b :: t) ↔ R a b ∧ chainedR R (b :: t) := Iff.rfl

theorem chainedR_append {R : Nat → Nat → Prop} :
    ∀ {X Y : List Nat}, chainedR R (X ++ Y) ↔
      chainedR R X ∧ chainedR R Y ∧
        (X ≠ [] → Y ≠ [] → R (X.getLastD 0) (Y.headD 0)) := by
  intro X
  induction X with
  | nil => intro Y; simp [chainedR]
  | cons a X ih =>
      intro Y
      cases X with
      | nil =>
          cases Y with
          | nil => simp [chainedR]
          | cons y ys =>
              show chainedR R (a :: y :: ys) ↔ _
              rw [chainedR_cons]
              constructor
              · rintro ⟨h1, h2⟩
                exact ⟨trivial, h2, fun _ _ => h1⟩
              · rintro ⟨_, h2, h3⟩
                exact ⟨h3 (by simp) (by simp), h2⟩
      | cons b X2 =>
          show chainedR R (a :: (b :: X2) ++ Y) ↔ _
          rw [show (a :: (b :: X2) ++ Y) = a :: ((b :: X2) ++ Y) from rfl]
          rw [show ((b :: X2) ++ Y) = b :: (X2 ++ Y) from rfl]
          rw [chainedR_cons]
          rw [show b :: (X2 ++ Y) = (b :: X2) ++ Y from rfl]
          rw [ih]
          rw [chainedR_cons]
          constructor
          · rintro ⟨h1, h2, h3, h4⟩
            exact ⟨⟨h1, h2⟩, h3, fun _ hY => by
              have := h4 (by simp) hY
              simpa using this⟩
          · rintro ⟨⟨h1, h2⟩, h3, h4⟩
            refine ⟨h1, h2, h3, fun _ hY => ?_⟩
            have := h4 (by simp) hY
            simpa using this

theorem getLastD_append_cons {b : Nat} {B : List Nat} :
    ∀ (A : List Nat) (d : Nat), (A ++ b :: B).getLastD d = B.getLastD b := by
  intro A
  induction A with
  | nil => intro d; rw [List.nil_append, List.getLastD_cons]
  | cons a A ih =>
      intro d
      rw [List.cons_append, List.getLastD_cons, ih]

theorem headD_mem {L : List Nat} (h : L ≠ []) (d : Nat) : L.headD d ∈ L := by
  cases L with
  | nil => exact absurd rfl h
  | cons a t => simp

theorem getLastD_mem {L : List Nat} (h : L ≠ []) (d : Nat) : L.getLastD d ∈ L := by
  cases L with
  | nil => exact absurd rfl h
  | cons a t =>
      rw [List.getLastD_cons]
      have := List.getLastD_mem_cons t a
      simpa using this

theorem chainedR_congr {R R' : Nat → Nat → Prop} :
    ∀ {L : List Nat}, (∀ a b, a ∈ L → b ∈ L → R a b → R' a b) →
    chainedR R L → chainedR R' L := by
  intro L
  induction L with
  | nil => intro _ _; trivial
  | cons a t ih =>
      intro hcong hch
      cases t with
      | nil => trivial
      | cons b t2 =>
          rw [chainedR_cons] at hch ⊢
          exact ⟨hcong a b (by simp) (by simp) hch.1,
            ih (fun x y hx hy => hcong x y (by simp [hx]) (by simp [hy])) hch.2⟩

theorem IsRingR_congr {R R' : Nat → Nat → Prop} {L : List Nat}
    (hcong : ∀ a b, a ∈ L → b ∈ L → R a b → R' a b)
    (h : IsRingR R L) : IsRingR R' L := by
  obtain ⟨h1, h2, h3, h4⟩ := h
  exact ⟨h1, h2, chainedR_congr hcong h3,
    hcong _ _ (getLastD_mem h1 0) (headD_mem h1 0) h4⟩

theorem ring_next_of_decomp {R : Nat → Nat → Prop} {A : List Nat} {bi : Nat} {B : List Nat}
    (h : IsRingR R (A ++ bi :: B)) :
    R bi (if B = [] then (A ++ bi :: B).headD 0 else B.headD 0) := by
  obtain ⟨_, _, hch, hcl⟩ := h
  cases B with
  | nil =>
      rw [if_pos rfl]
      rw [getLastD_append_cons A 0] at hcl
      simpa using hcl
  | cons b B2 =>
      rw [if_neg (by simp)]
      rw [chainedR_append] at hch
      have := hch.2.1
      rw [chainedR_cons] at this
      simpa using this.1

theorem ring_prev_of_decomp {R : Nat → Nat → Prop} {A : List Nat} {bi : Nat} {B : List Nat}
    (h : IsRingR R (A ++ bi :: B)) :
    R (if A = [] then (A ++ bi :: B).getLastD 0 else A.getLastD 0) bi := by
  obtain ⟨_, _, hch, hcl⟩ := h
  cases A with
  | nil =>
      rw [if_pos rfl]
      simpa using hcl
  | cons a A2 =>
      rw [if_neg (by simp)]
      rw [chainedR_append] at hch
      have := hch.2.2 (by simp) (by simp)
      simpa using this

/-! ### Block rings -/

theorem setHeadV_head_other (s : Cedar) (h h2 : BH) (v : Nat) (hne : h2 ≠ h) :
    (s.setHeadV h v).head h2 = s.head h2 := by
  cases h <;> cases h2 <;> first | rfl | exact absurd rfl hne

theorem setHeadV_head_same (s : Cedar) (h : BH) (v : Nat) :
    (s.setHeadV h v).head h = v := by
  cases h <;> rfl

theorem setBlk_head (s : Cedar) (i : Nat) (b : block) (h : BH) :
    ((s.setBlk i b).head h) = s.head h := by
  cases h <;> rfl

theorem popBlock_eq (s : Cedar) (bi : Nat) (h : BH) :
    popBlock s bi h false =
      (if bi = s.head h then
        ((s.setBlk ((s.Blocks bi).Prev)
            { s.Blocks ((s.Blocks bi).Prev) with Next := (s.Blocks bi).Next }).setBlk
            ((s.Blocks bi).Next)
            { (s.setBlk ((s.Blocks bi).Prev)
                { s.Blocks ((s.Blocks bi).Prev) with Next := (s.Blocks bi).Next }).Blocks
                ((s.Blocks bi).Next) with Prev := (s.Blocks bi).Prev }).setHeadV h
          ((s.Blocks bi).Next)
      else
        (s.setBlk ((s.Blocks bi).Prev)
            { s.Blocks ((s.Blocks bi).Prev) with Next := (s.Blocks bi).Next }).setBlk
            ((s.Blocks bi).Next)
            { (s.setBlk ((s.Blocks bi).Prev)
                { s.Blocks ((s.Blocks bi).Prev) with Next := (s.Blocks bi).Next }).Blocks
                ((s.Blocks bi).Next) with Prev := (s.Blocks bi).Prev }) := by
  unfold popBlock
  rw [if_neg (by simp)]
  by_cases hcond : bi = s.head h
  · rw [if_pos hcond, if_pos (by rw [setBlk_head, setBlk_head]; exact hcond)]
  · rw [if_neg hcond, if_neg (by rw [setBlk_head, setBlk_head]; exact hcond)]

theorem popBlock_fields (s : Cedar) (bi : Nat) (h : BH) :
    (∀ j, ((popBlock s bi h false).Blocks j).Next =
      if j = (s.Blocks bi).Prev then (s.Blocks bi).Next else (s.Blocks j).Next) ∧
    (∀ j, ((popBlock s bi h false).Blocks j).Prev =
      if j = (s.Blocks bi).Next then (s.Blocks bi).Prev else (s.Blocks j).Prev) ∧
    (∀ j, ((popBlock s bi h false).Blocks j).Num = (s.Blocks j).Num ∧
      ((popBlock s bi h false).Blocks j).Reject = (s.Blocks j).Reject ∧
      ((popBlock s bi h false).Blocks j).Trial = (s.Blocks j).Trial ∧
      ((popBlock s bi h false).Blocks j).Ehead = (s.Blocks j).Ehead) ∧
    ((popBlock s bi h false).head h = (if bi = s.head h then (s.Blocks bi).Next else s.head h)) ∧
    (∀ h2, h2 ≠ h → (popBlock s bi h false).head h2 = s.head h2) := by
  rw [popBlock_eq]
  by_cases hcond : bi = s.head h
  · rw [if_pos hcond]
    refine ⟨?_, ?_, ?_, ?_, ?_⟩
    · intro j
      rw [setHeadV_Blocks]
      simp only [Cedar.setBlk, upd]
      split_ifs <;> first | rfl | omega | simp_all
    · intro j
      rw [setHeadV_Blocks]
      simp only [Cedar.setBlk, upd]
      split_ifs <;> first | rfl | omega | simp_all
    · intro j
      rw [setHeadV_Blocks]
      simp only [Cedar.setBlk, upd]
      split_ifs <;> first | rfl | omega | simp_all
    · rw [if_pos hcond, setHeadV_head_same]
    · intro h2 hne
      rw [setHeadV_head_other _ _ _ _ hne, setBlk_head, setBlk_head]
  · rw [if_neg hcond]
    refine ⟨?_, ?_, ?_, ?_, ?_⟩
    · intro j
      simp only [Cedar.setBlk, upd]
      split_ifs <;> first | rfl | omega | simp_all
    · intro j
      simp only [Cedar.setBlk, upd]
      split_ifs <;> first | rfl | omega | simp_all
    · intro j
      simp only [Cedar.setBlk, upd]
      split_ifs <;> first | rfl | omega | simp_all
    · rw [if_neg hcond, setBlk_head, setBlk_head]
    · intro h2 hne
      rw [setBlk_head, setBlk_head]

theorem pushBlock_fields_empty (s : Cedar) (bi : Nat) (h : BH) :
    (∀ j, ((pushBlock s bi h true).Blocks j) =
      if j = bi then { s.Blocks bi with Prev := bi, Next := bi } else s.Blocks j) ∧
    ((pushBlock s bi h true).head h = bi) ∧
    (∀ h2, h2 ≠ h → (pushBlock s bi h true).head h2 = s.head h2) := by
  unfold pushBlock
  rw [if_pos (by simp)]
  refine ⟨?_, ?_, ?_⟩
  · intro j
    simp only [Cedar.setBlk, upd, setHeadV_Blocks]
  · show ((s.setHeadV h bi).setBlk bi _).head h = bi
    rw [setBlk_head, setHeadV_head_same]
  · intro h2 hne
    show ((s.setHeadV h bi).setBlk bi _).head h2 = s.head h2
    rw [setBlk_head, setHeadV_head_other _ _ _ _ hne]

theorem pushBlock_fields (s : Cedar) (bi : Nat) (h : BH) :
    (∀ j, ((pushBlock s bi h false).Blocks j).Next =
      if j = (s.Blocks (s.head h)).Prev then bi
      else if j = bi then s.head h else (s.Blocks j).Next) ∧
    (∀ j, ((pushBlock s bi h false).Blocks j).Prev =
      if j = s.head h then bi
      else if j = bi then (s.Blocks (s.head h)).Prev else (s.Blocks j).Prev) ∧
    (∀ j, ((pushBlock s bi h false).Blocks j).Num = (s.Blocks j).Num ∧
      ((pushBlock s bi h false).Blocks j).Reject = (s.Blocks j).Reject ∧
      ((pushBlock s bi h false).Blocks j).Trial = (s.Blocks j).Trial ∧
      ((pushBlock s bi h false).Blocks j).Ehead = (s.Blocks j).Ehead) ∧
    ((pushBlock s bi h false).head h = bi) ∧
    (∀ h2, h2 ≠ h → (pushBlock s bi h false).head h2 = s.head h2) := by
  unfold pushBlock
  rw [if_neg (by simp)]
  dsimp only
  refine ⟨?_, ?_, ?_, ?_, ?_⟩
  · intro j
    simp only [Cedar.setBlk, upd, setHeadV_Blocks, setBlk_head, setHeadV_head_same]
    split_ifs <;> first | rfl | omega | simp_all
  · intro j
    simp only [Cedar.setBlk, upd, setHeadV_Blocks, setBlk_head, setHeadV_head_same]
    split_ifs <;> first | rfl | omega | simp_all
  · intro j
    simp only [Cedar.setBlk, upd, setHeadV_Blocks, setBlk_head, setHeadV_head_same]
    split_ifs <;> first | exact ⟨rfl, rfl, rfl, rfl⟩ | omega | simp_all
  · rw [setBlk_head, setBlk_head, setHeadV_head_same]
  · intro h2 hne
    rw [setBlk_head, setBlk_head, setHeadV_head_other _ _ _ _ hne, setBlk_head, setBlk_head]

theorem getLastD_irrel {L : List Nat} (h : L ≠ []) (d d2 : Nat) :
    L.getLastD d = L.getLastD d2 := by
  cases L with
  | nil => exact absurd rfl h
  | cons a t => rw [List.getLastD_cons, List.getLastD_cons]

theorem headD_append_left {A : List Nat} (h : A ≠ []) (X : List Nat) (d : Nat) :
    (A ++ X).headD d = A.headD d := by
  cases A with
  | nil => exact absurd rfl h
  | cons a t => rfl

theorem getLastD_append_right {B : List Nat} (hB : B ≠ []) (A : List Nat) (d : Nat) :
    (A ++ B).getLastD d = B.getLastD d := by
  cases B with
  | nil => exact absurd rfl hB
  | cons b B2 => rw [getLastD_append_cons A d, List.getLastD_cons]

theorem chainedR_tail {R : Nat → Nat → Prop} {a : Nat} {t : List Nat}
    (h : chainedR R (a :: t)) : chainedR R t := by
  cases t with
  | nil => trivial
  | cons b t2 => exact (chainedR_cons.mp h).2

theorem popBlock_ring (s : Cedar) (h : BH) (A : List Nat) (bi : Nat) (B : List Nat)
    (hr : IsRingR (bringR s) (A ++ bi :: B))
    (hh : s.head h = (A ++ bi :: B).headD 0)
    (hne : A ++ B ≠ []) :
    IsRingR (bringR (popBlock s bi h false)) (A ++ B) ∧
    (popBlock s bi h false).head h = (A ++ B).headD 0 := by
  obtain ⟨hfN, hfP, hfnl, hfh, hfh2⟩ := popBlock_fields s bi h
  obtain ⟨hne0, hnd, hch, hcl⟩ := hr
  have hnbR := @ring_next_of_decomp _ A bi B ⟨hne0, hnd, hch, hcl⟩
  have hpbR := @ring_prev_of_decomp _ A bi B ⟨hne0, hnd, hch, hcl⟩
  -- membership bookkeeping
  have hnd2 := hnd
  rw [List.nodup_append] at hnd2
  obtain ⟨hndA, hndbB, hdisj⟩ := hnd2
  have hbiA : bi ∉ A := fun hmem => (hdisj hmem (by simp)).elim
  have hbiB : bi ∉ B := by
    have := List.Nodup.of_cons hndbB
    intro hmem
    exact (List.nodup_cons.mp hndbB).1 hmem
  have hbiAB : bi ∉ A ++ B := by
    intro hmem
    rcases List.mem_append.mp hmem with hm | hm
    · exact hbiA hm
    · exact hbiB hm
  -- the new direct link from bi's old neighbours
  have hnew : bringR (popBlock s bi h false) ((s.Blocks bi).Prev) ((s.Blocks bi).Next) := by
    constructor
    · rw [hfN]
      simp
    · rw [hfP]
      simp
  -- bi's neighbours link to bi in the old state
  have hNpb : (s.Blocks ((s.Blocks bi).Prev)).Next = bi := by
    rw [hpbR.2]
    exact hpbR.1
  have hPnb : (s.Blocks ((s.Blocks bi).Next)).Prev = bi := by
    rw [hnbR.1]
    exact hnbR.2
  -- transport of untouched links
  have hkey : ∀ a b, a ∈ A ++ B → b ∈ A ++ B → bringR s a b →
      bringR (popBlock s bi h false) a b := by
    intro a b ha hb hab
    obtain ⟨hab1, hab2⟩ := hab
    constructor
    · rw [hfN]
      split
      · rename_i heq
        have hbbi : b = bi := by rw [← hab1, heq, hNpb]
        exact absurd (hbbi ▸ hb) hbiAB
      · exact hab1
    · rw [hfP]
      split
      · rename_i heq
        have habi : a = bi := by rw [← hab2, heq, hPnb]
        exact absurd (habi ▸ ha) hbiAB
      · exact hab2
  -- decompose the old chain
  have hdec := chainedR_append.mp hch
  obtain ⟨hchA, hchbiB, hjun⟩ := hdec
  refine ⟨⟨hne, ?_, ?_, ?_⟩, ?_⟩
  · exact (List.Sublist.append_left (List.sublist_cons_self bi B) A).nodup hnd
  · rw [chainedR_append]
    refine ⟨chainedR_congr (fun a b ha hb hab =>
        hkey a b (List.mem_append_left _ ha) (List.mem_append_left _ hb) hab) hchA,
      chainedR_congr (fun a b ha hb hab =>
        hkey a b (List.mem_append_right _ ha) (List.mem_append_right _ hb) hab)
        (chainedR_tail hchbiB), ?_⟩
    intro hA hB
    have hpbv : (s.Blocks bi).Prev = A.getLastD 0 := by
      have := hpbR.2
      rw [if_neg hA] at this
      exact this
    have hnbv : (s.Blocks bi).Next = B.headD 0 := by
      have := hnbR.1
      rw [if_neg hB] at this
      exact this
    rw [← hpbv, ← hnbv]
    exact hnew
  · by_cases hA : A = []
    · subst hA
      have hB : B ≠ [] := by simpa using hne
      have hpbv : (s.Blocks bi).Prev = B.getLastD 0 := by
        have := hpbR.2
        rw [if_pos rfl, List.nil_append, List.getLastD_cons, getLastD_irrel hB bi 0] at this
        exact this
      have hnbv : (s.Blocks bi).Next = B.headD 0 := by
        have := hnbR.1
        rw [if_neg hB] at this
        exact this
      rw [List.nil_append, ← hpbv, ← hnbv]
      exact hnew
    · by_cases hB : B = []
      · subst hB
        have hpbv : (s.Blocks bi).Prev = A.getLastD 0 := by
          have := hpbR.2
          rw [if_neg hA] at this
          exact this
        have hnbv : (s.Blocks bi).Next = A.headD 0 := by
          have := hnbR.1
          rw [if_pos rfl, headD_append_left hA] at this
          exact this
        rw [List.append_nil, ← hpbv, ← hnbv]
        exact hnew
      · have hcl2 : bringR s (B.getLastD 0) (A.headD 0) := by
          rw [getLastD_append_cons A 0, getLastD_irrel hB bi 0, headD_append_left hA] at hcl
          exact hcl
        have htr := hkey _ _ (List.mem_append_right _ (getLastD_mem hB 0))
          (List.mem_append_left _ (headD_mem hA 0)) hcl2
        rw [getLastD_append_right hB A 0, headD_append_left hA]
        exact htr
  · rw [hfh]
    by_cases hA : A = []
    · subst hA
      have hB : B ≠ [] := by simpa using hne
      rw [List.nil_append] at hh ⊢
      rw [if_pos (by rw [hh]; rfl)]
      have := hnbR.1
      rw [if_neg hB] at this
      rw [this]
    · rw [headD_append_left hA] at hh
      rw [if_neg (fun heq => hbiA (by rw [heq, hh]; exact headD_mem hA 0)), hh,
        headD_append_left hA]

theorem chainedR_congr_inner {R R' : Nat → Nat → Prop} :
    ∀ {L : List Nat}, L.Nodup →
    (∀ a b, a ∈ L → b ∈ L → a ≠ L.getLastD 0 → b ≠ L.headD 0 → R a b → R' a b) →
    chainedR R L → chainedR R' L := by
  intro L
  induction L with
  | nil => intro _ _ _; trivial
  | cons a t ih =>
      intro hnd hcong hch
      cases t with
      | nil => trivial
      | cons b t2 =>
          rw [chainedR_cons] at hch ⊢
          have hanotin : a ∉ b :: t2 := (List.nodup_cons.mp hnd).1
          refine ⟨?_, ?_⟩
          · refine hcong a b (by simp) (by simp) ?_ ?_ hch.1
            · intro heq
              rw [List.getLastD_cons] at heq
              have hm := getLastD_mem (List.cons_ne_nil b t2) a
              rw [← heq] at hm
              exact hanotin hm
            · intro heq
              simp only [List.headD_cons] at heq
              refine hanotin ?_
              rw [← heq]
              exact List.mem_cons_self b t2
          · refine ih (List.nodup_cons.mp hnd).2 ?_ hch.2
            intro x y hx hy hxl hyh hR
            refine hcong x y (by simp [hx]) (by simp [hy]) ?_ ?_ hR
            · intro heq
              rw [List.getLastD_cons] at heq
              exact hxl (heq.trans (getLastD_irrel (List.cons_ne_nil b t2) a 0))
            · intro heq
              simp only [List.headD_cons] at heq
              exact hanotin (heq ▸ hy)

theorem pushBlock_ring_empty (s : Cedar) (h : BH) (bi : Nat) :
    IsRingR (bringR (pushBlock s bi h true)) [bi] ∧ (pushBlock s bi h true).head h = bi := by
  obtain ⟨hblk, hhd, _⟩ := pushBlock_fields_empty s bi h
  refine ⟨⟨by simp, by simp, trivial, ?_⟩, hhd⟩
  constructor
  · rw [hblk]
    simp
  · rw [hblk]
    simp

theorem pushBlock_ring (s : Cedar) (h : BH) (L : List Nat) (bi : Nat)
    (hr : IsRingR (bringR s) L)
    (hh : s.head h = L.headD 0)
    (hbi : bi ∉ L) :
    IsRingR (bringR (pushBlock s bi h false)) (bi :: L) ∧
    (pushBlock s bi h false).head h = bi := by
  obtain ⟨hfN, hfP, hfnl, hfh, hfh2⟩ := pushBlock_fields s bi h
  obtain ⟨hne0, hnd, hch, hcl⟩ := hr
  -- the tail slot: predecessor of the head is the last element
  have htv : (s.Blocks (s.head h)).Prev = L.getLastD 0 := by
    rw [hh]
    exact hcl.2
  have hlast_mem : L.getLastD 0 ∈ L := getLastD_mem hne0 0
  have hhead_mem : L.headD 0 ∈ L := headD_mem hne0 0
  have hbi_ne_last : bi ≠ L.getLastD 0 := fun heq => hbi (heq ▸ hlast_mem)
  have hbi_ne_head : bi ≠ s.head h := fun heq => hbi ((heq.trans hh) ▸ hhead_mem)
  refine ⟨⟨by simp, List.nodup_cons.mpr ⟨hbi, hnd⟩, ?_, ?_⟩, hfh⟩
  · -- chain of bi :: L
    cases L with
    | nil => exact absurd rfl hne0
    | cons a t =>
        rw [chainedR_cons]
        constructor
        · constructor
          · rw [hfN, if_neg (by rw [htv]; exact hbi_ne_last), if_pos rfl, hh]
            rfl
          · rw [hfP, if_pos (by rw [hh]; rfl)]
        · -- the old chain survives
          refine chainedR_congr_inner hnd ?_ hch
          intro x y hx hy hxl hyh hR
          constructor
          · rw [hfN, if_neg (by rw [htv]; exact hxl),
              if_neg (fun heq => hbi (by rw [← heq]; exact hx))]
            exact hR.1
          · rw [hfP, if_neg (by rw [hh]; exact hyh),
              if_neg (fun heq => hbi (by rw [← heq]; exact hy))]
            exact hR.2
  · -- closure: from the old last element back to bi
    rw [show (bi :: L).getLastD 0 = L.getLastD bi from List.getLastD_cons 0 bi L,
      getLastD_irrel hne0 bi 0]
    constructor
    · rw [hfN, if_pos (by rw [htv])]
      simp
    · simp only [List.headD_cons]
      rw [hfP, if_neg hbi_ne_head, if_pos rfl, htv]

/-! ### The three block rings and their invariant (C3, C4) -/



theorem ring_next_self_iff (s : Cedar) (L : List Nat) (bi : Nat)
    (hr : IsRingR (bringR s) L) (hmem : bi ∈ L) :
    ((s.Blocks bi).Next = bi ↔ L = [bi]) := by
  obtain ⟨A, B, rfl⟩ := List.append_of_mem hmem
  obtain ⟨hne0, hnd, hch, hcl⟩ := hr
  have hnd2 := hnd
  rw [List.nodup_append] at hnd2
  obtain ⟨hndA, hndbB, hdisj⟩ := hnd2
  have hbiA : bi ∉ A := fun hm => (hdisj hm (by simp)).elim
  have hbiB : bi ∉ B := (List.nodup_cons.mp hndbB).1
  have hnbR := @ring_next_of_decomp _ A bi B ⟨hne0, hnd, hch, hcl⟩
  obtain ⟨hn1, hn2⟩ := hnbR
  constructor
  · intro hself
    have hveq : (if B = [] then (A ++ bi :: B).headD 0 else B.headD 0) = bi := by
      rw [← hn1, hself]
    by_cases hB : B = []
    · subst hB
      by_cases hA : A = []
      · subst hA; rfl
      · rw [if_pos rfl, headD_append_left hA] at hveq
        have hm : A.headD 0 ∈ A := headD_mem hA 0
        rw [hveq] at hm
        exact absurd hm hbiA
    · rw [if_neg hB] at hveq
      have hm : B.headD 0 ∈ B := headD_mem hB 0
      rw [hveq] at hm
      exact absurd hm hbiB
  · intro heq
    have hA : A = [] := by
      cases A with
      | nil => rfl
      | cons a t => simp at heq
    subst hA
    have hB : B = [] := by simpa using heq
    subst hB
    rw [if_pos rfl] at hn1
    exact hn1

theorem erase_of_decomp {A : List Nat} {bi : Nat} {B : List Nat}
    (hbiA : bi ∉ A) : (A ++ bi :: B).erase bi = A ++ B := by
  rw [List.erase_append_right _ hbiA, List.erase_cons_head]

theorem IsRingR_transport {s s' : Cedar} {L : List Nat}
    (hfield : ∀ j, j ∈ L → (s'.Blocks j).Next = (s.Blocks j).Next ∧
      (s'.Blocks j).Prev = (s.Blocks j).Prev)
    (hr : IsRingR (bringR s) L) : IsRingR (bringR s') L := by
  refine IsRingR_congr ?_ hr
  intro a b ha hb hab
  exact ⟨((hfield a ha).1).trans hab.1, ((hfield b hb).2).trans hab.2⟩

theorem ringAt_transport {s s' : Cedar} {h : BH} {L : List Nat}
    (hfield : ∀ j, j ∈ L → (s'.Blocks j).Next = (s.Blocks j).Next ∧
      (s'.Blocks j).Prev = (s.Blocks j).Prev)
    (hhead : s'.head h = s.head h)
    (hr : ringAt s h L) : ringAt s' h L := by
  obtain ⟨h1, h2⟩ := hr
  refine ⟨fun he => hhead.trans (h1 he), fun hne => ?_⟩
  obtain ⟨hr2, hh2⟩ := h2 hne
  exact ⟨IsRingR_transport hfield hr2, hhead.trans hh2⟩

theorem pop_ring_step (s : Cedar) (h : BH) (L : List Nat) (bi : Nat)
    (hr : IsRingR (bringR s) L) (hh : s.head h = L.headD 0) (hmem : bi ∈ L)
    (hnotsingle : L ≠ [bi]) :
    IsRingR (bringR (popBlock s bi h false)) (L.erase bi) ∧
    (popBlock s bi h false).head h = (L.erase bi).headD 0 := by
  obtain ⟨A, B, rfl⟩ := List.append_of_mem hmem
  have hnd2 := hr.2.1
  rw [List.nodup_append] at hnd2
  have hbiA : bi ∉ A := fun hm => (hnd2.2.2 hm (by simp)).elim
  have hne : A ++ B ≠ [] := by
    intro he
    rcases List.append_eq_nil.mp he with ⟨rfl, rfl⟩
    exact hnotsingle rfl
  rw [erase_of_decomp hbiA]
  exact popBlock_ring s h A bi B hr hh hne

theorem popBlock_link_frame (s : Cedar) (bi : Nat) (h : BH) (last : Bool) (j : Nat)
    (hj1 : j ≠ (s.Blocks bi).Prev) (hj2 : j ≠ (s.Blocks bi).Next) :
    ((popBlock s bi h last).Blocks j).Next = (s.Blocks j).Next ∧
    ((popBlock s bi h last).Blocks j).Prev = (s.Blocks j).Prev := by
  cases last with
  | true =>
      show ((s.setHeadV h 0).Blocks j).Next = _ ∧ ((s.setHeadV h 0).Blocks j).Prev = _
      rw [setHeadV_Blocks]
      exact ⟨rfl, rfl⟩
  | false =>
      obtain ⟨hfN, hfP, _, _, _⟩ := popBlock_fields s bi h
      exact ⟨by rw [hfN, if_neg hj1], by rw [hfP, if_neg hj2]⟩

theorem pushBlock_link_frame (s : Cedar) (bi : Nat) (h : BH) (empty : Bool) (j : Nat)
    (hj1 : j ≠ bi) (hj2 : j ≠ s.head h) (hj3 : j ≠ (s.Blocks (s.head h)).Prev) :
    ((pushBlock s bi h empty).Blocks j).Next = (s.Blocks j).Next ∧
    ((pushBlock s bi h empty).Blocks j).Prev = (s.Blocks j).Prev := by
  cases empty with
  | true =>
      obtain ⟨hblk, _, _⟩ := pushBlock_fields_empty s bi h
      rw [hblk j, if_neg hj1]
      exact ⟨rfl, rfl⟩
  | false =>
      obtain ⟨hfN, hfP, _, _, _⟩ := pushBlock_fields s bi h
      exact ⟨by rw [hfN, if_neg hj3, if_neg hj1], by rw [hfP, if_neg hj2, if_neg hj1]⟩

theorem ring_next_mem (s : Cedar) (L : List Nat) (bi : Nat)
    (hr : IsRingR (bringR s) L) (hmem : bi ∈ L) : (s.Blocks bi).Next ∈ L := by
  obtain ⟨A, B, rfl⟩ := List.append_of_mem hmem
  obtain ⟨hn1, _⟩ := @ring_next_of_decomp _ A bi B hr
  rw [hn1]
  by_cases hB : B = []
  · rw [if_pos hB]
    exact headD_mem hr.1 0
  · rw [if_neg hB]
    exact List.mem_append_right _ (List.mem_cons_of_mem _ (headD_mem hB 0))

theorem ring_prev_mem (s : Cedar) (L : List Nat) (bi : Nat)
    (hr : IsRingR (bringR s) L) (hmem : bi ∈ L) : (s.Blocks bi).Prev ∈ L := by
  obtain ⟨A, B, rfl⟩ := List.append_of_mem hmem
  obtain ⟨_, hp2⟩ := @ring_prev_of_decomp _ A bi B hr
  rw [hp2]
  by_cases hA : A = []
  · rw [if_pos hA]
    exact getLastD_mem hr.1 0
  · rw [if_neg hA]
    exact List.mem_append_left _ (getLastD_mem hA 0)

theorem nodup_parts {LF LC LO : List Nat} (hnd : (LF ++ (LC ++ LO)).Nodup) :
    LF.Nodup ∧ LC.Nodup ∧ LO.Nodup ∧
    (∀ x ∈ LC, x ∉ LF) ∧ (∀ x ∈ LO, x ∉ LF) ∧ (∀ x ∈ LO, x ∉ LC) := by
  rw [List.nodup_append] at hnd
  obtain ⟨h1, h2, h3⟩ := hnd
  rw [List.nodup_append] at h2
  obtain ⟨h4, h5, h6⟩ := h2
  exact ⟨h1, h4, h5,
    fun x hx hxF => h3 hxF (List.mem_append_left _ hx),
    fun x hx hxF => h3 hxF (List.mem_append_right _ hx),
    fun x hx hxC => h6 hxC hx⟩

theorem popHalf_CO (s : Cedar) (h : BH) (L : List Nat) (bi : Nat)
    (hr : IsRingR (bringR s) L) (hh : s.head h = L.headD 0) (hbi : bi ∈ L) :
    ringAt (popBlock s bi h (decide (bi = (s.Blocks bi).Next))) h (L.erase bi) ∧
    (∀ h2, h2 ≠ h →
      (popBlock s bi h (decide (bi = (s.Blocks bi).Next))).head h2 = s.head h2) ∧
    (∀ j, j ∉ L →
      ((popBlock s bi h (decide (bi = (s.Blocks bi).Next))).Blocks j).Next = (s.Blocks j).Next ∧
      ((popBlock s bi h (decide (bi = (s.Blocks bi).Next))).Blocks j).Prev = (s.Blocks j).Prev) ∧
    (∀ j, ((popBlock s bi h (decide (bi = (s.Blocks bi).Next))).Blocks j).Num = (s.Blocks j).Num ∧
      ((popBlock s bi h (decide (bi = (s.Blocks bi).Next))).Blocks j).Trial = (s.Blocks j).Trial) := by
  by_cases hsing : L = [bi]
  · have hflag : (decide (bi = (s.Blocks bi).Next)) = true :=
      decide_eq_true (((ring_next_self_iff s L bi hr hbi).mpr hsing).symm)
    rw [hflag]
    have hpb : popBlock s bi h true = s.setHeadV h 0 := by
      unfold popBlock
      rw [if_pos rfl]
    rw [hpb]
    refine ⟨⟨fun _ => setHeadV_head_same s h 0, fun hne => ?_⟩,
      fun h2 hne => setHeadV_head_other s h h2 0 hne,
      fun j _ => by rw [setHeadV_Blocks]; exact ⟨rfl, rfl⟩,
      fun j => by rw [setHeadV_Blocks]; exact ⟨rfl, rfl⟩⟩
    exact absurd (by rw [hsing, List.erase_cons_head]) hne
  · have hflag : (decide (bi = (s.Blocks bi).Next)) = false :=
      decide_eq_false (fun heq => hsing ((ring_next_self_iff s L bi hr hbi).mp heq.symm))
    rw [hflag]
    obtain ⟨hr', hh'⟩ := pop_ring_step s h L bi hr hh hbi hsing
    have hprev := ring_prev_mem s L bi hr hbi
    have hnext := ring_next_mem s L bi hr hbi
    refine ⟨⟨fun he => ?_, fun _ => ⟨hr', hh'⟩⟩,
      (popBlock_fields s bi h).2.2.2.2,
      fun j hj => popBlock_link_frame s bi h false j
        (fun heq => hj (heq ▸ hprev)) (fun heq => hj (heq ▸ hnext)),
      fun j => ⟨((popBlock_fields s bi h).2.2.1 j).1, ((popBlock_fields s bi h).2.2.1 j).2.2.1⟩⟩
    · -- the erased ring cannot be empty here, but if it is the head is forced
      exfalso
      obtain ⟨A, B, rfl⟩ := List.append_of_mem hbi
      have hbiA : bi ∉ A := by
        have hnd2 := hr.2.1
        rw [List.nodup_append] at hnd2
        exact fun hm => (hnd2.2.2 hm (by simp)).elim
      rw [erase_of_decomp hbiA] at he
      rcases List.append_eq_nil.mp he with ⟨rfl, rfl⟩
      exact hsing rfl

theorem popHalf_F (s : Cedar) (LF : List Nat) (bi : Nat)
    (hr : IsRingR (bringR s) (LF ++ [0])) (hh : s.BheadF = (LF ++ [0]).headD 0)
    (hbi : bi ∈ LF) (hbi1 : 1 ≤ bi) :
    IsRingR (bringR (popBlock s bi .F (decide (bi = (s.Blocks bi).Next))))
      (LF.erase bi ++ [0]) ∧
    (popBlock s bi .F (decide (bi = (s.Blocks bi).Next))).BheadF
      = (LF.erase bi ++ [0]).headD 0 ∧
    (∀ h2, h2 ≠ BH.F →
      (popBlock s bi .F (decide (bi = (s.Blocks bi).Next))).head h2 = s.head h2) ∧
    (∀ j, j ∉ LF ++ [0] →
      ((popBlock s bi .F (decide (bi = (s.Blocks bi).Next))).Blocks j).Next
        = (s.Blocks j).Next ∧
      ((popBlock s bi .F (decide (bi = (s.Blocks bi).Next))).Blocks j).Prev
        = (s.Blocks j).Prev) ∧
    (∀ j, ((popBlock s bi .F (decide (bi = (s.Blocks bi).Next))).Blocks j).Num
        = (s.Blocks j).Num ∧
      ((popBlock s bi .F (decide (bi = (s.Blocks bi).Next))).Blocks j).Trial
        = (s.Blocks j).Trial) := by
  have hbiL : bi ∈ LF ++ [0] := List.mem_append_left _ hbi
  have hsing : LF ++ [0] ≠ [bi] := by
    intro heq
    have h0 : (0 : Nat) ∈ LF ++ [0] := List.mem_append_right _ (by simp)
    rw [heq] at h0
    simp at h0
    omega
  have hflag : (decide (bi = (s.Blocks bi).Next)) = false :=
    decide_eq_false (fun heq => hsing ((ring_next_self_iff s _ bi hr hbiL).mp heq.symm))
  rw [hflag]
  have herase : (LF ++ [0]).erase bi = LF.erase bi ++ [0] := List.erase_append_left _ hbi
  obtain ⟨hr', hh'⟩ := pop_ring_step s .F (LF ++ [0]) bi hr hh hbiL hsing
  rw [herase] at hr' hh'
  have hprev := ring_prev_mem s _ bi hr hbiL
  have hnext := ring_next_mem s _ bi hr hbiL
  exact ⟨hr', hh', (popBlock_fields s bi .F).2.2.2.2,
    fun j hj => popBlock_link_frame s bi .F false j
      (fun heq => hj (heq ▸ hprev)) (fun heq => hj (heq ▸ hnext)),
    fun j => ⟨((popBlock_fields s bi .F).2.2.1 j).1, ((popBlock_fields s bi .F).2.2.1 j).2.2.1⟩⟩

theorem pushHalf_CO (s1 : Cedar) (h : BH) (L : List Nat) (bi : Nat)
    (hrAt : ringAt s1 h L) (hbi : bi ∉ L) (hnum : (s1.Blocks bi).Num ≠ 0)
    (h0L : ∀ x, x ∈ L → 1 ≤ x) :
    ringAt (pushBlock s1 bi h (decide (s1.head h = 0) && decide ((s1.Blocks bi).Num ≠ 0)))
      h (bi :: L) ∧
    (∀ h2, h2 ≠ h →
      (pushBlock s1 bi h (decide (s1.head h = 0) && decide ((s1.Blocks bi).Num ≠ 0))).head h2
        = s1.head h2) ∧
    (∀ j, j ∉ bi :: L →
      ((pushBlock s1 bi h (decide (s1.head h = 0) &&
          decide ((s1.Blocks bi).Num ≠ 0))).Blocks j).Next = (s1.Blocks j).Next ∧
      ((pushBlock s1 bi h (decide (s1.head h = 0) &&
          decide ((s1.Blocks bi).Num ≠ 0))).Blocks j).Prev = (s1.Blocks j).Prev) ∧
    (∀ j, ((pushBlock s1 bi h (decide (s1.head h = 0) &&
          decide ((s1.Blocks bi).Num ≠ 0))).Blocks j).Num = (s1.Blocks j).Num ∧
      ((pushBlock s1 bi h (decide (s1.head h = 0) &&
          decide ((s1.Blocks bi).Num ≠ 0))).Blocks j).Trial = (s1.Blocks j).Trial) := by
  rw [decide_eq_true hnum, Bool.and_true]
  by_cases hL : L = []
  · subst hL
    rw [decide_eq_true (hrAt.1 rfl)]
    obtain ⟨hblk, hhd, hoth⟩ := pushBlock_fields_empty s1 bi h
    obtain ⟨hrr, hhh⟩ := pushBlock_ring_empty s1 h bi
    refine ⟨⟨fun he => absurd he (by simp), fun _ => ⟨hrr, hhh⟩⟩, hoth, ?_, ?_⟩
    · intro j hj
      rw [hblk j, if_neg (by simpa using hj)]
      exact ⟨rfl, rfl⟩
    · intro j
      rw [hblk j]
      split
      · rename_i heq
        rw [heq]
        exact ⟨rfl, rfl⟩
      · exact ⟨rfl, rfl⟩
  · obtain ⟨hr, hh⟩ := hrAt.2 hL
    have hhead_mem : L.headD 0 ∈ L := headD_mem hL 0
    have hne0 : s1.head h ≠ 0 := by
      rw [hh]
      have := h0L _ hhead_mem
      omega
    rw [decide_eq_false hne0]
    obtain ⟨hrr, hhh⟩ := pushBlock_ring s1 h L bi hr hh hbi
    have ht_mem : (s1.Blocks (s1.head h)).Prev ∈ L := by
      rw [hh]
      exact ring_prev_mem s1 L (L.headD 0) hr hhead_mem
    refine ⟨⟨fun he => absurd he (by simp), fun _ => ⟨hrr, hhh⟩⟩,
      (pushBlock_fields s1 bi h).2.2.2.2, ?_, ?_⟩
    · intro j hj
      rw [List.mem_cons, not_or] at hj
      refine pushBlock_link_frame s1 bi h false j hj.1 ?_ ?_
      · intro heq
        exact hj.2 (by rw [heq, hh]; exact hhead_mem)
      · intro heq
        exact hj.2 (heq ▸ ht_mem)
    · intro j
      exact ⟨((pushBlock_fields s1 bi h).2.2.1 j).1,
        ((pushBlock_fields s1 bi h).2.2.1 j).2.2.1⟩

theorem pushHalf_F (s1 : Cedar) (LF : List Nat) (bi : Nat)
    (hr : IsRingR (bringR s1) (LF ++ [0])) (hh : s1.BheadF = (LF ++ [0]).headD 0)
    (hbi : bi ∉ LF) (hbi1 : 1 ≤ bi) (hnum : (s1.Blocks bi).Num = 0)
    (hge1 : ∀ x, x ∈ LF → 1 ≤ x) :
    IsRingR (bringR (pushBlock s1 bi .F
        (decide (s1.head .F = 0) && decide ((s1.Blocks bi).Num ≠ 0)))) ((bi :: LF) ++ [0]) ∧
    (pushBlock s1 bi .F (decide (s1.head .F = 0) && decide ((s1.Blocks bi).Num ≠ 0))).BheadF
      = ((bi :: LF) ++ [0]).headD 0 ∧
    (∀ h2, h2 ≠ BH.F →
      (pushBlock s1 bi .F (decide (s1.head .F = 0) &&
        decide ((s1.Blocks bi).Num ≠ 0))).head h2 = s1.head h2) ∧
    (∀ j, j ∉ bi :: (LF ++ [0]) →
      ((pushBlock s1 bi .F (decide (s1.head .F = 0) &&
          decide ((s1.Blocks bi).Num ≠ 0))).Blocks j).Next = (s1.Blocks j).Next ∧
      ((pushBlock s1 bi .F (decide (s1.head .F = 0) &&
          decide ((s1.Blocks bi).Num ≠ 0))).Blocks j).Prev = (s1.Blocks j).Prev) ∧
    (∀ j, ((pushBlock s1 bi .F (decide (s1.head .F = 0) &&
          decide ((s1.Blocks bi).Num ≠ 0))).Blocks j).Num = (s1.Blocks j).Num ∧
      ((pushBlock s1 bi .F (decide (s1.head .F = 0) &&
          decide ((s1.Blocks bi).Num ≠ 0))).Blocks j).Trial = (s1.Blocks j).Trial) := by
  rw [decide_eq_false (by omega : ¬ (s1.Blocks bi).Num ≠ 0), Bool.and_false]
  have hbiL : bi ∉ LF ++ [0] := by
    intro hm
    rcases List.mem_append.mp hm with hm | hm
    · exact hbi hm
    · simp at hm
      omega
  obtain ⟨hrr, hhh⟩ := pushBlock_ring s1 .F (LF ++ [0]) bi hr (by exact hh) hbiL
  have hhead_mem : (LF ++ [0]).headD 0 ∈ LF ++ [0] := headD_mem (by simp) 0
  have ht_mem : (s1.Blocks (s1.head .F)).Prev ∈ LF ++ [0] := by
    show (s1.Blocks s1.BheadF).Prev ∈ _
    rw [hh]
    exact ring_prev_mem s1 _ _ hr hhead_mem
  refine ⟨hrr, by rw [← hhh]; rfl, (pushBlock_fields s1 bi .F).2.2.2.2, ?_, ?_⟩
  · intro j hj
    rw [List.mem_cons, not_or] at hj
    refine pushBlock_link_frame s1 bi .F false j hj.1 ?_ ?_
    · intro heq
      refine hj.2 ?_
      rw [heq]
      show s1.BheadF ∈ _
      rw [hh]
      exact hhead_mem
    · intro heq
      exact hj.2 (heq ▸ ht_mem)
  · intro j
    exact ⟨((pushBlock_fields s1 bi .F).2.2.1 j).1,
      ((pushBlock_fields s1 bi .F).2.2.1 j).2.2.1⟩

theorem rings_book {old new : List Nat} (hperm : new.Perm old) (szq : Nat)
    (hnd : old.Nodup) (hbnd : ∀ b, b ∈ old → 1 ≤ b ∧ b < szq)
    (hcov : ∀ b, 1 ≤ b → b < szq → b ∈ old) :
    new.Nodup ∧ (∀ b, b ∈ new → 1 ≤ b ∧ b < szq) ∧ (∀ b, 1 ≤ b → b < szq → b ∈ new) :=
  ⟨hperm.nodup_iff.mpr hnd, fun b hb => hbnd b (hperm.mem_iff.mp hb),
    fun b h1 h2 => hperm.mem_iff.mpr (hcov b h1 h2)⟩

theorem transfer_C_to_O (s : Cedar) (LF LC LO : List Nat) (bi : Nat)
    (hspec : RingsSpec s LF LC LO) (hbi : bi ∈ LC) (hnum : (s.Blocks bi).Num ≠ 0) :
    RingsSpec (transferBlock s bi .C .O) LF (LC.erase bi) (bi :: LO) ∧
    (transferBlock s bi .C .O).head .O = bi := by
  obtain ⟨hF, hFh, hC, hO, hnd, hbnd, hcov⟩ := hspec
  obtain ⟨hndF, hndC, hndO, hCF, hOF, hOC⟩ := nodup_parts hnd
  have hbi1 : 1 ≤ bi := (hbnd bi (List.mem_append_right _ (List.mem_append_left _ hbi))).1
  have hbiLF : bi ∉ LF := fun hm => hCF bi hbi hm
  have hbiLO : bi ∉ LO := fun hm => hOC bi hm hbi
  have hCne : LC ≠ [] := List.ne_nil_of_mem hbi
  obtain ⟨hCr, hCh⟩ := hC.2 hCne
  have h0LC : (0 : Nat) ∉ LC := fun hm => by
    have := (hbnd 0 (List.mem_append_right _ (List.mem_append_left _ hm))).1
    omega
  have h0LO : (0 : Nat) ∉ LO := fun hm => by
    have := (hbnd 0 (List.mem_append_right _ (List.mem_append_right _ hm))).1
    omega
  obtain ⟨hC1, hHo1, hLf1, hNl1⟩ := popHalf_CO s .C LC bi hCr hCh hbi
  set s1 := popBlock s bi .C (decide (bi = (s.Blocks bi).Next)) with hs1
  have hnotinLC : ∀ j, j ∈ LF ++ [0] → j ∉ LC := by
    intro j hj
    rcases List.mem_append.mp hj with hm | hm
    · exact fun hc => hCF j hc hm
    · simp at hm
      subst hm
      exact h0LC
  have hF1 : IsRingR (bringR s1) (LF ++ [0]) :=
    IsRingR_transport (fun j hj => hLf1 j (hnotinLC j hj)) hF
  have hFh1 : s1.BheadF = (LF ++ [0]).headD 0 := by
    have := hHo1 .F (by simp)
    exact this.trans hFh
  have hO1 : ringAt s1 .O LO :=
    ringAt_transport (fun j hj => hLf1 j (fun hc => hOC j hj hc)) (hHo1 .O (by simp)) hO
  have hnum1 : (s1.Blocks bi).Num ≠ 0 := by
    rw [(hNl1 bi).1]
    exact hnum
  obtain ⟨hO2, hHo2, hLf2, hNl2⟩ := pushHalf_CO s1 .O LO bi hO1 hbiLO hnum1
    (fun x hx => (hbnd x (List.mem_append_right _ (List.mem_append_right _ hx))).1)
  set emp := (decide (s1.head .O = 0) && decide ((s1.Blocks bi).Num ≠ 0)) with hemp
  have htb : transferBlock s bi .C .O = pushBlock s1 bi .O emp := rfl
  rw [htb]
  set s2 := pushBlock s1 bi .O emp with hs2
  have hout2 : ∀ j, j ∈ LF ++ [0] → j ∉ bi :: LO := by
    intro j hj
    rw [List.mem_cons, not_or]
    constructor
    · intro heq
      rcases List.mem_append.mp hj with hm | hm
      · exact hbiLF (heq ▸ hm)
      · simp at hm
        omega
    · intro hc
      rcases List.mem_append.mp hj with hm | hm
      · exact hOF j hc hm
      · simp at hm
        subst hm
        exact h0LO hc
  have hF2 : IsRingR (bringR s2) (LF ++ [0]) :=
    IsRingR_transport (fun j hj => hLf2 j (hout2 j hj)) hF1
  have hFh2 : s2.BheadF = (LF ++ [0]).headD 0 := by
    have := hHo2 .F (by simp)
    exact this.trans hFh1
  have hC2 : ringAt s2 .C (LC.erase bi) := by
    refine ringAt_transport (fun j hj => hLf2 j ?_) (hHo2 .C (by simp)) hC1
    have hj2 := (hndC.mem_erase_iff.mp hj)
    rw [List.mem_cons, not_or]
    exact ⟨hj2.1, fun hc => hOC j hc hj2.2⟩
  have hszeq : s2.Size = s.Size := by
    have := (transferBlock_frame s bi .C .O).2.2.1
    rw [htb] at this
    exact this
  have hperm : (LF ++ (LC.erase bi ++ (bi :: LO))).Perm (LF ++ (LC ++ LO)) := by
    refine List.Perm.append_left LF ?_
    have h1 : (LC.erase bi ++ (bi :: LO)).Perm (bi :: (LC.erase bi ++ LO)) := List.perm_middle
    have h2 : (bi :: LC.erase bi).Perm LC := (List.perm_cons_erase hbi).symm
    have h3 : ((bi :: LC.erase bi) ++ LO).Perm (LC ++ LO) := h2.append_right LO
    have h4 : (bi :: (LC.erase bi ++ LO)).Perm (LC ++ LO) := by simpa using h3
    exact h1.trans h4
  obtain ⟨hnd', hbnd', hcov'⟩ := rings_book hperm (s.Size >>> 8) hnd hbnd hcov
  refine ⟨⟨hF2, hFh2, hC2, hO2, hnd', ?_, ?_⟩, ?_⟩
  · rw [hszeq]
    exact hbnd'
  · rw [hszeq]
    exact hcov'
  · exact (hO2.2 (by simp)).2

theorem transfer_O_to_C (s : Cedar) (LF LC LO : List Nat) (bi : Nat)
    (hspec : RingsSpec s LF LC LO) (hbi : bi ∈ LO) (hnum : (s.Blocks bi).Num ≠ 0) :
    RingsSpec (transferBlock s bi .O .C) LF (bi :: LC) (LO.erase bi) ∧
    (transferBlock s bi .O .C).head .C = bi := by
  obtain ⟨hF, hFh, hC, hO, hnd, hbnd, hcov⟩ := hspec
  obtain ⟨hndF, hndC, hndO, hCF, hOF, hOC⟩ := nodup_parts hnd
  have hbi1 : 1 ≤ bi := (hbnd bi (List.mem_append_right _ (List.mem_append_right _ hbi))).1
  have hbiLF : bi ∉ LF := fun hm => hOF bi hbi hm
  have hbiLC : bi ∉ LC := fun hm => hOC bi hbi hm
  have hOne : LO ≠ [] := List.ne_nil_of_mem hbi
  obtain ⟨hOr, hOh⟩ := hO.2 hOne
  have h0LC : (0 : Nat) ∉ LC := fun hm => by
    have := (hbnd 0 (List.mem_append_right _ (List.mem_append_left _ hm))).1
    omega
  have h0LO : (0 : Nat) ∉ LO := fun hm => by
    have := (hbnd 0 (List.mem_append_right _ (List.mem_append_right _ hm))).1
    omega
  obtain ⟨hO1, hHo1, hLf1, hNl1⟩ := popHalf_CO s .O LO bi hOr hOh hbi
  set s1 := popBlock s bi .O (decide (bi = (s.Blocks bi).Next)) with hs1
  have hnotinLO : ∀ j, j ∈ LF ++ [0] → j ∉ LO := by
    intro j hj
    rcases List.mem_append.mp hj with hm | hm
    · exact fun hc => hOF j hc hm
    · simp at hm
      subst hm
      exact h0LO
  have hF1 : IsRingR (bringR s1) (LF ++ [0]) :=
    IsRingR_transport (fun j hj => hLf1 j (hnotinLO j hj)) hF
  have hFh1 : s1.BheadF = (LF ++ [0]).headD 0 := by
    have := hHo1 .F (by simp)
    exact this.trans hFh
  have hC1 : ringAt s1 .C LC :=
    ringAt_transport (fun j hj => hLf1 j (fun hc => hOC j hc hj)) (hHo1 .C (by simp)) hC
  have hnum1 : (s1.Blocks bi).Num ≠ 0 := by
    rw [(hNl1 bi).1]
    exact hnum
  obtain ⟨hC2, hHo2, hLf2, hNl2⟩ := pushHalf_CO s1 .C LC bi hC1 hbiLC hnum1
    (fun x hx => (hbnd x (List.mem_append_right _ (List.mem_append_left _ hx))).1)
  set emp := (decide (s1.head .C = 0) && decide ((s1.Blocks bi).Num ≠ 0)) with hemp
  have htb : transferBlock s bi .O .C = pushBlock s1 bi .C emp := rfl
  rw [htb]
  set s2 := pushBlock s1 bi .C emp with hs2
  have hout2 : ∀ j, j ∈ LF ++ [0] → j ∉ bi :: LC := by
    intro j hj
    rw [List.mem_cons, not_or]
    constructor
    · intro heq
      rcases List.mem_append.mp hj with hm | hm
      · exact hbiLF (heq ▸ hm)
      · simp at hm
        omega
    · intro hc
      rcases List.mem_append.mp hj with hm | hm
      · exact hCF j hc hm
      · simp at hm
        subst hm
        exact h0LC hc
  have hF2 : IsRingR (bringR s2) (LF ++ [0]) :=
    IsRingR_transport (fun j hj => hLf2 j (hout2 j hj)) hF1
  have hFh2 : s2.BheadF = (LF ++ [0]).headD 0 := by
    have := hHo2 .F (by simp)
    exact this.trans hFh1
  have hO2 : ringAt s2 .O (LO.erase bi) := by
    refine ringAt_transport (fun j hj => hLf2 j ?_) (hHo2 .O (by simp)) hO1
    have hj2 := (hndO.mem_erase_iff.mp hj)
    rw [List.mem_cons, not_or]
    exact ⟨hj2.1, fun hc => hOC j hj2.2 hc⟩
  have hszeq : s2.Size = s.Size := by
    have := (transferBlock_frame s bi .O .C).2.2.1
    rw [htb] at this
    exact this
  have hperm : (LF ++ ((bi :: LC) ++ LO.erase bi)).Perm (LF ++ (LC ++ LO)) := by
    refine List.Perm.append_left LF ?_
    have h1 : ((bi :: LC) ++ LO.erase bi).Perm (bi :: (LC ++ LO.erase bi)) := by simp
    have h2 : (LC ++ (bi :: LO.erase bi)).Perm (LC ++ LO) :=
      List.Perm.append_left LC (List.perm_cons_erase hbi).symm
    have h3 : (bi :: (LC ++ LO.erase bi)).Perm (LC ++ (bi :: LO.erase bi)) :=
      List.perm_middle.symm
    exact (h1.trans h3).trans h2
  obtain ⟨hnd', hbnd', hcov'⟩ := rings_book hperm (s.Size >>> 8) hnd hbnd hcov
  refine ⟨⟨hF2, hFh2, hC2, hO2, hnd', ?_, ?_⟩, ?_⟩
  · rw [hszeq]
    exact hbnd'
  · rw [hszeq]
    exact hcov'
  · exact (hC2.2 (by simp)).2

theorem transfer_F_to_C (s : Cedar) (LF LC LO : List Nat) (bi : Nat)
    (hspec : RingsSpec s LF LC LO) (hbi : bi ∈ LF) (hnum : (s.Blocks bi).Num ≠ 0) :
    RingsSpec (transferBlock s bi .F .C) (LF.erase bi) (bi :: LC) LO ∧
    (transferBlock s bi .F .C).head .C = bi := by
  obtain ⟨hF, hFh, hC, hO, hnd, hbnd, hcov⟩ := hspec
  obtain ⟨hndF, hndC, hndO, hCF, hOF, hOC⟩ := nodup_parts hnd
  have hbi1 : 1 ≤ bi := (hbnd bi (List.mem_append_left _ hbi)).1
  have hbiLC : bi ∉ LC := fun hm => hCF bi hm hbi
  have hbiLO : bi ∉ LO := fun hm => hOF bi hm hbi
  have h0LC : (0 : Nat) ∉ LC := fun hm => by
    have := (hbnd 0 (List.mem_append_right _ (List.mem_append_left _ hm))).1
    omega
  have h0LO : (0 : Nat) ∉ LO := fun hm => by
    have := (hbnd 0 (List.mem_append_right _ (List.mem_append_right _ hm))).1
    omega
  obtain ⟨hF1, hFh1, hHo1, hLf1, hNl1⟩ := popHalf_F s LF bi hF hFh hbi hbi1
  set s1 := popBlock s bi .F (decide (bi = (s.Blocks bi).Next)) with hs1
  have hC1 : ringAt s1 .C LC := by
    refine ringAt_transport (fun j hj => hLf1 j (fun hm => ?_)) (hHo1 .C (by simp)) hC
    rcases List.mem_append.mp hm with hm | hm
    · exact hCF j hj hm
    · simp at hm
      subst hm
      exact h0LC hj
  have hO1 : ringAt s1 .O LO := by
    refine ringAt_transport (fun j hj => hLf1 j (fun hm => ?_)) (hHo1 .O (by simp)) hO
    rcases List.mem_append.mp hm with hm | hm
    · exact hOF j hj hm
    · simp at hm
      subst hm
      exact h0LO hj
  have hnum1 : (s1.Blocks bi).Num ≠ 0 := by
    rw [(hNl1 bi).1]
    exact hnum
  obtain ⟨hC2, hHo2, hLf2, hNl2⟩ := pushHalf_CO s1 .C LC bi hC1 hbiLC hnum1
    (fun x hx => (hbnd x (List.mem_append_right _ (List.mem_append_left _ hx))).1)
  set emp := (decide (s1.head .C = 0) && decide ((s1.Blocks bi).Num ≠ 0)) with hemp
  have htb : transferBlock s bi .F .C = pushBlock s1 bi .C emp := rfl
  rw [htb]
  set s2 := pushBlock s1 bi .C emp with hs2
  have hout2 : ∀ j, j ∈ LF.erase bi ++ [0] → j ∉ bi :: LC := by
    intro j hj
    rw [List.mem_cons, not_or]
    rcases List.mem_append.mp hj with hm | hm
    · have hm2 := hndF.mem_erase_iff.mp hm
      exact ⟨hm2.1, fun hc => hCF j hc hm2.2⟩
    · simp at hm
      subst hm
      exact ⟨by omega, h0LC⟩
  have hF2 : IsRingR (bringR s2) (LF.erase bi ++ [0]) :=
    IsRingR_transport (fun j hj => hLf2 j (hout2 j hj)) hF1
  have hFh2 : s2.BheadF = (LF.erase bi ++ [0]).headD 0 := (hHo2 .F (by simp)).trans hFh1
  have hO2 : ringAt s2 .O LO := by
    refine ringAt_transport (fun j hj => hLf2 j ?_) (hHo2 .O (by simp)) hO1
    rw [List.mem_cons, not_or]
    exact ⟨fun heq => hbiLO (heq ▸ hj), fun hc => hOC j hj hc⟩
  have hszeq : s2.Size = s.Size := by
    have := (transferBlock_frame s bi .F .C).2.2.1
    rw [htb] at this
    exact this
  have hperm : (LF.erase bi ++ ((bi :: LC) ++ LO)).Perm (LF ++ (LC ++ LO)) := by
    have h1 : (LF.erase bi ++ (bi :: (LC ++ LO))).Perm (bi :: (LF.erase bi ++ (LC ++ LO))) :=
      List.perm_middle
    have h2 : (bi :: LF.erase bi).Perm LF := (List.perm_cons_erase hbi).symm
    have h3 : ((bi :: LF.erase bi) ++ (LC ++ LO)).Perm (LF ++ (LC ++ LO)) :=
      h2.append_right (LC ++ LO)
    have h4 : (bi :: (LF.erase bi ++ (LC ++ LO))).Perm (LF ++ (LC ++ LO)) := by simpa using h3
    exact h1.trans h4
  obtain ⟨hnd', hbnd', hcov'⟩ := rings_book hperm (s.Size >>> 8) hnd hbnd hcov
  refine ⟨⟨hF2, hFh2, hC2, hO2, hnd', ?_, ?_⟩, ?_⟩
  · rw [hszeq]
    exact hbnd'
  · rw [hszeq]
    exact hcov'
  · exact (hC2.2 (by simp)).2

theorem transfer_C_to_F (s : Cedar) (LF LC LO : List Nat) (bi : Nat)
    (hspec : RingsSpec s LF LC LO) (hbi : bi ∈ LC) (hnum : (s.Blocks bi).Num = 0) :
    RingsSpec (transferBlock s bi .C .F) (bi :: LF) (LC.erase bi) LO ∧
    (transferBlock s bi .C .F).BheadF = bi := by
  obtain ⟨hF, hFh, hC, hO, hnd, hbnd, hcov⟩ := hspec
  obtain ⟨hndF, hndC, hndO, hCF, hOF, hOC⟩ := nodup_parts hnd
  have hbi1 : 1 ≤ bi := (hbnd bi (List.mem_append_right _ (List.mem_append_left _ hbi))).1
  have hbiLF : bi ∉ LF := fun hm => hCF bi hbi hm
  have hCne : LC ≠ [] := List.ne_nil_of_mem hbi
  obtain ⟨hCr, hCh⟩ := hC.2 hCne
  have h0LC : (0 : Nat) ∉ LC := fun hm => by
    have := (hbnd 0 (List.mem_append_right _ (List.mem_append_left _ hm))).1
    omega
  have h0LO : (0 : Nat) ∉ LO := fun hm => by
    have := (hbnd 0 (List.mem_append_right _ (List.mem_append_right _ hm))).1
    omega
  obtain ⟨hC1, hHo1, hLf1, hNl1⟩ := popHalf_CO s .C LC bi hCr hCh hbi
  set s1 := popBlock s bi .C (decide (bi = (s.Blocks bi).Next)) with hs1
  have hnotinLC : ∀ j, j ∈ LF ++ [0] → j ∉ LC := by
    intro j hj
    rcases List.mem_append.mp hj with hm | hm
    · exact fun hc => hCF j hc hm
    · simp at hm
      subst hm
      exact h0LC
  have hF1 : IsRingR (bringR s1) (LF ++ [0]) :=
    IsRingR_transport (fun j hj => hLf1 j (hnotinLC j hj)) hF
  have hFh1 : s1.BheadF = (LF ++ [0]).headD 0 := (hHo1 .F (by simp)).trans hFh
  have hO1 : ringAt s1 .O LO :=
    ringAt_transport (fun j hj => hLf1 j (fun hc => hOC j hj hc)) (hHo1 .O (by simp)) hO
  have hnum1 : (s1.Blocks bi).Num = 0 := by
    rw [(hNl1 bi).1]
    exact hnum
  obtain ⟨hF2, hFh2, hHo2, hLf2, hNl2⟩ := pushHalf_F s1 LF bi hF1 hFh1 hbiLF hbi1 hnum1
    (fun x hx => (hbnd x (List.mem_append_left _ hx)).1)
  set emp := (decide (s1.head .F = 0) && decide ((s1.Blocks bi).Num ≠ 0)) with hemp
  have htb : transferBlock s bi .C .F = pushBlock s1 bi .F emp := rfl
  rw [htb]
  set s2 := pushBlock s1 bi .F emp with hs2
  have hC2 : ringAt s2 .C (LC.erase bi) := by
    refine ringAt_transport (fun j hj => hLf2 j ?_) (hHo2 .C (by simp)) hC1
    have hj2 := hndC.mem_erase_iff.mp hj
    rw [List.mem_cons, not_or]
    refine ⟨hj2.1, fun hm => ?_⟩
    rcases List.mem_append.mp hm with hm | hm
    · exact hCF j hj2.2 hm
    · simp at hm
      subst hm
      exact h0LC hj2.2
  have hO2 : ringAt s2 .O LO := by
    refine ringAt_transport (fun j hj => hLf2 j ?_) (hHo2 .O (by simp)) hO1
    rw [List.mem_cons, not_or]
    refine ⟨fun heq => hOC bi (heq ▸ hj) hbi, fun hm => ?_⟩
    rcases List.mem_append.mp hm with hm | hm
    · exact hOF j hj hm
    · simp at hm
      subst hm
      exact h0LO hj
  have hszeq : s2.Size = s.Size := by
    have := (transferBlock_frame s bi .C .F).2.2.1
    rw [htb] at this
    exact this
  have hperm : ((bi :: LF) ++ (LC.erase bi ++ LO)).Perm (LF ++ (LC ++ LO)) := by
    have h2 : (bi :: LC.erase bi).Perm LC := (List.perm_cons_erase hbi).symm
    have h1 : (bi :: (LC.erase bi ++ LO)).Perm (LC ++ LO) := by
      simpa using h2.append_right LO
    have h3 : (LF ++ (bi :: (LC.erase bi ++ LO))).Perm (LF ++ (LC ++ LO)) :=
      List.Perm.append_left LF h1
    have h4 : ((bi :: LF) ++ (LC.erase bi ++ LO)).Perm (LF ++ (bi :: (LC.erase bi ++ LO))) :=
      List.perm_middle.symm
    exact h4.trans h3
  obtain ⟨hnd', hbnd', hcov'⟩ := rings_book hperm (s.Size >>> 8) hnd hbnd hcov
  refine ⟨⟨hF2, hFh2, hC2, hO2, hnd', ?_, ?_⟩, ?_⟩
  · rw [hszeq]
    exact hbnd'
  · rw [hszeq]
    exact hcov'
  · exact hFh2

theorem setBlk_same (s : Cedar) (i : Nat) (b : block) : (s.setBlk i b).Blocks i = b := by
  show upd s.Blocks i b i = b
  unfold upd
  rw [if_pos rfl]

theorem setBlk_other (s : Cedar) (i : Nat) (b : block) (j : Nat) (h : j ≠ i) :
    (s.setBlk i b).Blocks j = s.Blocks j := by
  show upd s.Blocks i b j = s.Blocks j
  unfold upd
  rw [if_neg h]

theorem pushEnode_else (s : Cedar) (e : Nat)
    (hnum : (s.Blocks (e >>> 8)).Num + 1 ≠ 1)
    (hcond : (s.Blocks (e >>> 8)).Num + 1 = 2 ∨ (s.Blocks (e >>> 8)).Trial = s.MaxTrial)
    (hbi0 : e >>> 8 ≠ 0) :
    pushEnode s e =
      (let s1 := s.setBlk (e >>> 8)
        { s.Blocks (e >>> 8) with Num := (s.Blocks (e >>> 8)).Num + 1 }
       let prev := (s1.Blocks (e >>> 8)).Ehead
       let next := (-(s1.Array prev).Check).toNat
       let s4 := ((s1.setArr e ⟨-(prev : Int), -(next : Int)⟩).setACheck prev
         (-(e : Int))).setAValue next (-(e : Int))
       let s5 := transferBlock s4 (e >>> 8) .C .O
       let s6 := s5.setBlk (e >>> 8) { s5.Blocks (e >>> 8) with Trial := 0 }
       let s7 := if (s6.Blocks (e >>> 8)).Reject < s6.Reject ((s6.Blocks (e >>> 8)).Num).toNat
         then s6.setBlk (e >>> 8)
           { s6.Blocks (e >>> 8) with Reject := s6.Reject ((s6.Blocks (e >>> 8)).Num).toNat }
         else s6
       s7.setNin e ⟨0, 0, false⟩) := by
  have hA : ¬ ((s.setBlk (e >>> 8)
      { s.Blocks (e >>> 8) with Num := (s.Blocks (e >>> 8)).Num + 1 }).Blocks
        (e >>> 8)).Num = 1 := by
    rw [setBlk_same]
    exact hnum
  unfold pushEnode
  dsimp only
  rw [if_neg hA]
  split
  next h2 => rfl
  next h2 =>
    exfalso
    apply h2
    refine ⟨?_, hbi0⟩
    rw [show ∀ (t : Cedar) (i : Nat) (n : node) (p : Nat) (v : Int) (q : Nat) (w : Int),
        (((t.setArr i n).setACheck p v).setAValue q w).Blocks = t.Blocks from
        fun t i n p v q w => rfl]
    rw [setBlk_same]
    exact hcond

theorem bringR_eq_of {s s' : Cedar} (hB : s'.Blocks = s.Blocks) : bringR s' = bringR s := by
  unfold bringR
  rw [hB]

theorem RingsSpec_transport {s s' : Cedar}
    (hB : ∀ j, (s'.Blocks j).Next = (s.Blocks j).Next ∧ (s'.Blocks j).Prev = (s.Blocks j).Prev)
    (hF : s'.BheadF = s.BheadF) (hC : s'.BheadC = s.BheadC) (hO : s'.BheadO = s.BheadO)
    (hS : s'.Size = s.Size) {LF LC LO : List Nat}
    (hr : RingsSpec s LF LC LO) : RingsSpec s' LF LC LO := by
  have hh : ∀ h2, s'.head h2 = s.head h2 := by
    intro h2
    cases h2 <;> assumption
  obtain ⟨r1, r2, r3, r4, r5, r6, r7⟩ := hr
  refine ⟨IsRingR_transport (fun j _ => hB j) r1, (hh .F).trans r2,
    ringAt_transport (fun j _ => hB j) (hh .C) r3,
    ringAt_transport (fun j _ => hB j) (hh .O) r4, r5, ?_, ?_⟩
  · rw [hS]
    exact r6
  · rw [hS]
    exact r7

/-- C4: pushEnode on a slot e whose block bi = e >>> 8 sits on the Closed
ring (per the spec's classification a Closed block has num = 1, or num ≥ 1
with trial saturated at MaxTrial): after the free count is incremented the
trigger num = 2 ∨ trial = MaxTrial necessarily holds, the block is
transferred Closed → Open (it heads the Open ring afterwards and moves from
the Closed list to the Open list), and trial is reset to 0 as part of
exactly this transition. -/
theorem pushEnode_closed_transfers (s : Cedar) (LF LC LO : List Nat) (e : Nat)
    (hspec : RingsSpec s LF LC LO) (hbi : e >>> 8 ∈ LC)
    (hclass : (s.Blocks (e >>> 8)).Num = 1 ∨
      (1 ≤ (s.Blocks (e >>> 8)).Num ∧ (s.Blocks (e >>> 8)).Trial = s.MaxTrial)) :
    ((s.Blocks (e >>> 8)).Num + 1 = 2 ∨ (s.Blocks (e >>> 8)).Trial = s.MaxTrial) ∧
    RingsSpec (pushEnode s e) LF (LC.erase (e >>> 8)) ((e >>> 8) :: LO) ∧
    (pushEnode s e).head .O = e >>> 8 ∧
    ((pushEnode s e).Blocks (e >>> 8)).Trial = 0 := by
  have hbi1 : 1 ≤ e >>> 8 := (hspec.2.2.2.2.2.1 (e >>> 8)
    (List.mem_append_right _ (List.mem_append_left _ hbi))).1
  have hbi0 : e >>> 8 ≠ 0 := by omega
  have hnumge : 1 ≤ (s.Blocks (e >>> 8)).Num := by
    rcases hclass with h | h
    · omega
    · exact h.1
  have htrig : (s.Blocks (e >>> 8)).Num + 1 = 2 ∨ (s.Blocks (e >>> 8)).Trial = s.MaxTrial := by
    rcases hclass with h | h
    · left
      omega
    · right
      exact h.2
  have hnum1 : (s.Blocks (e >>> 8)).Num + 1 ≠ 1 := by omega
  refine ⟨htrig, ?_⟩
  rw [pushEnode_else s e hnum1 htrig hbi0]
  dsimp only
  set s1 := s.setBlk (e >>> 8)
    { s.Blocks (e >>> 8) with Num := (s.Blocks (e >>> 8)).Num + 1 } with hs1
  set pv := (s1.Blocks (e >>> 8)).Ehead with hpv
  set nx := (-(s1.Array pv).Check).toNat with hnx
  set s4 := ((s1.setArr e ⟨-(pv : Int), -(nx : Int)⟩).setACheck pv
    (-(e : Int))).setAValue nx (-(e : Int)) with hs4
  set s5 := transferBlock s4 (e >>> 8) .C .O with hs5
  set s6 := s5.setBlk (e >>> 8) { s5.Blocks (e >>> 8) with Trial := 0 } with hs6
  have hlink1 : ∀ j, (s1.Blocks j).Next = (s.Blocks j).Next ∧
      (s1.Blocks j).Prev = (s.Blocks j).Prev := by
    intro j
    by_cases hj : j = e >>> 8
    · subst hj
      rw [hs1, setBlk_same]
      exact ⟨rfl, rfl⟩
    · rw [hs1, setBlk_other _ _ _ _ hj]
      exact ⟨rfl, rfl⟩
  have hspec1 : RingsSpec s1 LF LC LO := RingsSpec_transport hlink1 rfl rfl rfl rfl hspec
  have hspec4 : RingsSpec s4 LF LC LO :=
    RingsSpec_transport (fun j => ⟨rfl, rfl⟩) rfl rfl rfl rfl hspec1
  have hnum4 : (s4.Blocks (e >>> 8)).Num ≠ 0 := by
    have h4 : (s4.Blocks (e >>> 8)).Num = (s.Blocks (e >>> 8)).Num + 1 := by
      show (s1.Blocks (e >>> 8)).Num = _
      rw [hs1, setBlk_same]
    omega
  obtain ⟨hspec5, hhead5⟩ := transfer_C_to_O s4 LF LC LO (e >>> 8) hspec4 hbi hnum4
  have hlink6 : ∀ j, (s6.Blocks j).Next = (s5.Blocks j).Next ∧
      (s6.Blocks j).Prev = (s5.Blocks j).Prev := by
    intro j
    by_cases hj : j = e >>> 8
    · subst hj
      rw [hs6, setBlk_same]
      exact ⟨rfl, rfl⟩
    · rw [hs6, setBlk_other _ _ _ _ hj]
      exact ⟨rfl, rfl⟩
  have hspec6 : RingsSpec s6 LF (LC.erase (e >>> 8)) ((e >>> 8) :: LO) :=
    RingsSpec_transport hlink6 rfl rfl rfl rfl hspec5
  have hhead6 : s6.head .O = e >>> 8 := hhead5
  have htrial6 : (s6.Blocks (e >>> 8)).Trial = 0 := by
    rw [hs6, setBlk_same]
  split
  next hrej =>
    have hlink7 : ∀ j, (((s6.setBlk (e >>> 8)
        { s6.Blocks (e >>> 8) with
          Reject := s6.Reject ((s6.Blocks (e >>> 8)).Num).toNat }).setNin e
            ⟨0, 0, false⟩).Blocks j).Next = (s6.Blocks j).Next ∧
        (((s6.setBlk (e >>> 8)
        { s6.Blocks (e >>> 8) with
          Reject := s6.Reject ((s6.Blocks (e >>> 8)).Num).toNat }).setNin e
            ⟨0, 0, false⟩).Blocks j).Prev = (s6.Blocks j).Prev := by
      intro j
      by_cases hj : j = e >>> 8
      · subst hj
        show ((s6.setBlk _ _).Blocks _).Next = _ ∧ ((s6.setBlk _ _).Blocks _).Prev = _
        rw [setBlk_same]
        exact ⟨rfl, rfl⟩
      · show ((s6.setBlk _ _).Blocks j).Next = _ ∧ ((s6.setBlk _ _).Blocks j).Prev = _
        rw [setBlk_other _ _ _ _ hj]
        exact ⟨rfl, rfl⟩
    refine ⟨RingsSpec_transport hlink7 rfl rfl rfl rfl hspec6, hhead6, ?_⟩
    have h7 : ((s6.setBlk (e >>> 8)
        { s6.Blocks (e >>> 8) with
          Reject := s6.Reject ((s6.Blocks (e >>> 8)).Num).toNat }).Blocks
            (e >>> 8)).Trial = (s6.Blocks (e >>> 8)).Trial := by
      rw [setBlk_same]
    exact h7.trans htrial6
  next hrej =>
    exact ⟨RingsSpec_transport (fun j => ⟨rfl, rfl⟩) rfl rfl rfl rfl hspec6, hhead6, htrial6⟩

theorem ringWitState_spec : RingsSpec ringWitState [] [1] [] := by
  refine ⟨⟨by simp, by simp, trivial, ⟨rfl, rfl⟩⟩, rfl,
    ⟨by simp, fun _ => ⟨⟨by simp, by simp, trivial, ⟨rfl, rfl⟩⟩, rfl⟩⟩,
    ⟨fun _ => rfl, fun h => absurd rfl h⟩,
    by simp, ?_, ?_⟩
  · intro b hb
    have hb1 : b = 1 := by simpa using hb
    subst hb1
    exact ⟨le_refl 1, by decide⟩
  · intro b h1 h2
    have hsz : ringWitState.Size >>> 8 = 2 := rfl
    rw [hsz] at h2
    have hb1 : b = 1 := by omega
    simp [hb1]

/-- C3: under the three-ring invariant RingsSpec — whose well-formedness
clauses say the Closed and Open rings are cyclic doubly linked lists headed
by BheadC and BheadO, the Full cycle threads the permanent sentinel block 0,
and the member lists are disjoint and cover blocks 1..Size>>>8-1 — every
block with index ≥ 1 lies in exactly one of the three rings and block 0 in
none; each ring's head field is 0 exactly when that ring is empty; and the
four transferBlock moves the code performs (Closed→Open, Open→Closed,
Full→Closed on a nonempty block, Closed→Full on an emptied block), each a
popBlock followed by a pushBlock with the caller-computed flags, preserve
the invariant moving exactly the transferred block, so block 0 is never
moved between rings. -/
theorem C3_rings (s : Cedar) (LF LC LO : List Nat) (bi : Nat)
    (hspec : RingsSpec s LF LC LO) :
    (∀ b, 1 ≤ b → b < s.Size >>> 8 →
      ((b ∈ LF ∧ b ∉ LC ∧ b ∉ LO) ∨ (b ∉ LF ∧ b ∈ LC ∧ b ∉ LO) ∨
        (b ∉ LF ∧ b ∉ LC ∧ b ∈ LO))) ∧
    ((0 : Nat) ∉ LF ∧ (0 : Nat) ∉ LC ∧ (0 : Nat) ∉ LO) ∧
    ((s.BheadC = 0 ↔ LC = []) ∧ (s.BheadO = 0 ↔ LO = []) ∧ (s.BheadF = 0 ↔ LF = [])) ∧
    (bi ∈ LC → (s.Blocks bi).Num ≠ 0 →
      RingsSpec (transferBlock s bi .C .O) LF (LC.erase bi) (bi :: LO)) ∧
    (bi ∈ LO → (s.Blocks bi).Num ≠ 0 →
      RingsSpec (transferBlock s bi .O .C) LF (bi :: LC) (LO.erase bi)) ∧
    (bi ∈ LF → (s.Blocks bi).Num ≠ 0 →
      RingsSpec (transferBlock s bi .F .C) (LF.erase bi) (bi :: LC) LO) ∧
    (bi ∈ LC → (s.Blocks bi).Num = 0 →
      RingsSpec (transferBlock s bi .C .F) (bi :: LF) (LC.erase bi) LO) := by
  obtain ⟨hF, hFh, hC, hO, hnd, hbnd, hcov⟩ := hspec
  obtain ⟨hndF, hndC, hndO, hCF, hOF, hOC⟩ := nodup_parts hnd
  have hspec2 : RingsSpec s LF LC LO := ⟨hF, hFh, hC, hO, hnd, hbnd, hcov⟩
  refine ⟨?_, ?_, ⟨?_, ?_, ?_⟩,
    fun h1 h2 => (transfer_C_to_O s LF LC LO bi hspec2 h1 h2).1,
    fun h1 h2 => (transfer_O_to_C s LF LC LO bi hspec2 h1 h2).1,
    fun h1 h2 => (transfer_F_to_C s LF LC LO bi hspec2 h1 h2).1,
    fun h1 h2 => (transfer_C_to_F s LF LC LO bi hspec2 h1 h2).1⟩
  · intro b h1 h2
    have hb := hcov b h1 h2
    rcases List.mem_append.mp hb with hm | hm
    · exact Or.inl ⟨hm, fun hc => hCF b hc hm, fun hc => hOF b hc hm⟩
    · rcases List.mem_append.mp hm with hm2 | hm2
      · exact Or.inr (Or.inl ⟨fun hc => hCF b hm2 hc, hm2, fun hc => hOC b hc hm2⟩)
      · exact Or.inr (Or.inr ⟨fun hc => hOF b hm2 hc, fun hc => hOC b hm2 hc, hm2⟩)
  · refine ⟨fun hm => ?_, fun hm => ?_, fun hm => ?_⟩
    · have := (hbnd 0 (List.mem_append_left _ hm)).1
      omega
    · have := (hbnd 0 (List.mem_append_right _ (List.mem_append_left _ hm))).1
      omega
    · have := (hbnd 0 (List.mem_append_right _ (List.mem_append_right _ hm))).1
      omega
  · constructor
    · intro hz
      by_contra hne
      obtain ⟨hr, hh⟩ := hC.2 hne
      have hm : LC.headD 0 ∈ LC := headD_mem hne 0
      have hz2 : s.head BH.C = 0 := hz
      rw [← hh, hz2] at hm
      have := (hbnd 0 (List.mem_append_right _ (List.mem_append_left _ hm))).1
      omega
    · intro he
      exact hC.1 he
  · constructor
    · intro hz
      by_contra hne
      obtain ⟨hr, hh⟩ := hO.2 hne
      have hm : LO.headD 0 ∈ LO := headD_mem hne 0
      have hz2 : s.head BH.O = 0 := hz
      rw [← hh, hz2] at hm
      have := (hbnd 0 (List.mem_append_right _ (List.mem_append_right _ hm))).1
      omega
    · intro he
      exact hO.1 he
  · constructor
    · intro hz
      by_contra hne
      rw [hFh, headD_append_left hne] at hz
      have hm : LF.headD 0 ∈ LF := headD_mem hne 0
      rw [hz] at hm
      have := (hbnd 0 (List.mem_append_left _ hm)).1
      omega
    · intro he
      subst he
      exact hFh

theorem C3_rings_witness :
    RingsSpec ringWitState [] [1] [] ∧
    RingsSpec (transferBlock ringWitState 1 .C .O) [] ([1].erase 1) [1] :=
  ⟨ringWitState_spec,
    (C3_rings ringWitState [] [1] [] 1 ringWitState_spec).2.2.2.1 (by simp) (by decide)⟩

theorem pushEnode_closed_transfers_witness :
    RingsSpec ringWitState [] [1] [] ∧
    ((ringWitState.Blocks (300 >>> 8)).Num = 1 ∨
      (1 ≤ (ringWitState.Blocks (300 >>> 8)).Num ∧
        (ringWitState.Blocks (300 >>> 8)).Trial = ringWitState.MaxTrial)) ∧
    RingsSpec (pushEnode ringWitState 300) [] ([1].erase (300 >>> 8)) [300 >>> 8] ∧
    ((pushEnode ringWitState 300).Blocks (300 >>> 8)).Trial = 0 :=
  ⟨ringWitState_spec, Or.inl (by decide),
    (pushEnode_closed_transfers ringWitState [] [1] [] 300 ringWitState_spec
      (by decide) (Or.inl (by decide))).2.1,
    (pushEnode_closed_transfers ringWitState [] [1] [] 300 ringWitState_spec
      (by decide) (Or.inl (by decide))).2.2.2⟩

/-! ### Slot free rings (C2) -/




theorem IsRingR_erase_mid {R R' : Nat → Nat → Prop} {A : List Nat} {e : Nat} {B : List Nat}
    (hr : IsRingR R (A ++ e :: B))
    (hne : A ++ B ≠ [])
    (hcong : ∀ a b, a ∈ A ++ B → b ∈ A ++ B → R a b → R' a b)
    (hnew : R' (if A = [] then B.getLastD 0 else A.getLastD 0)
      (if B = [] then A.headD 0 else B.headD 0)) :
    IsRingR R' (A ++ B) := by
  obtain ⟨hne0, hnd, hch, hcl⟩ := hr
  have hdec := chainedR_append.mp hch
  obtain ⟨hchA, hcheB, hjun⟩ := hdec
  refine ⟨hne, (List.Sublist.append_left (List.sublist_cons_self e B) A).nodup hnd, ?_, ?_⟩
  · rw [chainedR_append]
    refine ⟨chainedR_congr (fun a b ha hb hab =>
        hcong a b (List.mem_append_left _ ha) (List.mem_append_left _ hb) hab) hchA,
      chainedR_congr (fun a b ha hb hab =>
        hcong a b (List.mem_append_right _ ha) (List.mem_append_right _ hb) hab)
        (chainedR_tail hcheB), ?_⟩
    intro hA hB
    rw [if_neg hA, if_neg hB] at hnew
    exact hnew
  · by_cases hA : A = []
    · subst hA
      have hB : B ≠ [] := by simpa using hne
      rw [if_pos rfl, if_neg hB] at hnew
      simpa using hnew
    · by_cases hB : B = []
      · subst hB
        rw [if_neg hA, if_pos rfl] at hnew
        rw [List.append_nil]
        exact hnew
      · have hcl2 : R (B.getLastD 0) (A.headD 0) := by
          rw [getLastD_append_cons A 0, getLastD_irrel hB e 0, headD_append_left hA] at hcl
          exact hcl
        have htr := hcong _ _ (List.mem_append_right _ (getLastD_mem hB 0))
          (List.mem_append_left _ (headD_mem hA 0)) hcl2
        rw [getLastD_append_right hB A 0, headD_append_left hA]
        exact htr

theorem IsRingR_insert_second {R R' : Nat → Nat → Prop} {hd e : Nat} {t : List Nat}
    (hr : IsRingR R (hd :: t)) (hnotin : e ∉ hd :: t)
    (h1 : R' hd e) (h2 : R' e (t.headD hd))
    (hcong : ∀ a b, a ∈ t → b ∈ t → b ≠ t.headD 0 → R a b → R' a b)
    (hclo : t ≠ [] → R' (t.getLastD 0) hd) :
    IsRingR R' (hd :: e :: t) := by
  obtain ⟨hne0, hnd, hch, hcl⟩ := hr
  rw [List.mem_cons, not_or] at hnotin
  refine ⟨by simp, ?_, ?_, ?_⟩
  · rw [List.nodup_cons] at hnd ⊢
    refine ⟨?_, ?_⟩
    · rw [List.mem_cons, not_or]
      exact ⟨fun heq => hnotin.1 heq.symm, hnd.1⟩
    · rw [List.nodup_cons]
      exact ⟨hnotin.2, hnd.2⟩
  · cases t with
    | nil => exact ⟨h1, trivial⟩
    | cons x t2 =>
        refine ⟨h1, ?_, ?_⟩
        · simpa using h2
        · have hcht : chainedR R (x :: t2) := (chainedR_cons.mp hch).2
          have hndt : (x :: t2).Nodup := (List.nodup_cons.mp hnd).2
          exact chainedR_congr_inner hndt
            (fun a b ha hb hal hbh hab => hcong a b ha hb hbh hab) hcht
  · cases t with
    | nil => simpa using h2
    | cons x t2 =>
        have hclold : R ((x :: t2).getLastD 0) hd := by
          simpa [List.getLastD_cons] using hcl
        have := hclo (by simp)
        simpa [List.getLastD_cons] using this

theorem setArr_get_same (s : Cedar) (i : Nat) (n : node) : (s.setArr i n).Array i = n :=
  upd_self s.Array i n

theorem setArr_get_other (s : Cedar) (i : Nat) (n : node) (j : Nat) (h : j ≠ i) :
    (s.setArr i n).Array j = s.Array j :=
  upd_other s.Array i n j h

theorem setACheck_get_same (s : Cedar) (i : Nat) (v : Int) :
    (s.setACheck i v).Array i = { s.Array i with Check := v } :=
  upd_self s.Array i _

theorem setACheck_get_other (s : Cedar) (i : Nat) (v : Int) (j : Nat) (h : j ≠ i) :
    (s.setACheck i v).Array j = s.Array j :=
  upd_other s.Array i _ j h

theorem setAValue_get_same (s : Cedar) (i : Nat) (v : Int) :
    (s.setAValue i v).Array i = { s.Array i with Value := v } :=
  upd_self s.Array i _

theorem setAValue_get_other (s : Cedar) (i : Nat) (v : Int) (j : Nat) (h : j ≠ i) :
    (s.setAValue i v).Array j = s.Array j :=
  upd_other s.Array i _ j h

theorem eringR_eq_of {s s' : Cedar} (hA : s'.Array = s.Array) : eringR s' = eringR s := by
  unfold eringR
  rw [hA]

theorem sringAt_transport {s s' : Cedar} {b : Nat} {L : List Nat}
    (hA : s'.Array = s.Array)
    (hN : (s'.Blocks b).Num = (s.Blocks b).Num)
    (hE : (s'.Blocks b).Ehead = (s.Blocks b).Ehead)
    (hr : sringAt s b L) : sringAt s' b L := by
  obtain ⟨h1, h2, h3⟩ := hr
  refine ⟨hN.trans h1, h2, fun hne => ⟨?_, ?_⟩⟩
  · rw [eringR_eq_of hA]
    exact (h3 hne).1
  · rw [hE]
    exact (h3 hne).2

theorem EnodeInv_transport {s s' : Cedar}
    (hA : s'.Array = s.Array)
    (hN : ∀ j, (s'.Blocks j).Num = (s.Blocks j).Num ∧ (s'.Blocks j).Ehead = (s.Blocks j).Ehead)
    (hS : s'.Size = s.Size) {free : Nat → List Nat}
    (hr : EnodeInv s free) : EnodeInv s' free := by
  obtain ⟨h1, h2⟩ := hr
  constructor
  · intro b hb
    rw [hS] at hb
    exact sringAt_transport hA (hN b).1 (hN b).2 (h1 b hb)
  · intro e he
    rw [hS] at he
    rw [hA]
    exact h2 e he

theorem transferBlock_blocks (s : Cedar) (bi : Nat) (hin hout : BH) (j : Nat) :
    ((transferBlock s bi hin hout).Blocks j).Num = (s.Blocks j).Num ∧
    ((transferBlock s bi hin hout).Blocks j).Ehead = (s.Blocks j).Ehead := by
  have key : ∀ (t : Cedar) (flag : Bool),
      ((pushBlock t bi hout flag).Blocks j).Num = (t.Blocks j).Num ∧
      ((pushBlock t bi hout flag).Blocks j).Ehead = (t.Blocks j).Ehead := by
    intro t flag
    cases flag with
    | true =>
        rw [(pushBlock_fields_empty t bi hout).1 j]
        split
        · rename_i heq
          subst heq
          exact ⟨rfl, rfl⟩
        · exact ⟨rfl, rfl⟩
    | false =>
        have hpf := (pushBlock_fields t bi hout).2.2.1 j
        exact ⟨hpf.1, hpf.2.2.2⟩
  have key2 : ∀ (flag : Bool),
      ((popBlock s bi hin flag).Blocks j).Num = (s.Blocks j).Num ∧
      ((popBlock s bi hin flag).Blocks j).Ehead = (s.Blocks j).Ehead := by
    intro flag
    cases flag with
    | true =>
        have e1 : (popBlock s bi hin true).Blocks j = s.Blocks j := by
          show ((s.setHeadV hin 0).Blocks j) = _
          rw [setHeadV_Blocks]
        rw [e1]
        exact ⟨rfl, rfl⟩
    | false =>
        have hfl := (popBlock_fields s bi hin).2.2.1 j
        exact ⟨hfl.1, hfl.2.2.2⟩
  exact ⟨((key (popBlock s bi hin (decide (bi = (s.Blocks bi).Next))) _).1.trans
      (key2 _).1),
    ((key (popBlock s bi hin (decide (bi = (s.Blocks bi).Next))) _).2.trans
      (key2 _).2)⟩

theorem pushEnode_first (s : Cedar) (e : Nat)
    (hnum : (s.Blocks (e >>> 8)).Num + 1 = 1) :
    pushEnode s e =
      (let s1 := s.setBlk (e >>> 8)
        { s.Blocks (e >>> 8) with Num := (s.Blocks (e >>> 8)).Num + 1 }
       let s2 := s1.setBlk (e >>> 8) { s1.Blocks (e >>> 8) with Ehead := e }
       let s3 := s2.setArr e ⟨-(e : Int), -(e : Int)⟩
       let s4 := if e >>> 8 ≠ 0 then transferBlock s3 (e >>> 8) .F .C else s3
       let s5 := if (s4.Blocks (e >>> 8)).Reject < s4.Reject ((s4.Blocks (e >>> 8)).Num).toNat
         then s4.setBlk (e >>> 8)
           { s4.Blocks (e >>> 8) with Reject := s4.Reject ((s4.Blocks (e >>> 8)).Num).toNat }
         else s4
       s5.setNin e ⟨0, 0, false⟩) := by
  have hA : ((s.setBlk (e >>> 8)
      { s.Blocks (e >>> 8) with Num := (s.Blocks (e >>> 8)).Num + 1 }).Blocks
        (e >>> 8)).Num = 1 := by
    rw [setBlk_same]
    exact hnum
  unfold pushEnode
  dsimp only
  rw [if_pos hA]

theorem pushEnode_rest (s : Cedar) (e : Nat)
    (hnum : (s.Blocks (e >>> 8)).Num + 1 ≠ 1) :
    pushEnode s e =
      (let s1 := s.setBlk (e >>> 8)
        { s.Blocks (e >>> 8) with Num := (s.Blocks (e >>> 8)).Num + 1 }
       let prev := (s1.Blocks (e >>> 8)).Ehead
       let nx := (-(s1.Array prev).Check).toNat
       let s4 := ((s1.setArr e ⟨-(prev : Int), -(nx : Int)⟩).setACheck prev
         (-(e : Int))).setAValue nx (-(e : Int))
       let s5 := if ((s4.Blocks (e >>> 8)).Num = 2 ∨ (s4.Blocks (e >>> 8)).Trial = s4.MaxTrial)
           ∧ e >>> 8 ≠ 0 then transferBlock s4 (e >>> 8) .C .O else s4
       let s6 := s5.setBlk (e >>> 8) { s5.Blocks (e >>> 8) with Trial := 0 }
       let s7 := if (s6.Blocks (e >>> 8)).Reject < s6.Reject ((s6.Blocks (e >>> 8)).Num).toNat
         then s6.setBlk (e >>> 8)
           { s6.Blocks (e >>> 8) with Reject := s6.Reject ((s6.Blocks (e >>> 8)).Num).toNat }
         else s6
       s7.setNin e ⟨0, 0, false⟩) := by
  have hA : ¬ ((s.setBlk (e >>> 8)
      { s.Blocks (e >>> 8) with Num := (s.Blocks (e >>> 8)).Num + 1 }).Blocks
        (e >>> 8)).Num = 1 := by
    rw [setBlk_same]
    exact hnum
  unfold pushEnode
  dsimp only
  rw [if_neg hA]

theorem setBlk_blocks_NE (t : Cedar) (i : Nat) (b2 : block)
    (hN : b2.Num = (t.Blocks i).Num) (hE : b2.Ehead = (t.Blocks i).Ehead) (j : Nat) :
    ((t.setBlk i b2).Blocks j).Num = (t.Blocks j).Num ∧
    ((t.setBlk i b2).Blocks j).Ehead = (t.Blocks j).Ehead := by
  by_cases hj : j = i
  · subst hj
    rw [setBlk_same]
    exact ⟨hN, hE⟩
  · rw [setBlk_other _ _ _ _ hj]
    exact ⟨rfl, rfl⟩

theorem pushEnode_slot_inv (s : Cedar) (free : Nat → List Nat) (e : Nat)
    (hinv : EnodeInv s free) (he : e < s.Size) (he1 : 1 ≤ e)
    (hocc : ¬ (s.Array e).Check < 0) (hdvd : 256 ∣ s.Size) :
    EnodeInv (pushEnode s e)
      (upd free (e >>> 8)
        (match free (e >>> 8) with
          | [] => [e]
          | hd :: t => hd :: e :: t)) := by
  obtain ⟨hrings, hfree⟩ := hinv
  obtain ⟨k, hk⟩ := hdvd
  have h256 : (2 : Nat) ^ 8 = 256 := by norm_num
  have hsz8 : s.Size >>> 8 = k := by
    rw [Nat.shiftRight_eq_div_pow, hk, h256]
    exact Nat.mul_div_cancel_left k (by norm_num)
  have he8 : e >>> 8 < s.Size >>> 8 := by
    rw [Nat.shiftRight_eq_div_pow, hsz8, h256]
    refine (Nat.div_lt_iff_lt_mul (by norm_num : (0:Nat) < 256)).mpr ?_
    omega
  have hbs := hrings (e >>> 8) he8
  have hnotmem : e ∉ free (e >>> 8) := fun hm => hocc ((hfree e he).mpr hm)
  cases hL : free (e >>> 8) with
  | nil =>
      have hnum0 : (s.Blocks (e >>> 8)).Num = 0 := by
        have := hbs.1
        rw [hL] at this
        simpa using this
      rw [pushEnode_first s e (by omega)]
      dsimp only
      set s1 := s.setBlk (e >>> 8)
        { s.Blocks (e >>> 8) with Num := (s.Blocks (e >>> 8)).Num + 1 } with hs1
      set s2 := s1.setBlk (e >>> 8) { s1.Blocks (e >>> 8) with Ehead := e } with hs2
      set s3 := s2.setArr e ⟨-(e : Int), -(e : Int)⟩ with hs3
      have ha_same : s3.Array e = ⟨-(e : Int), -(e : Int)⟩ := setArr_get_same s2 e _
      have ha_other : ∀ j, j ≠ e → s3.Array j = s.Array j := by
        intro j hj
        have h1 : s3.Array j = s2.Array j := setArr_get_other s2 e _ j hj
        exact h1
      have hblk_same_num : (s3.Blocks (e >>> 8)).Num = (s.Blocks (e >>> 8)).Num + 1 := by
        show (s2.Blocks (e >>> 8)).Num = _
        rw [hs2, setBlk_same]
        show (s1.Blocks (e >>> 8)).Num = _
        rw [hs1, setBlk_same]
      have hblk_same_eh : (s3.Blocks (e >>> 8)).Ehead = e := by
        show (s2.Blocks (e >>> 8)).Ehead = _
        rw [hs2, setBlk_same]
      have hblk_other : ∀ b, b ≠ e >>> 8 →
          (s3.Blocks b).Num = (s.Blocks b).Num ∧ (s3.Blocks b).Ehead = (s.Blocks b).Ehead := by
        intro b hb
        show (s2.Blocks b).Num = _ ∧ (s2.Blocks b).Ehead = _
        rw [hs2, setBlk_other _ _ _ _ hb, hs1, setBlk_other _ _ _ _ hb]
        exact ⟨rfl, rfl⟩
      have hcore : EnodeInv s3 (upd free (e >>> 8) [e]) := by
        constructor
        · intro b hb
          by_cases hbb : b = e >>> 8
          · subst hbb
            rw [upd_self]
            refine ⟨?_, ?_, fun _ => ⟨?_, ?_⟩⟩
            · rw [hblk_same_num, hnum0]
              simp
            · intro x hx
              have hx1 : x = e := by simpa using hx
              subst hx1
              exact ⟨rfl, he1⟩
            · refine ⟨by simp, by simp, trivial, ?_⟩
              show eringR s3 e e
              constructor
              · rw [ha_same]
              · rw [ha_same]
            · rw [hblk_same_eh]
              rfl
          · rw [upd_other _ _ _ _ hbb]
            obtain ⟨ho1, ho2, ho3⟩ := hrings b hb
            have hne_mem : ∀ x, x ∈ free b → x ≠ e := by
              intro x hx heq
              exact hbb ((heq ▸ (ho2 x hx).1).symm ▸ rfl)
            refine ⟨((hblk_other b hbb).1).trans ho1, ho2, fun hne => ⟨?_, ?_⟩⟩
            · refine IsRingR_congr ?_ (ho3 hne).1
              intro a b2 ha hb2 hab
              obtain ⟨g1, g2⟩ := hab
              exact ⟨(ha_other a (hne_mem a ha)).symm ▸ g1,
                (ha_other b2 (hne_mem b2 hb2)).symm ▸ g2⟩
            · exact ((hblk_other b hbb).2).trans (ho3 hne).2
        · intro x hx
          by_cases hxe : x = e
          · subst hxe
            rw [upd_self]
            refine ⟨fun _ => by simp, fun _ => ?_⟩
            rw [ha_same]
            show -(x : Int) < 0
            omega
          · have hax := ha_other x hxe
            rw [hax]
            by_cases hxb : x >>> 8 = e >>> 8
            · rw [hxb, upd_self]
              have hold := hfree x hx
              rw [hxb, hL] at hold
              constructor
              · intro hc
                exact absurd (hold.mp hc) (by simp)
              · intro hm
                have : x = e := by simpa using hm
                exact absurd this hxe
            · rw [upd_other _ _ _ _ hxb]
              exact hfree x hx
      have hstep1 : EnodeInv (if e >>> 8 ≠ 0 then transferBlock s3 (e >>> 8) .F .C else s3)
          (upd free (e >>> 8) [e]) := by
        split
        · exact EnodeInv_transport (transferBlock_frame s3 (e >>> 8) .F .C).1
            (fun j => transferBlock_blocks s3 (e >>> 8) .F .C j)
            (transferBlock_frame s3 (e >>> 8) .F .C).2.2.1 hcore
        · exact hcore
      set s4 := if e >>> 8 ≠ 0 then transferBlock s3 (e >>> 8) .F .C else s3 with hs4
      have hstep2 : EnodeInv
          (if (s4.Blocks (e >>> 8)).Reject < s4.Reject ((s4.Blocks (e >>> 8)).Num).toNat
            then s4.setBlk (e >>> 8)
              { s4.Blocks (e >>> 8) with
                Reject := s4.Reject ((s4.Blocks (e >>> 8)).Num).toNat }
            else s4) (upd free (e >>> 8) [e]) := by
        split
        · refine EnodeInv_transport ?_ (fun j => ?_) ?_ hstep1
          · rfl
          · refine setBlk_blocks_NE s4 (e >>> 8) _ ?_ ?_ j <;> rfl
          · rfl
        · exact hstep1
      refine EnodeInv_transport ?_ (fun j => ⟨rfl, rfl⟩) ?_ hstep2
      · rfl
      · rfl
  | cons hd t =>
      obtain ⟨hb1, hb2, hb3⟩ := hbs
      rw [hL] at hb1 hb2 hb3 hnotmem
      have hring := (hb3 (by simp)).1
      have hndL : (hd :: t).Nodup := hring.2.1
      have hEhead : (s.Blocks (e >>> 8)).Ehead = hd := by
        have := (hb3 (by simp)).2
        simpa using this
      have hsucc : eringR s hd (t.headD hd) := by
        have h0 := @ring_next_of_decomp (eringR s) [] hd t hring
        cases t with
        | nil => simpa using h0
        | cons x t2 => simpa using h0
      have hx0_mem : t.headD hd ∈ hd :: t := by
        cases t with
        | nil => simp
        | cons x t2 => simp
      have hhd8 : hd >>> 8 = e >>> 8 ∧ 1 ≤ hd := hb2 hd (by simp)
      have hx08 : (t.headD hd) >>> 8 = e >>> 8 ∧ 1 ≤ t.headD hd := hb2 _ hx0_mem
      have hhd_ne : hd ≠ e := fun heq => hnotmem (heq ▸ List.mem_cons_self hd t)
      have hx0_ne : t.headD hd ≠ e := fun heq => hnotmem (heq ▸ hx0_mem)
      have hnum1 : (s.Blocks (e >>> 8)).Num = ((t.length + 1 : Nat) : Int) := by
        simpa using hb1
      rw [pushEnode_rest s e (by rw [hnum1]; push_cast; omega)]
      dsimp only
      set s1 := s.setBlk (e >>> 8)
        { s.Blocks (e >>> 8) with Num := (s.Blocks (e >>> 8)).Num + 1 } with hs1
      have hpveq : (s1.Blocks (e >>> 8)).Ehead = hd := by
        rw [hs1, setBlk_same]
        exact hEhead
      rw [hpveq]
      have harr1 : s1.Array = s.Array := rfl
      rw [harr1, hsucc.1]
      simp only [neg_neg, Int.toNat_natCast]
      set x0 := t.headD hd with hx0def
      set s4 := ((s1.setArr e ⟨-(hd : Int), -(x0 : Int)⟩).setACheck hd
        (-(e : Int))).setAValue x0 (-(e : Int)) with hs4
      have haC_e : (s4.Array e).Check = -(x0 : Int) := by
        rw [hs4, setAValue_get_other _ _ _ _ (Ne.symm hx0_ne),
          setACheck_get_other _ _ _ _ (Ne.symm hhd_ne), setArr_get_same]
      have haV_e : (s4.Array e).Value = -(hd : Int) := by
        rw [hs4, setAValue_get_other _ _ _ _ (Ne.symm hx0_ne),
          setACheck_get_other _ _ _ _ (Ne.symm hhd_ne), setArr_get_same]
      have haV_x0 : (s4.Array x0).Value = -(e : Int) := by
        rw [hs4, setAValue_get_same]
      have haC_hd : (s4.Array hd).Check = -(e : Int) := by
        rw [hs4]
        by_cases hhx : hd = x0
        · rw [← hhx, setAValue_get_same]
          show (((s1.setArr e ⟨-(hd : Int), -(hd : Int)⟩).setACheck hd
            (-(e : Int))).Array hd).Check = -(e : Int)
          rw [setACheck_get_same]
        · rw [setAValue_get_other _ _ _ _ hhx, setACheck_get_same]
      have haC_other : ∀ j, j ≠ e → j ≠ hd → (s4.Array j).Check = (s.Array j).Check := by
        intro j hj1 hj2
        rw [hs4]
        by_cases hjx : j = x0
        · rw [hjx, setAValue_get_same]
          show (((s1.setArr e ⟨-(hd : Int), -(x0 : Int)⟩).setACheck hd
            (-(e : Int))).Array x0).Check = _
          rw [setACheck_get_other _ _ _ _ (hjx ▸ hj2 : x0 ≠ hd),
            setArr_get_other _ _ _ _ (hjx ▸ hj1 : x0 ≠ e), harr1]
        · rw [setAValue_get_other _ _ _ _ hjx,
            setACheck_get_other _ _ _ _ hj2, setArr_get_other _ _ _ _ hj1, harr1]
      have haV_other : ∀ j, j ≠ e → j ≠ x0 → (s4.Array j).Value = (s.Array j).Value := by
        intro j hj1 hj2
        rw [hs4, setAValue_get_other _ _ _ _ hj2]
        by_cases hjh : j = hd
        · rw [hjh, setACheck_get_same]
          show ((s1.setArr e ⟨-(hd : Int), -(x0 : Int)⟩).Array hd).Value = _
          rw [setArr_get_other _ _ _ _ hhd_ne, harr1]
        · rw [setACheck_get_other _ _ _ _ hjh, setArr_get_other _ _ _ _ hj1, harr1]
      have ha_away : ∀ j, j ≠ e → j ≠ hd → j ≠ x0 → s4.Array j = s.Array j := by
        intro j hj1 hj2 hj3
        rw [hs4, setAValue_get_other _ _ _ _ hj3,
          setACheck_get_other _ _ _ _ hj2, setArr_get_other _ _ _ _ hj1, harr1]
      have hblk4_num : (s4.Blocks (e >>> 8)).Num = (s.Blocks (e >>> 8)).Num + 1 := by
        show (s1.Blocks (e >>> 8)).Num = _
        rw [hs1, setBlk_same]
      have hblk4_eh : (s4.Blocks (e >>> 8)).Ehead = hd := by
        show (s1.Blocks (e >>> 8)).Ehead = _
        exact hpveq
      have hblk4_other : ∀ b, b ≠ e >>> 8 →
          (s4.Blocks b).Num = (s.Blocks b).Num ∧ (s4.Blocks b).Ehead = (s.Blocks b).Ehead := by
        intro b hb
        show (s1.Blocks b).Num = _ ∧ (s1.Blocks b).Ehead = _
        rw [hs1, setBlk_other _ _ _ _ hb]
        exact ⟨rfl, rfl⟩
      have hring4 : IsRingR (eringR s4) (hd :: e :: t) := by
        refine IsRingR_insert_second hring hnotmem ⟨haC_hd, haV_e⟩ ⟨haC_e, haV_x0⟩ ?_ ?_
        · intro a b2 ha hb2 hbh hab
          have hat : t ≠ [] := List.ne_nil_of_mem ha
          have hhd_notin : hd ∉ t := (List.nodup_cons.mp hndL).1
          have hane : a ≠ e := fun heq => hnotmem (heq ▸ List.mem_cons_of_mem hd ha)
          have hahd : a ≠ hd := fun heq => hhd_notin (heq ▸ ha)
          have hbne : b2 ≠ e := fun heq => hnotmem (heq ▸ List.mem_cons_of_mem hd hb2)
          have hbx0 : b2 ≠ x0 := by
            rw [hx0def]
            cases t with
            | nil => exact absurd rfl hat
            | cons y t2 =>
                intro heq
                exact hbh (by simpa using heq)
          exact ⟨(haC_other a hane hahd).symm ▸ hab.1, (haV_other b2 hbne hbx0).symm ▸ hab.2⟩
        · intro hat
          have hhd_notin : hd ∉ t := (List.nodup_cons.mp hndL).1
          have hlm : t.getLastD 0 ∈ t := getLastD_mem hat 0
          have hlne : t.getLastD 0 ≠ e := fun heq =>
            hnotmem (heq ▸ List.mem_cons_of_mem hd hlm)
          have hlhd : t.getLastD 0 ≠ hd := fun heq => hhd_notin (heq ▸ hlm)
          have hhdx0 : hd ≠ x0 := by
            rw [hx0def]
            cases t with
            | nil => exact absurd rfl hat
            | cons y t2 =>
                intro heq
                have hy : hd = y := by simpa using heq
                exact hhd_notin (by rw [hy]; exact List.mem_cons_self y t2)
          have hclold : eringR s (t.getLastD 0) hd := by
            have hcl := hring.2.2.2
            have : (hd :: t).getLastD 0 = t.getLastD 0 := by
              rw [List.getLastD_cons, getLastD_irrel hat hd 0]
            rw [this] at hcl
            simpa using hcl
          exact ⟨(haC_other _ hlne hlhd).symm ▸ hclold.1,
            (haV_other hd hhd_ne hhdx0).symm ▸ hclold.2⟩
      have hcore : EnodeInv s4 (upd free (e >>> 8) (hd :: e :: t)) := by
        constructor
        · intro b hb
          by_cases hbb : b = e >>> 8
          · subst hbb
            rw [upd_self]
            refine ⟨?_, ?_, fun _ => ⟨hring4, ?_⟩⟩
            · rw [hblk4_num, hnum1]
              simp
            · intro x hx
              rcases List.mem_cons.mp hx with hx1 | hx1
              · exact hb2 x (hx1 ▸ List.mem_cons_self hd t)
              · rcases List.mem_cons.mp hx1 with hx2 | hx2
                · subst hx2
                  exact ⟨rfl, he1⟩
                · exact hb2 x (List.mem_cons_of_mem hd hx2)
            · rw [hblk4_eh]
              rfl
          · rw [upd_other _ _ _ _ hbb]
            obtain ⟨ho1, ho2, ho3⟩ := hrings b hb
            have hne_mem : ∀ x, x ∈ free b → x ≠ e ∧ x ≠ hd ∧ x ≠ x0 := by
              intro x hx
              have hxb := (ho2 x hx).1
              refine ⟨?_, ?_, ?_⟩
              · intro heq
                exact hbb ((heq ▸ hxb).symm ▸ rfl)
              · intro heq
                rw [heq] at hxb
                exact hbb (hhd8.1 ▸ hxb.symm ▸ rfl)
              · intro heq
                rw [heq] at hxb
                exact hbb (hx08.1 ▸ hxb.symm ▸ rfl)
            refine ⟨((hblk4_other b hbb).1).trans ho1, ho2, fun hne => ⟨?_, ?_⟩⟩
            · refine IsRingR_congr ?_ (ho3 hne).1
              intro a b2 ha hb2m hab
              obtain ⟨g1, g2⟩ := hab
              obtain ⟨n1, n2, n3⟩ := hne_mem a ha
              obtain ⟨m1, m2, m3⟩ := hne_mem b2 hb2m
              exact ⟨(ha_away a n1 n2 n3).symm ▸ g1, (ha_away b2 m1 m2 m3).symm ▸ g2⟩
            · exact ((hblk4_other b hbb).2).trans (ho3 hne).2
        · intro x hx
          by_cases hxe : x = e
          · subst hxe
            rw [upd_self]
            refine ⟨fun _ => by simp, fun _ => ?_⟩
            rw [haC_e]
            have := hx08.2
            omega
          · by_cases hxb : x >>> 8 = e >>> 8
            · rw [hxb, upd_self]
              have hold := hfree x hx
              rw [hxb, hL] at hold
              have hmemiff : x ∈ hd :: e :: t ↔ x ∈ hd :: t := by
                constructor
                · intro hm
                  rcases List.mem_cons.mp hm with h1 | h1
                  · exact h1 ▸ List.mem_cons_self hd t
                  · rcases List.mem_cons.mp h1 with h2 | h2
                    · exact absurd h2 hxe
                    · exact List.mem_cons_of_mem hd h2
                · intro hm
                  rcases List.mem_cons.mp hm with h1 | h1
                  · exact h1 ▸ List.mem_cons_self hd (e :: t)
                  · exact List.mem_cons_of_mem hd (List.mem_cons_of_mem e h1)
              rw [hmemiff]
              by_cases hxh : x = hd
              · subst hxh
                rw [haC_hd]
                constructor
                · intro _
                  exact List.mem_cons_self x t
                · intro _
                  omega
              · rw [haC_other x hxe hxh]
                exact hold
            · rw [upd_other _ _ _ _ hxb]
              by_cases hxh : x = hd
              · exact absurd (hxh ▸ hhd8.1 : x >>> 8 = e >>> 8) hxb
              · rw [haC_other x hxe hxh]
                exact hfree x hx
      have hstep1 : EnodeInv
          (if ((s4.Blocks (e >>> 8)).Num = 2 ∨ (s4.Blocks (e >>> 8)).Trial = s4.MaxTrial)
              ∧ e >>> 8 ≠ 0
            then transferBlock s4 (e >>> 8) .C .O else s4)
          (upd free (e >>> 8) (hd :: e :: t)) := by
        split
        · exact EnodeInv_transport (transferBlock_frame s4 (e >>> 8) .C .O).1
            (fun j => transferBlock_blocks s4 (e >>> 8) .C .O j)
            (transferBlock_frame s4 (e >>> 8) .C .O).2.2.1 hcore
        · exact hcore
      set s5 := if ((s4.Blocks (e >>> 8)).Num = 2 ∨ (s4.Blocks (e >>> 8)).Trial = s4.MaxTrial)
          ∧ e >>> 8 ≠ 0 then transferBlock s4 (e >>> 8) .C .O else s4 with hs5
      have hstep2 : EnodeInv (s5.setBlk (e >>> 8) { s5.Blocks (e >>> 8) with Trial := 0 })
          (upd free (e >>> 8) (hd :: e :: t)) := by
        refine EnodeInv_transport ?_ (fun j => ?_) ?_ hstep1
        · rfl
        · refine setBlk_blocks_NE s5 (e >>> 8) _ ?_ ?_ j <;> rfl
        · rfl
      set s6 := s5.setBlk (e >>> 8) { s5.Blocks (e >>> 8) with Trial := 0 } with hs6
      have hstep3 : EnodeInv
          (if (s6.Blocks (e >>> 8)).Reject < s6.Reject ((s6.Blocks (e >>> 8)).Num).toNat
            then s6.setBlk (e >>> 8)
              { s6.Blocks (e >>> 8) with
                Reject := s6.Reject ((s6.Blocks (e >>> 8)).Num).toNat }
            else s6) (upd free (e >>> 8) (hd :: e :: t)) := by
        split
        · refine EnodeInv_transport ?_ (fun j => ?_) ?_ hstep2
          · rfl
          · refine setBlk_blocks_NE s6 (e >>> 8) _ ?_ ?_ j <;> rfl
          · rfl
        · exact hstep2
      refine EnodeInv_transport ?_ (fun j => ⟨rfl, rfl⟩) ?_ hstep3
      · rfl
      · rfl

theorem popEnode_nonneg_zero (s : Cedar) (base : Int) (frm label : Nat)
    (hb : ¬ base < 0)
    (hz : (s.Blocks ((base.toNat ^^^ label) >>> 8)).Num - 1 = 0) :
    popEnode s base frm label =
      (base.toNat ^^^ label,
       let s1 := s.setBlk ((base.toNat ^^^ label) >>> 8)
        { s.Blocks ((base.toNat ^^^ label) >>> 8) with
          Num := (s.Blocks ((base.toNat ^^^ label) >>> 8)).Num - 1 }
       let s2 := if (base.toNat ^^^ label) >>> 8 ≠ 0
         then transferBlock s1 ((base.toNat ^^^ label) >>> 8) .C .F else s1
       (s2.setAValue (base.toNat ^^^ label) ValueLimit).setACheck
         (base.toNat ^^^ label) (frm : Int)) := by
  have hA : ((s.setBlk ((base.toNat ^^^ label) >>> 8)
      { s.Blocks ((base.toNat ^^^ label) >>> 8) with
        Num := (s.Blocks ((base.toNat ^^^ label) >>> 8)).Num - 1 }).Blocks
          ((base.toNat ^^^ label) >>> 8)).Num = 0 := by
    rw [setBlk_same]
    exact hz
  unfold popEnode
  rw [if_neg hb]
  dsimp only
  rw [if_pos hA, if_neg hb]

theorem popEnode_nonneg_pos (s : Cedar) (base : Int) (frm label : Nat)
    (hb : ¬ base < 0)
    (hz : (s.Blocks ((base.toNat ^^^ label) >>> 8)).Num - 1 ≠ 0) :
    popEnode s base frm label =
      (base.toNat ^^^ label,
       let s1 := s.setBlk ((base.toNat ^^^ label) >>> 8)
        { s.Blocks ((base.toNat ^^^ label) >>> 8) with
          Num := (s.Blocks ((base.toNat ^^^ label) >>> 8)).Num - 1 }
       let nv := (s1.Array (base.toNat ^^^ label)).Value
       let nc := (s1.Array (base.toNat ^^^ label)).Check
       let s2 := s1.setACheck (-nv).toNat nc
       let s3 := s2.setAValue (-nc).toNat nv
       let s4 := if (base.toNat ^^^ label) = (s3.Blocks ((base.toNat ^^^ label) >>> 8)).Ehead
         then s3.setBlk ((base.toNat ^^^ label) >>> 8)
           { s3.Blocks ((base.toNat ^^^ label) >>> 8) with Ehead := (-nc).toNat }
         else s3
       let s5 := if (base.toNat ^^^ label) >>> 8 ≠ 0 ∧
           (s4.Blocks ((base.toNat ^^^ label) >>> 8)).Num = 1 ∧
           (s4.Blocks ((base.toNat ^^^ label) >>> 8)).Trial ≠ s4.MaxTrial
         then transferBlock s4 ((base.toNat ^^^ label) >>> 8) .O .C else s4
       (s5.setAValue (base.toNat ^^^ label) ValueLimit).setACheck
         (base.toNat ^^^ label) (frm : Int)) := by
  have hA : ¬ ((s.setBlk ((base.toNat ^^^ label) >>> 8)
      { s.Blocks ((base.toNat ^^^ label) >>> 8) with
        Num := (s.Blocks ((base.toNat ^^^ label) >>> 8)).Num - 1 }).Blocks
          ((base.toNat ^^^ label) >>> 8)).Num = 0 := by
    rw [setBlk_same]
    exact hz
  unfold popEnode
  rw [if_neg hb]
  dsimp only
  rw [if_neg hA, if_neg hb]

theorem popEnode_slot_inv (s : Cedar) (free : Nat → List Nat) (base : Int) (frm label : Nat)
    (hinv : EnodeInv s free) (hb : ¬ base < 0)
    (he : base.toNat ^^^ label < s.Size)
    (hfre : (s.Array (base.toNat ^^^ label)).Check < 0)
    (hdvd : 256 ∣ s.Size) :
    (popEnode s base frm label).1 = base.toNat ^^^ label ∧
    EnodeInv (popEnode s base frm label).2
      (upd free ((base.toNat ^^^ label) >>> 8)
        ((free ((base.toNat ^^^ label) >>> 8)).erase (base.toNat ^^^ label))) := by
  obtain ⟨hrings, hfree⟩ := hinv
  obtain ⟨k, hk⟩ := hdvd
  have h256 : (2 : Nat) ^ 8 = 256 := by norm_num
  have hsz8 : s.Size >>> 8 = k := by
    rw [Nat.shiftRight_eq_div_pow, hk, h256]
    exact Nat.mul_div_cancel_left k (by norm_num)
  have he8 : (base.toNat ^^^ label) >>> 8 < s.Size >>> 8 := by
    rw [Nat.shiftRight_eq_div_pow, hsz8, h256]
    refine (Nat.div_lt_iff_lt_mul (by norm_num : (0:Nat) < 256)).mpr ?_
    omega
  have hbs := hrings ((base.toNat ^^^ label) >>> 8) he8
  have hmem : (base.toNat ^^^ label) ∈ free ((base.toNat ^^^ label) >>> 8) :=
    (hfree _ he).mp hfre
  by_cases hz : (s.Blocks ((base.toNat ^^^ label) >>> 8)).Num - 1 = 0
  · rw [popEnode_nonneg_zero s base frm label hb hz]
    refine ⟨rfl, ?_⟩
    obtain ⟨hb1, hb2, hb3⟩ := hbs
    have hlen1 : (free ((base.toNat ^^^ label) >>> 8)).length = 1 := by
      have : ((free ((base.toNat ^^^ label) >>> 8)).length : Int) = 1 := by
        rw [← hb1]
        omega
      exact_mod_cast this
    obtain ⟨a, hLa⟩ := List.length_eq_one.mp hlen1
    have hae : a = base.toNat ^^^ label := by
      rw [hLa] at hmem
      exact (List.mem_singleton.mp hmem).symm
    subst hae
    rw [hLa, List.erase_cons_head]
    dsimp only
    set s1 := s.setBlk ((base.toNat ^^^ label) >>> 8)
      { s.Blocks ((base.toNat ^^^ label) >>> 8) with
        Num := (s.Blocks ((base.toNat ^^^ label) >>> 8)).Num - 1 } with hs1
    set s2 := if (base.toNat ^^^ label) >>> 8 ≠ 0
      then transferBlock s1 ((base.toNat ^^^ label) >>> 8) .C .F else s1 with hs2
    have hArr2 : s2.Array = s.Array := by
      rw [hs2]
      split
      · exact (transferBlock_frame s1 _ .C .F).1
      · rfl
    have hSz2 : s2.Size = s.Size := by
      rw [hs2]
      split
      · exact (transferBlock_frame s1 _ .C .F).2.2.1
      · rfl
    have hNE2 : ∀ j, (s2.Blocks j).Num = (s1.Blocks j).Num ∧
        (s2.Blocks j).Ehead = (s1.Blocks j).Ehead := by
      intro j
      rw [hs2]
      split
      · exact transferBlock_blocks s1 _ .C .F j
      · exact ⟨rfl, rfl⟩
    set ee := base.toNat ^^^ label with hee
    have haway : ∀ j, j ≠ ee →
        (((s2.setAValue ee ValueLimit).setACheck ee (frm : Int)).Array j) = s.Array j := by
      intro j hj
      rw [setACheck_get_other _ _ _ _ hj, setAValue_get_other _ _ _ _ hj]
      rw [hArr2]
    have haCe : ((((s2.setAValue ee ValueLimit).setACheck ee (frm : Int))).Array ee).Check
        = (frm : Int) := by
      rw [setACheck_get_same]
    constructor
    · intro b hbnd
      have hbnd2 : b < s.Size >>> 8 := by
        have hSfin : ((s2.setAValue ee ValueLimit).setACheck ee (frm : Int)).Size = s.Size := hSz2
        rw [hSfin] at hbnd
        exact hbnd
      by_cases hbb : b = ee >>> 8
      · subst hbb
        rw [upd_self]
        refine ⟨?_, ?_, fun hcon => absurd rfl hcon⟩
        · show (s2.Blocks (ee >>> 8)).Num = _
          rw [(hNE2 _).1, hs1, setBlk_same]
          simp
          omega
        · intro x hx
          exact absurd hx (List.not_mem_nil _)
      · rw [upd_other _ _ _ _ hbb]
        obtain ⟨ho1, ho2, ho3⟩ := hrings b hbnd2
        have hne_mem : ∀ x, x ∈ free b → x ≠ ee := by
          intro x hx heq
          exact hbb ((heq ▸ (ho2 x hx).1).symm ▸ rfl)
        refine ⟨?_, ho2, fun hne => ⟨?_, ?_⟩⟩
        · show (s2.Blocks b).Num = _
          rw [(hNE2 b).1, hs1, setBlk_other _ _ _ _ hbb]
          exact ho1
        · refine IsRingR_congr ?_ (ho3 hne).1
          intro a2 b2 ha2 hb2 hab
          obtain ⟨g1, g2⟩ := hab
          exact ⟨(haway a2 (hne_mem a2 ha2)).symm ▸ g1,
            (haway b2 (hne_mem b2 hb2)).symm ▸ g2⟩
        · show (s2.Blocks b).Ehead = _
          rw [(hNE2 b).2, hs1, setBlk_other _ _ _ _ hbb]
          exact (ho3 hne).2
    · intro x hx
      have hx2 : x < s.Size := by
        have hSfin : ((s2.setAValue ee ValueLimit).setACheck ee (frm : Int)).Size = s.Size := hSz2
        rw [hSfin] at hx
        exact hx
      by_cases hxe : x = ee
      · subst hxe
        rw [upd_self]
        constructor
        · intro hc
          rw [haCe] at hc
          omega
        · intro hm
          exact absurd hm (List.not_mem_nil _)
      · rw [haway x hxe]
        by_cases hxb : x >>> 8 = ee >>> 8
        · rw [hxb, upd_self]
          have hold := hfree x hx2
          rw [hxb, hLa] at hold
          constructor
          · intro hc
            have := hold.mp hc
            have hxee : x = ee := by simpa using this
            exact absurd hxee hxe
          · intro hm
            exact absurd hm (List.not_mem_nil _)
        · rw [upd_other _ _ _ _ hxb]
          exact hfree x hx2
  · rw [popEnode_nonneg_pos s base frm label hb hz]
    refine ⟨rfl, ?_⟩
    set ee := base.toNat ^^^ label with hee
    obtain ⟨hb1, hb2, hb3⟩ := hbs
    have hLne : free (ee >>> 8) ≠ [] := List.ne_nil_of_mem hmem
    obtain ⟨hring, hEh⟩ := hb3 hLne
    obtain ⟨A, B, hLdec⟩ := List.append_of_mem hmem
    have hnd := hring.2.1
    rw [hLdec] at hring hnd hb1 hb2 hEh
    have hnd2 := hnd
    rw [List.nodup_append] at hnd2
    obtain ⟨hndA, hndeB, hdisj⟩ := hnd2
    have heeA : ee ∉ A := fun hmA => (hdisj hmA (by simp)).elim
    have heeB : ee ∉ B := (List.nodup_cons.mp hndeB).1
    have heeAB : ee ∉ A ++ B := by
      intro hmm
      rcases List.mem_append.mp hmm with hm | hm
      · exact heeA hm
      · exact heeB hm
    have hneAB : A ++ B ≠ [] := by
      intro hemp
      rcases List.append_eq_nil.mp hemp with ⟨rfl, rfl⟩
      rw [hb1] at hz
      simp at hz
    have hnext := @ring_next_of_decomp (eringR s) A ee B hring
    have hprev := @ring_prev_of_decomp (eringR s) A ee B hring
    set pd := if A = [] then B.getLastD 0 else A.getLastD 0 with hpd
    set sc := if B = [] then A.headD 0 else B.headD 0 with hsc
    have hprev2 : eringR s pd ee := by
      rw [hpd]
      by_cases hA : A = []
      · rw [if_pos hA]
        have hB : B ≠ [] := by
          intro hB
          exact hneAB (by rw [hA, hB]; rfl)
        have := hprev
        rw [if_pos hA, hA, List.nil_append, List.getLastD_cons,
          getLastD_irrel hB ee 0] at this
        exact this
      · rw [if_neg hA]
        have := hprev
        rw [if_neg hA] at this
        exact this
    have hnext2 : eringR s ee sc := by
      rw [hsc]
      by_cases hB : B = []
      · rw [if_pos hB]
        have hA : A ≠ [] := by
          intro hA
          exact hneAB (by rw [hA, hB]; rfl)
        have := hnext
        rw [if_pos hB, headD_append_left hA] at this
        exact this
      · rw [if_neg hB]
        have := hnext
        rw [if_neg hB] at this
        exact this
    have hpd_mem : pd ∈ A ++ B := by
      rw [hpd]
      by_cases hA : A = []
      · rw [if_pos hA]
        have hB : B ≠ [] := by
          intro hB
          exact hneAB (by rw [hA, hB]; rfl)
        exact List.mem_append_right _ (getLastD_mem hB 0)
      · rw [if_neg hA]
        exact List.mem_append_left _ (getLastD_mem hA 0)
    have hsc_mem : sc ∈ A ++ B := by
      rw [hsc]
      by_cases hB : B = []
      · rw [if_pos hB]
        have hA : A ≠ [] := by
          intro hA
          exact hneAB (by rw [hA, hB]; rfl)
        exact List.mem_append_left _ (headD_mem hA 0)
      · rw [if_neg hB]
        exact List.mem_append_right _ (headD_mem hB 0)
    have hsubL : ∀ x, x ∈ A ++ B → x ∈ A ++ ee :: B := by
      intro x hx
      rcases List.mem_append.mp hx with hm | hm
      · exact List.mem_append_left _ hm
      · exact List.mem_append_right _ (List.mem_cons_of_mem ee hm)
    have hpd_ne : pd ≠ ee := fun heq => heeAB (heq ▸ hpd_mem)
    have hsc_ne : sc ≠ ee := fun heq => heeAB (heq ▸ hsc_mem)
    have hpd8 := hb2 pd (hsubL pd hpd_mem)
    have hsc8 := hb2 sc (hsubL sc hsc_mem)
    have hnv : (s.Array ee).Value = -(pd : Int) := hprev2.2
    have hnc : (s.Array ee).Check = -(sc : Int) := hnext2.1
    dsimp only
    set s1 := s.setBlk (ee >>> 8)
      { s.Blocks (ee >>> 8) with Num := (s.Blocks (ee >>> 8)).Num - 1 } with hs1
    have harr1 : s1.Array = s.Array := rfl
    rw [harr1, hnv, hnc]
    simp only [neg_neg, Int.toNat_natCast]
    rw [hLdec, erase_of_decomp heeA]
    set s2 := s1.setACheck pd (-(sc : Int)) with hs2
    set s3 := s2.setAValue sc (-(pd : Int)) with hs3
    have harr2 : s2.Array = upd s.Array pd { s.Array pd with Check := -(sc : Int) } := rfl
    have hs3C_pd : (s3.Array pd).Check = -(sc : Int) := by
      rw [hs3]
      by_cases hps : pd = sc
      · rw [← hps, setAValue_get_same]
        show ((s2.Array pd)).Check = _
        rw [hs2, setACheck_get_same, hps]
      · rw [setAValue_get_other _ _ _ _ hps, hs2, setACheck_get_same]
    have hs3V_sc : (s3.Array sc).Value = -(pd : Int) := by
      rw [hs3, setAValue_get_same]
    have hs3C_other : ∀ j, j ≠ pd → (s3.Array j).Check = (s.Array j).Check := by
      intro j hj
      rw [hs3]
      by_cases hjs : j = sc
      · rw [hjs, setAValue_get_same]
        show (s2.Array sc).Check = _
        rw [hs2, setACheck_get_other _ _ _ _ (hjs ▸ hj : sc ≠ pd), harr1]
      · rw [setAValue_get_other _ _ _ _ hjs, hs2, setACheck_get_other _ _ _ _ hj, harr1]
    have hs3V_other : ∀ j, j ≠ sc → (s3.Array j).Value = (s.Array j).Value := by
      intro j hj
      rw [hs3, setAValue_get_other _ _ _ _ hj]
      by_cases hjp : j = pd
      · rw [hjp, hs2, setACheck_get_same]
        show (s1.Array pd).Value = _
        rw [harr1]
      · rw [hs2, setACheck_get_other _ _ _ _ hjp, harr1]
    have hs3_away : ∀ j, j ≠ pd → j ≠ sc → s3.Array j = s.Array j := by
      intro j hj1 hj2
      rw [hs3, setAValue_get_other _ _ _ _ hj2, hs2, setACheck_get_other _ _ _ _ hj1, harr1]
    have hs3_blocks : s3.Blocks = s1.Blocks := rfl
    have main : ∀ (s4 : Cedar),
        s4.Array = s3.Array →
        (s4.Blocks (ee >>> 8)).Num = (s.Blocks (ee >>> 8)).Num - 1 →
        (s4.Blocks (ee >>> 8)).Ehead = (A ++ B).headD 0 →
        (∀ j, j ≠ ee >>> 8 → (s4.Blocks j).Num = (s.Blocks j).Num ∧
          (s4.Blocks j).Ehead = (s.Blocks j).Ehead) →
        s4.Size = s.Size →
        EnodeInv
          (((if ee >>> 8 ≠ 0 ∧ (s4.Blocks (ee >>> 8)).Num = 1 ∧
              (s4.Blocks (ee >>> 8)).Trial ≠ s4.MaxTrial
            then transferBlock s4 (ee >>> 8) .O .C else s4).setAValue ee
              ValueLimit).setACheck ee (frm : Int))
          (upd free (ee >>> 8) (A ++ B)) := by
      intro s4 hArr4 hNumbb hEhbb hNE4 hSz4
      set s5 := if ee >>> 8 ≠ 0 ∧ (s4.Blocks (ee >>> 8)).Num = 1 ∧
          (s4.Blocks (ee >>> 8)).Trial ≠ s4.MaxTrial
        then transferBlock s4 (ee >>> 8) .O .C else s4 with hs5
      have hArr5 : s5.Array = s3.Array := by
        rw [hs5]
        split
        · exact ((transferBlock_frame s4 _ .O .C).1).trans hArr4
        · exact hArr4
      have hSz5 : s5.Size = s.Size := by
        rw [hs5]
        split
        · exact ((transferBlock_frame s4 _ .O .C).2.2.1).trans hSz4
        · exact hSz4
      have hNE5 : ∀ j, (s5.Blocks j).Num = (s4.Blocks j).Num ∧
          (s5.Blocks j).Ehead = (s4.Blocks j).Ehead := by
        intro j
        rw [hs5]
        split
        · exact transferBlock_blocks s4 _ .O .C j
        · exact ⟨rfl, rfl⟩
      have haway : ∀ j, j ≠ ee →
          (((s5.setAValue ee ValueLimit).setACheck ee (frm : Int)).Array j) = s3.Array j := by
        intro j hj
        rw [setACheck_get_other _ _ _ _ hj, setAValue_get_other _ _ _ _ hj, hArr5]
      have haCe : ((((s5.setAValue ee ValueLimit).setACheck ee (frm : Int))).Array ee).Check
          = (frm : Int) := by
        rw [setACheck_get_same]
      have hmem_iff : ∀ x, x ≠ ee → (x ∈ A ++ ee :: B ↔ x ∈ A ++ B) := by
        intro x hx
        constructor
        · intro hm
          rcases List.mem_append.mp hm with hm2 | hm2
          · exact List.mem_append_left _ hm2
          · rcases List.mem_cons.mp hm2 with hm3 | hm3
            · exact absurd hm3 hx
            · exact List.mem_append_right _ hm3
        · exact hsubL x
      constructor
      · intro b hbnd
        have hbnd2 : b < s.Size >>> 8 := by
          have hSfin : ((s5.setAValue ee ValueLimit).setACheck ee (frm : Int)).Size
              = s.Size := hSz5
          rw [hSfin] at hbnd
          exact hbnd
        by_cases hbb : b = ee >>> 8
        · subst hbb
          rw [upd_self]
          refine ⟨?_, ?_, fun _ => ⟨?_, ?_⟩⟩
          · show (s5.Blocks (ee >>> 8)).Num = _
            rw [(hNE5 _).1, hNumbb, hb1]
            simp
            omega
          · intro x hx
            exact hb2 x (hsubL x hx)
          · refine IsRingR_erase_mid hring hneAB ?_ ?_
            · intro a2 b2 ha2 hb2m hab
              have hane : a2 ≠ ee := fun heq => heeAB (heq ▸ ha2)
              have hbne : b2 ≠ ee := fun heq => heeAB (heq ▸ hb2m)
              by_cases hapd : a2 = pd
              · exfalso
                have h1 := hab.1
                rw [hapd, hprev2.1] at h1
                have : (ee : Int) = (b2 : Int) := by omega
                exact hbne (by exact_mod_cast this.symm)
              · by_cases hbsc : b2 = sc
                · exfalso
                  have h2 := hab.2
                  rw [hbsc, hnext2.2] at h2
                  have : (ee : Int) = (a2 : Int) := by omega
                  exact hane (by exact_mod_cast this.symm)
                · constructor
                  · rw [haway a2 hane, hs3C_other a2 hapd]
                    exact hab.1
                  · rw [haway b2 hbne, hs3V_other b2 hbsc]
                    exact hab.2
            · show eringR _ pd sc
              constructor
              · rw [haway pd hpd_ne, hs3C_pd]
              · rw [haway sc hsc_ne, hs3V_sc]
          · show (s5.Blocks (ee >>> 8)).Ehead = _
            rw [(hNE5 _).2, hEhbb]
        · rw [upd_other _ _ _ _ hbb]
          obtain ⟨ho1, ho2, ho3⟩ := hrings b hbnd2
          have hne_mem : ∀ x, x ∈ free b → x ≠ ee ∧ x ≠ pd ∧ x ≠ sc := by
            intro x hx
            have hxb := (ho2 x hx).1
            refine ⟨?_, ?_, ?_⟩
            · intro heq
              exact hbb ((heq ▸ hxb).symm ▸ rfl)
            · intro heq
              rw [heq] at hxb
              exact hbb (hpd8.1 ▸ hxb.symm ▸ rfl)
            · intro heq
              rw [heq] at hxb
              exact hbb (hsc8.1 ▸ hxb.symm ▸ rfl)
          refine ⟨?_, ho2, fun hne => ⟨?_, ?_⟩⟩
          · show (s5.Blocks b).Num = _
            rw [(hNE5 b).1, (hNE4 b hbb).1]
            exact ho1
          · refine IsRingR_congr ?_ (ho3 hne).1
            intro a2 b2 ha2 hb2m hab
            obtain ⟨g1, g2⟩ := hab
            obtain ⟨n1, n2, n3⟩ := hne_mem a2 ha2
            obtain ⟨m1, m2, m3⟩ := hne_mem b2 hb2m
            constructor
            · rw [haway a2 n1, hs3_away a2 n2 n3]
              exact g1
            · rw [haway b2 m1, hs3_away b2 m2 m3]
              exact g2
          · show (s5.Blocks b).Ehead = _
            rw [(hNE5 b).2, (hNE4 b hbb).2]
            exact (ho3 hne).2
      · intro x hx
        have hx2 : x < s.Size := by
          have hSfin : ((s5.setAValue ee ValueLimit).setACheck ee (frm : Int)).Size
              = s.Size := hSz5
          rw [hSfin] at hx
          exact hx
        by_cases hxe : x = ee
        · subst hxe
          rw [upd_self]
          constructor
          · intro hc
            rw [haCe] at hc
            omega
          · intro hm
            exact absurd hm heeAB
        · rw [haway x hxe]
          by_cases hxb : x >>> 8 = ee >>> 8
          · rw [hxb, upd_self]
            have hold := hfree x hx2
            rw [hxb, hLdec] at hold
            by_cases hxpd : x = pd
            · subst hxpd
              rw [hs3C_pd]
              constructor
              · intro _
                exact hpd_mem
              · intro _
                have := hsc8.2
                omega
            · rw [hs3C_other x hxpd]
              rw [hold]
              exact hmem_iff x hxe
          · rw [upd_other _ _ _ _ hxb]
            have hxpd : x ≠ pd := by
              intro heq
              rw [heq] at hxb
              exact hxb hpd8.1
            rw [hs3C_other x hxpd]
            exact hfree x hx2
    by_cases hA : A = []
    · have hB : B ≠ [] := by
        intro hB
        exact hneAB (by rw [hA, hB]; rfl)
      have hehead_s3 : (s3.Blocks (ee >>> 8)).Ehead = ee := by
        show (s1.Blocks (ee >>> 8)).Ehead = ee
        rw [hs1, setBlk_same]
        show (s.Blocks (ee >>> 8)).Ehead = ee
        rw [hEh, hA]
        rfl
      rw [if_pos hehead_s3.symm]
      refine main (s3.setBlk (ee >>> 8) { s3.Blocks (ee >>> 8) with
        Ehead := sc }) rfl ?_ ?_ ?_ rfl
      · rw [setBlk_same]
        show (s3.Blocks (ee >>> 8)).Num = _
        rw [hs3_blocks, hs1, setBlk_same]
      · rw [setBlk_same]
        show sc = (A ++ B).headD 0
        rw [hsc, if_neg hB, hA]
        rfl
      · intro j hj
        rw [setBlk_other _ _ _ _ hj]
        show (s1.Blocks j).Num = _ ∧ (s1.Blocks j).Ehead = _
        rw [hs1, setBlk_other _ _ _ _ hj]
        exact ⟨rfl, rfl⟩
    · have hehead_s3 : (s3.Blocks (ee >>> 8)).Ehead = A.headD 0 := by
        show (s1.Blocks (ee >>> 8)).Ehead = _
        rw [hs1, setBlk_same]
        show (s.Blocks (ee >>> 8)).Ehead = _
        rw [hEh, headD_append_left hA]
      have hcond : ¬ ee = (s3.Blocks (ee >>> 8)).Ehead := by
        rw [hehead_s3]
        intro heq
        exact heeA (heq ▸ headD_mem hA 0)
      rw [if_neg hcond]
      refine main s3 rfl ?_ ?_ ?_ rfl
      · show (s3.Blocks (ee >>> 8)).Num = _
        rw [hs3_blocks, hs1, setBlk_same]
      · rw [hehead_s3, headD_append_left hA]
      · intro j hj
        show (s1.Blocks j).Num = _ ∧ (s1.Blocks j).Ehead = _
        rw [hs1, setBlk_other _ _ _ _ hj]
        exact ⟨rfl, rfl⟩

theorem chainedR_range' {R : Nat → Nat → Prop} :
    ∀ (n a : Nat), (∀ i, i + 1 < n → R (a + i) (a + i + 1)) →
    chainedR R (List.range' a n)
  | 0, a, _ => trivial
  | 1, a, _ => trivial
  | (n+2), a, h => by
      rw [List.range'_succ]
      have h2 : List.range' (a+1) (n+1) = (a+1) :: List.range' (a+2) n := by
        rw [List.range'_succ]
      rw [h2]
      refine ⟨?_, ?_⟩
      · have := h 0 (by omega)
        simpa using this
      · rw [← h2]
        refine chainedR_range' (n+1) (a+1) ?_
        intro i hi
        have h3 := h (i+1) (by omega)
        have e1 : a + (i + 1) = a + 1 + i := by omega
        rw [e1] at h3
        exact h3

theorem range'_getLastD : ∀ (n a : Nat), (List.range' a (n+1)).getLastD 0 = a + n
  | 0, a => rfl
  | (n+1), a => by
      rw [List.range'_succ, List.getLastD_cons]
      have h2 : List.range' (a+1) (n+1) ≠ [] := by
        rw [List.range'_succ]
        simp
      rw [getLastD_irrel h2 a 0, range'_getLastD n (a+1)]
      omega

theorem addBlock_blocks (s : Cedar) (j : Nat) :
    ((addBlock s).2.Blocks j).Num = (if j = s.Size >>> 8 then (256 : Int) else (s.Blocks j).Num) ∧
    ((addBlock s).2.Blocks j).Ehead =
      (if j = s.Size >>> 8 then s.Size else (s.Blocks j).Ehead) := by
  have key : ∀ (t : Cedar) (bb : Nat) (flag : Bool) (jj : Nat),
      ((pushBlock t bb .O flag).Blocks jj).Num = (t.Blocks jj).Num ∧
      ((pushBlock t bb .O flag).Blocks jj).Ehead = (t.Blocks jj).Ehead := by
    intro t bb flag jj
    cases flag with
    | true =>
        rw [(pushBlock_fields_empty t bb .O).1 jj]
        split
        · rename_i heq
          subst heq
          exact ⟨rfl, rfl⟩
        · exact ⟨rfl, rfl⟩
    | false =>
        have hpf := (pushBlock_fields t bb .O).2.2.1 jj
        exact ⟨hpf.1, hpf.2.2.2⟩
  unfold addBlock
  dsimp only
  set c := (if s.Size = s.Capacity then { s with Capacity := 2 * s.Capacity } else s) with hc
  have hcS : c.Size = s.Size := by
    rw [hc]
    split <;> rfl
  have hcB : c.Blocks = s.Blocks := by
    rw [hc]
    split <;> rfl
  constructor
  · show ((pushBlock _ (c.Size >>> 8) BH.O _).Blocks j).Num = _
    rw [(key _ _ _ j).1]
    show (((c.setBlk (c.Size >>> 8) _).setBlk (c.Size >>> 8) _).Blocks j).Num = _
    by_cases hj : j = c.Size >>> 8
    · subst hj
      rw [setBlk_same, hcS, if_pos rfl]
      show ((c.setBlk (s.Size >>> 8) _).Blocks (s.Size >>> 8)).Num = (256 : Int)
      rw [setBlk_same]
    · rw [setBlk_other _ _ _ _ hj, setBlk_other _ _ _ _ hj, hcB,
        if_neg (fun heq => hj (by rw [hcS]; exact heq))]
  · show ((pushBlock _ (c.Size >>> 8) BH.O _).Blocks j).Ehead = _
    rw [(key _ _ _ j).2]
    show (((c.setBlk (c.Size >>> 8) _).setBlk (c.Size >>> 8) _).Blocks j).Ehead = _
    by_cases hj : j = c.Size >>> 8
    · subst hj
      rw [setBlk_same, hcS, if_pos rfl]
    · rw [setBlk_other _ _ _ _ hj, setBlk_other _ _ _ _ hj, hcB,
        if_neg (fun heq => hj (by rw [hcS]; exact heq))]

theorem addBlock_slot_inv (s : Cedar) (free : Nat → List Nat)
    (hinv : EnodeInv s free) (hdvd : 256 ∣ s.Size) (hpos : 0 < s.Size) :
    EnodeInv (addBlock s).2 (upd free (s.Size >>> 8) (List.range' s.Size 256)) := by
  obtain ⟨hrings, hfree⟩ := hinv
  obtain ⟨k, hk⟩ := hdvd
  have h256 : (2 : Nat) ^ 8 = 256 := by norm_num
  have hk1 : 1 ≤ k := by omega
  have hsz8 : s.Size >>> 8 = k := by
    rw [Nat.shiftRight_eq_div_pow, hk, h256]
    exact Nat.mul_div_cancel_left k (by norm_num)
  have hparts := addBlock_parts s
  have hSz : (addBlock s).2.Size = s.Size + 256 := hparts.2.1
  have hArr := hparts.2.2
  have hsz8p : (addBlock s).2.Size >>> 8 = k + 1 := by
    rw [hSz, Nat.shiftRight_eq_div_pow, h256, hk]
    have : 256 * k + 256 = (k + 1) * 256 := by ring
    rw [this]
    exact Nat.mul_div_cancel _ (by norm_num)
  have hA_old : ∀ j, j < s.Size → (addBlock s).2.Array j = s.Array j := by
    intro j hj
    rw [hArr]
    dsimp only
    rw [if_neg (by omega), if_neg (by omega), if_neg (by omega)]
  have hdiv8 : ∀ x, s.Size ≤ x → x < s.Size + 256 → x >>> 8 = s.Size >>> 8 := by
    intro x h1 h2
    rw [Nat.shiftRight_eq_div_pow, h256, hsz8]
    have hres : x / 256 = k := Nat.div_eq_of_lt_le (by omega) (by omega)
    exact hres
  have hlow8 : ∀ x, x < s.Size → x >>> 8 < k := by
    intro x h1
    rw [Nat.shiftRight_eq_div_pow, h256]
    refine (Nat.div_lt_iff_lt_mul (by norm_num : (0:Nat) < 256)).mpr ?_
    omega
  have hhd : (List.range' s.Size 256).headD 0 = s.Size := by
    rw [List.range'_succ]
    rfl
  have hgl : (List.range' s.Size 256).getLastD 0 = s.Size + 255 := range'_getLastD 255 s.Size
  have hne256 : List.range' s.Size 256 ≠ [] := by
    rw [List.range'_succ]
    simp
  have hring_new : IsRingR (eringR (addBlock s).2) (List.range' s.Size 256) := by
    refine ⟨hne256, List.nodup_range' _ _, ?_, ?_⟩
    · refine chainedR_range' 256 s.Size ?_
      intro i hi
      constructor
      · rw [hArr]
        dsimp only
        split_ifs <;> (try dsimp only) <;> (try push_cast) <;> omega
      · rw [hArr]
        dsimp only
        split_ifs <;> (try dsimp only) <;> (try push_cast) <;> omega
    · rw [hgl, hhd]
      constructor
      · rw [hArr]
        dsimp only
        split_ifs <;> (try dsimp only) <;> (try push_cast) <;> omega
      · rw [hArr]
        dsimp only
        split_ifs <;> (try dsimp only) <;> (try push_cast) <;> omega
  constructor
  · intro b hb
    rw [hsz8p] at hb
    by_cases hbb : b = s.Size >>> 8
    · subst hbb
      rw [upd_self]
      refine ⟨?_, ?_, fun _ => ⟨hring_new, ?_⟩⟩
      · rw [(addBlock_blocks s _).1, if_pos rfl]
        simp
      · intro x hx
        have hx2 := List.mem_range'_1.mp hx
        refine ⟨hdiv8 x hx2.1 hx2.2, by omega⟩
      · rw [(addBlock_blocks s _).2, if_pos rfl, hhd]
    · rw [upd_other _ _ _ _ hbb]
      have hbk : b < k := by
        rw [hsz8] at hbb
        omega
      have hbold : b < s.Size >>> 8 := by
        rw [hsz8]
        exact hbk
      obtain ⟨ho1, ho2, ho3⟩ := hrings b hbold
      have hmem_low : ∀ x, x ∈ free b → x < s.Size := by
        intro x hx
        have hxb := (ho2 x hx).1
        rw [Nat.shiftRight_eq_div_pow, h256] at hxb
        have : x < (b + 1) * 256 := by
          refine (Nat.div_lt_iff_lt_mul (by norm_num : (0:Nat) < 256)).mp ?_
          omega
        have : x < 256 * k := by omega
        omega
      refine ⟨?_, ho2, fun hne => ⟨?_, ?_⟩⟩
      · rw [(addBlock_blocks s b).1, if_neg hbb]
        exact ho1
      · refine IsRingR_congr ?_ (ho3 hne).1
        intro a2 b2 ha2 hb2 hab
        obtain ⟨g1, g2⟩ := hab
        refine ⟨?_, ?_⟩
        · rw [hA_old a2 (hmem_low a2 ha2)]
          exact g1
        · rw [hA_old b2 (hmem_low b2 hb2)]
          exact g2
      · rw [(addBlock_blocks s b).2, if_neg hbb]
        exact (ho3 hne).2
  · intro x hx
    rw [hSz] at hx
    by_cases hxlow : x < s.Size
    · rw [hA_old x hxlow]
      have hxb : x >>> 8 ≠ s.Size >>> 8 := by
        rw [hsz8]
        have := hlow8 x hxlow
        omega
      rw [upd_other _ _ _ _ hxb]
      exact hfree x hxlow
    · have hge : s.Size ≤ x := by omega
      rw [hdiv8 x hge (by omega), upd_self]
      constructor
      · intro _
        exact List.mem_range'_1.mpr ⟨hge, by omega⟩
      · intro _
        exact addBlock_fresh_check s x hpos hge (by omega)
